import Mathlib

/-!
# Lupra: hash table, array list, heap, linked list, bit array, bloom filter and IPv4 text

Shallow embedding of the closed-addressed hash table (`src/structs/hash_table.c`), of
the part of the doubly-linked list (`src/structs/linked_list.c`) that the table uses
for its bucket chains, of the array list (`src/structs/array_list.c`) with the binary
search of `src/algos/array.h`, of the binary heap built on the array list
(`src/structs/heap.c`), of the doubly-linked list with its nodes in memory (namespace
`Mem`), of the comparator `value_cmp_int` (`src/utils/value.c`), of the bit array
(`src/structs/bit_array.c`), of the bloom filter built on it
(`src/structs/bloom_filter.c`), and of the two IPv4 conversions of
`src/utils/net_utils.c`.

Conventions of the embedding

* `void*` payloads: keys are values of a type `K` on which the comparator and the
  hash function act; a value pointer is an `Option V`, `none` being `NULL`.
* A `hash_table_entry*` stored in a node is embedded as the entry it points to;
  the only in-place writes of the table (`p_entry->value = ...`) are embedded as a
  replacement of that entry inside its chain.  An entry handed to
  `hash_table_set_entry` is an allocation of its own, not one the table holds.
* A `linked_list` is embedded as the head-to-tail sequence of its node values
  together with its `size` field.  `head == NULL` is `nodes = []`.
* `size_t` is 64 bits wide.  The counters `entry_size` of a table and `size` of a
  list are natural numbers: they move by one per stored or re-inserted entry, so
  that `2 ^ 64` increments are needed before one wraps, and the subtractions of
  the code are never applied to a counter smaller than the number taken off.
* `malloc` succeeds.
* A dereference of `NULL`, a division by zero, an access outside the index
  array, a shift of a 32-bit operand by 32 or more and the read that
  `hash_table_del` makes of a node it has released, all of which C leaves undefined,
  are the results `Except.error` of type `Fault`.  `hash_table_del_stale` is the run
  of `hash_table_del` in which the released node yields the `nullptr` last written to
  it; it serves to count the table such a run leaves among the reachable states.
* The block of an array list is the list of its cells, one `void*` each (`none` is
  `NULL`); a read or write of `array[i]` outside the block is the fault
  `out_of_bounds`.  The cells a block gains in `realloc` are indeterminate in C; here
  they are `NULL`.
  The byte size `capacity * sizeof(void*)` of a block and the sum `pos + 1` of
  `array_list_set_at` are taken modulo `2 ^ 64`; the `size` of a list is a natural
  number, as above.
* The values of a heap are the pointees of type `α`; the comparator acts on nullable
  pointers, `Option α`.  The `array_list*` of a heap is embedded as the list it points
  to.  The reachable states of a heap are those in which a push is made on fewer than
  `2 ^ 53` values, so that the index arithmetic does not wrap and the conversion to
  `double` in `parent` is exact.
* In the namespace `Mem` a `list_node*` is an address, the index of the node in the
  memory that the list carries with it; `malloc` yields the next unused address; a
  released node keeps its fields and is marked `freed`.  The `size` of such a list is
  a `size_t` and moves modulo `2 ^ 64`.  The chains of the hash table use the list
  through `linked_list_push_tail` and `linked_list_del_at` on well-formed lists only,
  where the sequence of values changes as in the embedding of the chains (C26, C27).
* The block of a bit array is the list of its `uint32_t` words; `uint32_t` values are
  natural numbers below `2 ^ 32`, and the hash `murmur3`, of which the repository has
  the declaration only, is a parameter of the bloom filter functions.
* A C string is the list of its characters before the terminating NUL.  The libc
  functions `strtok`, `atoi` and `snprintf` (with the format `"%d"`) are embedded by
  what the C standard says of them; the loop over the tokens of
  `net_utils_ipv4_to_long` takes a bound on its iterations, which
  `net_utils_ipv4_to_long_returns` proves sufficient for every string.
* The recursive functions `heapify_up` and `heapify_down` take a bound on the depth of
  the recursion as first argument, and `heap_push` and `heap_pop` pass the bound that
  `heapify_up_fuel` and `heapify_down_fuel` prove sufficient in every state; the
  result `out_of_fuel` is the exhausted bound and no behaviour of the C code.
-/

namespace Lupra

/-- Abnormal terminations of the C code that the embedding makes explicit, and the
exhausted recursion bound `out_of_fuel` of the embedding itself. -/
inductive Fault where
  | null_deref
  | div_by_zero
  | out_of_bounds
  | shift_too_wide
  | use_after_free
  | out_of_fuel
  deriving DecidableEq

/-- The modulus of `size_t` arithmetic. -/
def SIZE_MOD : Nat := 2 ^ 64

/-- The struct `hash_table_entry` of `hash_table.h`. -/
structure hash_table_entry (K V : Type) where
  key : K
  value : Option V
  must_destroy : Nat
  deriving DecidableEq

/-- The struct `linked_list` of `linked_list.h`: node values from `head` to `tail`, and `size`. -/
structure linked_list (α : Type) where
  nodes : List α
  size : Nat
  deriving DecidableEq

/-- The function `linked_list_init`: `head = tail = nullptr`, `size = 0`, returns `true`. -/
def linked_list_init {α : Type} : linked_list α × Bool :=
  ({ nodes := [], size := 0 }, true)

/-- The function `linked_list_push_tail`: a new node becomes the tail, `++lst->size`. -/
def linked_list_push_tail {α : Type} (lst : linked_list α) (value : α) : linked_list α × Bool :=
  ({ nodes := lst.nodes ++ [value], size := lst.size + 1 }, true)

/-- The function `find_node_at`: the nodes from position `pos` on (`[]` is `nullptr`). -/
def find_node_at {α : Type} (list : List α) (pos : Nat) : List α :=
  list.drop pos

/-- The function `linked_list_del_at`: fails on an empty list and on a position that holds no
node; otherwise unlinks the node at `pos`, releases it and decrements `size`. -/
def linked_list_del_at {α : Type} (lst : linked_list α) (pos : Nat) : linked_list α × Bool :=
  match lst.nodes with
  | [] => (lst, false)
  | _ :: _ =>
    match find_node_at lst.nodes pos with
    | [] => (lst, false)
    | _ :: _ => ({ nodes := lst.nodes.eraseIdx pos, size := lst.size - 1 }, true)

/-- The struct `hash_table` of `hash_table.h`.  `index = none` is the `NULL` index of a table
that is not initialised; a slot `none` is a `NULL` chain pointer. -/
structure hash_table (K V : Type) where
  index_size : Nat
  entry_size : Nat
  index : Option (List (Option (linked_list (hash_table_entry K V))))
  key_cmp : K → K → Int
  key_hash : K → Nat → Nat

/-- The function `find_index`: `key_hash(key, index_size) % (index_size - 1)`, the subtraction
being one of `size_t`. -/
def find_index {K V : Type} (ht : hash_table K V) (key : K) : Except Fault Nat :=
  let m := if ht.index_size = 0 then SIZE_MOD - 1 else ht.index_size - 1
  if m = 0 then .error .div_by_zero
  else .ok (ht.key_hash key ht.index_size % m)

/-- The function `hash_table_init`.  The comparator and the hash function are the ones the
table will use: `value_cmp_string` and `default_key_hash` when the caller passes `NULL`. -/
def hash_table_init {K V : Type} (size : Nat) (key_cmp : K → K → Int)
    (key_hash : K → Nat → Nat) : hash_table K V × Bool :=
  ({ index_size := size
     entry_size := 0
     index := some (List.replicate size none)
     key_cmp := key_cmp
     key_hash := key_hash }, true)

/-- A `hash_table_entry*` that points into the table: the slot of its chain, the position of
its node in the chain, and the entry read through it. -/
structure entry_ptr (K V : Type) where
  slot : Nat
  pos : Nat
  entry : hash_table_entry K V

/-- The `do ... while` scan of `hash_table_get_entry` from the node at position `i` on. -/
def get_entry_loop {K V : Type} (key_cmp : K → K → Int) (key : K) :
    List (hash_table_entry K V) → Nat → Option (Nat × hash_table_entry K V)
  | [], _ => none
  | p_entry :: next, i =>
    if key_cmp p_entry.key key = 0 then some (i, p_entry)
    else get_entry_loop key_cmp key next (i + 1)

/-- The function `hash_table_get_entry`. -/
def hash_table_get_entry {K V : Type} (ht : hash_table K V) (key : K) :
    Except Fault (Option (entry_ptr K V)) :=
  match ht.index with
  | none => .ok none
  | some idx =>
    match find_index ht key with
    | .error f => .error f
    | .ok index =>
      match idx[index]? with
      | none => .error .out_of_bounds
      | some none => .ok none
      | some (some p_list) =>
        if p_list.size = 0 then .ok none
        else
          match p_list.nodes with
          | [] => .error .null_deref
          | p_entry :: next =>
            match get_entry_loop ht.key_cmp key (p_entry :: next) 0 with
            | none => .ok none
            | some (pos, e) => .ok (some { slot := index, pos := pos, entry := e })

/-- The function `hash_table_get`. -/
def hash_table_get {K V : Type} (ht : hash_table K V) (key : K) : Except Fault (Option V) :=
  match hash_table_get_entry ht key with
  | .error f => .error f
  | .ok none => .ok none
  | .ok (some entry) => .ok entry.entry.value

/-- The `do ... while` scan of `hash_table_set_entry`: the chain with the value of the first
entry whose key compares equal replaced, or `none` when the scan reaches the end. -/
def set_entry_loop {K V : Type} (key_cmp : K → K → Int) (entry : hash_table_entry K V) :
    List (hash_table_entry K V) → Option (List (hash_table_entry K V))
  | [] => none
  | p_curr_ent :: next =>
    if key_cmp p_curr_ent.key entry.key = 0 then
      some ({ p_curr_ent with value := entry.value } :: next)
    else
      match set_entry_loop key_cmp entry next with
      | none => none
      | some next' => some (p_curr_ent :: next')

/-- The function `hash_table_set_entry`. -/
def hash_table_set_entry {K V : Type} (ht : hash_table K V) (entry : hash_table_entry K V) :
    Except Fault (hash_table K V × Bool) :=
  match ht.index with
  | none => .ok (ht, false)
  | some idx =>
    match find_index ht entry.key with
    | .error f => .error f
    | .ok index =>
      match idx[index]? with
      | none => .error .out_of_bounds
      | some none =>
        -- first entry: start a new linked list
        let p_list := (linked_list_init : linked_list (hash_table_entry K V) × Bool).1
        let r := linked_list_push_tail p_list entry
        .ok ({ ht with entry_size := ht.entry_size + 1
                       index := some (idx.set index (some r.1)) }, r.2)
      | some (some p_list) =>
        match p_list.nodes with
        | [] => .error .null_deref
        | p_curr_ent :: next =>
          match set_entry_loop ht.key_cmp entry (p_curr_ent :: next) with
          | some nodes' =>
            .ok ({ ht with index := some (idx.set index (some { p_list with nodes := nodes' })) },
                 true)
          | none =>
            let r := linked_list_push_tail p_list entry
            .ok ({ ht with entry_size := ht.entry_size + 1
                           index := some (idx.set index (some r.1)) }, r.2)

/-- The write `p_entry->value = value` through a pointer returned by `hash_table_get_entry`. -/
def entry_ptr_set_value {K V : Type} (ht : hash_table K V) (p_entry : entry_ptr K V)
    (value : Option V) : hash_table K V :=
  match ht.index with
  | none => ht
  | some idx =>
    match idx[p_entry.slot]? with
    | some (some p_list) =>
      { ht with index := some (idx.set p_entry.slot (some { p_list with
          nodes := p_list.nodes.set p_entry.pos { p_entry.entry with value := value } })) }
    | _ => ht

/-- The function `hash_table_set`. -/
def hash_table_set {K V : Type} (ht : hash_table K V) (key : K) (value : Option V) :
    Except Fault (hash_table K V × Bool) :=
  match hash_table_get_entry ht key with
  | .error f => .error f
  | .ok (some p_entry) => .ok (entry_ptr_set_value ht p_entry value, true)
  | .ok none => hash_table_set_entry ht { key := key, value := value, must_destroy := 0 }

/-- The `while` loop of `hash_table_del`.  `p_list` is the chain, the list argument holds
the nodes from `p_curr` to the tail, `i` and `deleted_count` are the locals.  The result
`.ok none` is the `return false` after a `linked_list_del_at` that fails.  After a
`linked_list_del_at` that succeeds, `p_curr` points to the node the call has released, and
the statement `p_curr = p_curr->next` that ends the loop body reads that node: the fault
`use_after_free`. -/
def hash_table_del_loop {K V : Type} (key_cmp : K → K → Int) (key : K)
    (p_list : linked_list (hash_table_entry K V)) :
    List (hash_table_entry K V) → Nat → Nat →
      Except Fault (Option (linked_list (hash_table_entry K V) × Nat))
  | [], _, deleted_count => .ok (some (p_list, deleted_count))
  | p_entry :: next, i, deleted_count =>
    if key_cmp p_entry.key key = 0 then
      match linked_list_del_at p_list i with
      | (_, false) => .ok none
      | (_, true) => .error .use_after_free
    else hash_table_del_loop key_cmp key p_list next (i + 1) deleted_count

/-- The function `hash_table_del`. -/
def hash_table_del {K V : Type} (ht : hash_table K V) (key : K) :
    Except Fault (hash_table K V × Bool) :=
  match ht.index with
  | none => .ok (ht, false)
  | some idx =>
    match find_index ht key with
    | .error f => .error f
    | .ok index =>
      match idx[index]? with
      | none => .error .out_of_bounds
      | some none => .ok (ht, false)
      | some (some p_list) =>
        if p_list.size = 0 then .ok (ht, false)
        else
          match hash_table_del_loop ht.key_cmp key p_list p_list.nodes 0 0 with
          | .error f => .error f
          | .ok none => .ok (ht, false)
          | .ok (some (p_list', deleted_count)) =>
            .ok ({ ht with entry_size := ht.entry_size - deleted_count
                           index := some (idx.set index (some p_list')) },
                 decide (deleted_count > 0))

/-- The loop of `hash_table_del` in a run in which the read of the released node yields the
field as last written, the `nullptr` that `linked_list_del_at` stored in `next` before
`free`: the walk ends after the first deletion.  The result is `none` when
`linked_list_del_at` fails. -/
def hash_table_del_stale_loop {K V : Type} (key_cmp : K → K → Int) (key : K)
    (p_list : linked_list (hash_table_entry K V)) :
    List (hash_table_entry K V) → Nat → Nat → Option (linked_list (hash_table_entry K V) × Nat)
  | [], _, deleted_count => some (p_list, deleted_count)
  | p_entry :: next, i, deleted_count =>
    if key_cmp p_entry.key key = 0 then
      match linked_list_del_at p_list i with
      | (_, false) => none
      | (p_list', true) => some (p_list', deleted_count + 1)
    else hash_table_del_stale_loop key_cmp key p_list next (i + 1) deleted_count

/-- The table that a call of `hash_table_del` leaves behind, and the value it returns, in a
run in which the read of the released node yields the `nullptr` last written to it.  This is
not the embedding of the function, which is `hash_table_del`: the two agree on every call
that releases no node (`hash_table_del_eq`), and a call that releases one is the fault
`use_after_free` there.  The reachable states count the table such a run leaves in. -/
def hash_table_del_stale {K V : Type} (ht : hash_table K V) (key : K) :
    Except Fault (hash_table K V × Bool) :=
  match ht.index with
  | none => .ok (ht, false)
  | some idx =>
    match find_index ht key with
    | .error f => .error f
    | .ok index =>
      match idx[index]? with
      | none => .error .out_of_bounds
      | some none => .ok (ht, false)
      | some (some p_list) =>
        if p_list.size = 0 then .ok (ht, false)
        else
          match hash_table_del_stale_loop ht.key_cmp key p_list p_list.nodes 0 0 with
          | none => .ok (ht, false)
          | some (p_list', deleted_count) =>
            .ok ({ ht with entry_size := ht.entry_size - deleted_count
                           index := some (idx.set index (some p_list')) },
                 decide (deleted_count > 0))

/-- The inner `do ... while` loop of `hash_table_rehash` over the nodes of one old chain. -/
def hash_table_rehash_chain {K V : Type} (ht : hash_table K V) :
    List (hash_table_entry K V) → Except Fault (hash_table K V × Bool)
  | [] => .ok (ht, true)
  | p_entry :: next =>
    match hash_table_set_entry ht p_entry with
    | .error f => .error f
    | .ok (ht', false) => .ok (ht', false)
    | .ok (ht', true) => hash_table_rehash_chain ht' next

/-- The outer `for` loop of `hash_table_rehash` over the slots of the old index. -/
def hash_table_rehash_index {K V : Type} (ht : hash_table K V) :
    List (Option (linked_list (hash_table_entry K V))) → Except Fault (hash_table K V × Bool)
  | [] => .ok (ht, true)
  | none :: rest => hash_table_rehash_index ht rest
  | some p_list :: rest =>
    match hash_table_rehash_chain ht p_list.nodes with
    | .error f => .error f
    | .ok (ht', false) => .ok (ht', false)
    | .ok (ht', true) => hash_table_rehash_index ht' rest

/-- The function `hash_table_rehash`.  The loop reads `old_index[0 .. old_index_size - 1]`. -/
def hash_table_rehash {K V : Type} (ht : hash_table K V) (new_size : Nat) :
    Except Fault (hash_table K V × Bool) :=
  let old_index := ht.index
  let old_index_size := ht.index_size
  let ht1 : hash_table K V :=
    { ht with index := some (List.replicate new_size none), index_size := new_size }
  match old_index with
  | none => if old_index_size = 0 then .ok (ht1, true) else .error .null_deref
  | some idx =>
    if idx.length < old_index_size then .error .out_of_bounds
    else hash_table_rehash_index ht1 (idx.take old_index_size)

/-- The function `value_cmp_int` of `utils/value.c`, on nullable pointers to an `int`. -/
def value_cmp_int (a b : Option Int) : Int :=
  match a, b with
  | none, none => 0
  | none, some _ => -1
  | some _, none => 1
  | some val_a, some val_b =>
    if val_a = val_b then 0
    else if val_a > val_b then 1
    else -1

/-- A key hash function for `int` keys with which the theorems are instantiated (the
repository ships a default hash for string keys only): the value of the key, `0` for `NULL`
and for negative keys. -/
def int_key_hash (key : Option Int) (_ht_size : Nat) : Nat :=
  match key with
  | none => 0
  | some val => val.toNat

/-- The function `hash_table_size`. -/
def hash_table_size {K V : Type} (ht : hash_table K V) : Nat :=
  ht.entry_size

/-- The struct `hash_table_array_builder_arg`: the next index to write and the array of the
caller, as the map from positions to the pointers they hold. -/
structure hash_table_array_builder_arg (α : Type) where
  index : Nat
  items : Nat → α

/-- The inner `do ... while` loop of `hash_table_iter` over the nodes of the chain at slot
`i`; the visitor is a function of the visited entry, the slot and its argument. -/
def hash_table_iter_chain {K V σ : Type} (iter_func : hash_table_entry K V → Nat → σ → σ)
    (i : Nat) : List (hash_table_entry K V) → σ → σ
  | [], user_arg => user_arg
  | p_entry :: next, user_arg =>
    hash_table_iter_chain iter_func i next (iter_func p_entry i user_arg)

/-- The outer `for` loop of `hash_table_iter`, over the slot numbers still to visit. -/
def hash_table_iter_slots {K V σ : Type}
    (idx : List (Option (linked_list (hash_table_entry K V))))
    (iter_func : hash_table_entry K V → Nat → σ → σ) : List Nat → σ → Except Fault σ
  | [], user_arg => .ok user_arg
  | i :: rest, user_arg =>
    match idx[i]? with
    | none => .error .out_of_bounds
    | some none => hash_table_iter_slots idx iter_func rest user_arg
    | some (some p_list) =>
      hash_table_iter_slots idx iter_func rest
        (hash_table_iter_chain iter_func i p_list.nodes user_arg)

/-- The function `hash_table_iter`: the argument after the visits, and the returned flag. -/
def hash_table_iter {K V σ : Type} (ht : hash_table K V)
    (iter_func : hash_table_entry K V → Nat → σ → σ) (iter_func_user_arg : σ) :
    Except Fault (σ × Bool) :=
  match ht.index with
  | none => .ok (iter_func_user_arg, false)
  | some idx =>
    if ht.entry_size = 0 then .ok (iter_func_user_arg, true)
    else
      match hash_table_iter_slots idx iter_func (List.range ht.index_size)
          iter_func_user_arg with
      | .error f => .error f
      | .ok user_arg => .ok (user_arg, true)

/-- The visitor `keys_iter_func`: `arg->items[arg->index++] = entry->key`. -/
def keys_iter_func {K V : Type} (entry : hash_table_entry K V) (_index : Nat)
    (arg : hash_table_array_builder_arg (Option K)) : hash_table_array_builder_arg (Option K) :=
  { index := arg.index + 1, items := Function.update arg.items arg.index (some entry.key) }

/-- The function `hash_table_keys`: the array after the call and the returned count, which is
`(size_t)-1` when `hash_table_iter` fails. -/
def hash_table_keys {K V : Type} (ht : hash_table K V) (keys : Nat → Option K) :
    Except Fault ((Nat → Option K) × Nat) :=
  match hash_table_iter ht keys_iter_func { index := 0, items := keys } with
  | .error f => .error f
  | .ok (user_arg, false) => .ok (user_arg.items, SIZE_MOD - 1)
  | .ok (user_arg, true) => .ok (user_arg.items, user_arg.index)

/-- The visitor `values_iter_func`: `arg->items[arg->index++] = entry->value`. -/
def values_iter_func {K V : Type} (entry : hash_table_entry K V) (_index : Nat)
    (arg : hash_table_array_builder_arg (Option V)) : hash_table_array_builder_arg (Option V) :=
  { index := arg.index + 1, items := Function.update arg.items arg.index entry.value }

/-- The function `hash_table_values`: the array after the call and the returned count, which
is `(size_t)-1` when `hash_table_iter` fails. -/
def hash_table_values {K V : Type} (ht : hash_table K V) (values : Nat → Option V) :
    Except Fault ((Nat → Option V) × Nat) :=
  match hash_table_iter ht values_iter_func { index := 0, items := values } with
  | .error f => .error f
  | .ok (user_arg, false) => .ok (user_arg.items, SIZE_MOD - 1)
  | .ok (user_arg, true) => .ok (user_arg.items, user_arg.index)

/-! ## Specification vocabulary -/

/-- The entries of the chain at slot `i`, head to tail; `[]` when the slot holds no chain or
the table has no index. -/
def chain_at {K V : Type} (ht : hash_table K V) (i : Nat) : List (hash_table_entry K V) :=
  match ht.index with
  | none => []
  | some idx =>
    match idx[i]? with
    | some (some p_list) => p_list.nodes
    | _ => []

/-- The slot `find_index` computes for a key when `index_size >= 2`. -/
def slot_of {K V : Type} (ht : hash_table K V) (key : K) : Nat :=
  ht.key_hash key ht.index_size % (ht.index_size - 1)

/-- The nodes of a slot of the index: none for a `NULL` chain pointer. -/
def slot_nodes {K V : Type} : Option (linked_list (hash_table_entry K V)) →
    List (hash_table_entry K V)
  | none => []
  | some p_list => p_list.nodes

/-- All stored entries, in ascending slot order and, within a slot, from head to tail. -/
def entries {K V : Type} (ht : hash_table K V) : List (hash_table_entry K V) :=
  match ht.index with
  | none => []
  | some idx => idx.flatMap slot_nodes

/-- The entry `x` is stored in some chain of the table. -/
def Stored {K V : Type} (ht : hash_table K V) (x : hash_table_entry K V) : Prop :=
  ∃ i, x ∈ chain_at ht i

/-- The assumptions on the comparator and the hash function: `key_cmp a b = 0` is an
equivalence on keys, and keys that compare equal hash alike for every index size. -/
structure ConsistentKeys {K : Type} (key_cmp : K → K → Int) (key_hash : K → Nat → Nat) :
    Prop where
  refl : ∀ a, key_cmp a a = 0
  symm : ∀ a b, key_cmp a b = 0 → key_cmp b a = 0
  trans : ∀ a b c, key_cmp a b = 0 → key_cmp b c = 0 → key_cmp a c = 0
  hash_eq : ∀ a b n, key_cmp a b = 0 → key_hash a n = key_hash b n

/-- Structural invariant of a table that uses `key_cmp` and `key_hash`: the index array has
`index_size >= 2` slots; every chain has its `size` field equal to its number of nodes, holds
only entries that `find_index` sends to its slot, and holds no two entries whose keys compare
equal. -/
structure Inv {K V : Type} (key_cmp : K → K → Int) (key_hash : K → Nat → Nat)
    (ht : hash_table K V) : Prop where
  cmp_eq : ht.key_cmp = key_cmp
  hash_eq : ht.key_hash = key_hash
  two_le : 2 ≤ ht.index_size
  has_index : ∃ idx, ht.index = some idx ∧ idx.length = ht.index_size
  size_eq : ∀ (idx : List (Option (linked_list (hash_table_entry K V)))) (i : Nat)
    (p_list : linked_list (hash_table_entry K V)),
    ht.index = some idx → idx[i]? = some (some p_list) → p_list.size = p_list.nodes.length
  placed : ∀ i, ∀ e ∈ chain_at ht i, slot_of ht e.key = i
  distinct : ∀ i, (chain_at ht i).Pairwise (fun a b => key_cmp a.key b.key ≠ 0)

/-- The effect of storing `entry` on the chains and on `entry_size`: either no entry of the
chain of `entry.key` has a key that compares equal, and `entry` is appended to that chain and
`entry_size` incremented, or the first such entry of the chain gets the value of `entry`.
All other chains are unchanged. -/
def SetEffect {K V : Type} (key_cmp : K → K → Int) (ht ht' : hash_table K V)
    (entry : hash_table_entry K V) : Prop :=
  ((∀ x ∈ chain_at ht (slot_of ht entry.key), key_cmp x.key entry.key ≠ 0) ∧
    (∀ i, chain_at ht' i =
      if i = slot_of ht entry.key then chain_at ht (slot_of ht entry.key) ++ [entry]
      else chain_at ht i) ∧
    ht'.entry_size = ht.entry_size + 1) ∨
  (∃ pre e0 post, chain_at ht (slot_of ht entry.key) = pre ++ e0 :: post ∧
    key_cmp e0.key entry.key = 0 ∧ (∀ x ∈ pre, key_cmp x.key entry.key ≠ 0) ∧
    (∀ i, chain_at ht' i =
      if i = slot_of ht entry.key then pre ++ { e0 with value := entry.value } :: post
      else chain_at ht i) ∧
    ht'.entry_size = ht.entry_size)

/-- No chain of the table is empty: every slot is `NULL` or holds at least one node. -/
def NoEmptyChain {K V : Type} (ht : hash_table K V) : Prop :=
  ∀ (idx : List (Option (linked_list (hash_table_entry K V)))) (i : Nat)
    (p_list : linked_list (hash_table_entry K V)),
    ht.index = some idx → idx[i]? = some (some p_list) → p_list.nodes ≠ []

/-- The states reachable from `hash_table_init` with a size of at least 2 by calls of
`hash_table_set`, `hash_table_set_entry`, `hash_table_del` and `hash_table_rehash` (with a
new size of at least 2) that return, whatever they return.  A call of `hash_table_del` that
releases a node reads the released node and has no defined result; the table it leaves
behind where that read yields the `nullptr` last written is counted among the reachable
states (`hash_table_del_stale`), so that these are not fewer than the states of the runs in
which a released node keeps its fields. -/
inductive Reachable {K V : Type} (key_cmp : K → K → Int) (key_hash : K → Nat → Nat) :
    hash_table K V → Prop where
  | init (size : Nat) (h : 2 ≤ size) :
      Reachable key_cmp key_hash (hash_table_init size key_cmp key_hash).1
  | set {ht ht' : hash_table K V} {r : Bool} (key : K) (value : Option V) :
      Reachable key_cmp key_hash ht → hash_table_set ht key value = .ok (ht', r) →
      Reachable key_cmp key_hash ht'
  | set_entry {ht ht' : hash_table K V} {r : Bool} (entry : hash_table_entry K V) :
      Reachable key_cmp key_hash ht → hash_table_set_entry ht entry = .ok (ht', r) →
      Reachable key_cmp key_hash ht'
  | del {ht ht' : hash_table K V} {r : Bool} (key : K) :
      Reachable key_cmp key_hash ht → hash_table_del_stale ht key = .ok (ht', r) →
      Reachable key_cmp key_hash ht'
  | rehash {ht ht' : hash_table K V} {r : Bool} (new_size : Nat) (h : 2 ≤ new_size) :
      Reachable key_cmp key_hash ht → hash_table_rehash ht new_size = .ok (ht', r) →
      Reachable key_cmp key_hash ht'

/-- A sequence of `hash_table_set` calls, one per pair of the list, in order: the table
after the last call and the values the calls returned. -/
def hash_table_set_seq {K V : Type} (ht : hash_table K V) :
    List (K × Option V) → Except Fault (hash_table K V × List Bool)
  | [] => .ok (ht, [])
  | (key, value) :: rest =>
    match hash_table_set ht key value with
    | .error f => .error f
    | .ok (ht', r) =>
      match hash_table_set_seq ht' rest with
      | .error f => .error f
      | .ok (ht'', rs) => .ok (ht'', r :: rs)

/-- The number of keys of the list that compare equal neither to a key of `seen` nor to a
key before them in the list. -/
def distinct_from {K : Type} (key_cmp : K → K → Int) (seen : List K) : List K → Nat
  | [] => 0
  | key :: rest =>
    (if seen.any (fun k => decide (key_cmp k key = 0)) then 0 else 1) +
      distinct_from key_cmp (key :: seen) rest

/-- The number of distinct keys of a sequence: the keys that compare equal to no key before
them, one for each class of keys that compare equal. -/
def distinct_keys {K : Type} (key_cmp : K → K → Int) (keys : List K) : Nat :=
  distinct_from key_cmp [] keys

/-- The keys in `seen` are, up to `key_cmp`, the keys of the stored entries. -/
def Represents {K V : Type} (key_cmp : K → K → Int) (ht : hash_table K V) (seen : List K) :
    Prop :=
  (∀ x, Stored ht x → ∃ k ∈ seen, key_cmp k x.key = 0) ∧
  (∀ k ∈ seen, ∃ x, Stored ht x ∧ key_cmp x.key k = 0)

/-- The table after `hash_table_init` with size 2 and `hash_table_set` of the `int` key 1. -/
def example_table_one : hash_table (Option Int) Nat :=
  { index_size := 2
    entry_size := 1
    index := some [some { nodes := [{ key := some 1, value := some 10, must_destroy := 0 }],
                          size := 1 }, none]
    key_cmp := value_cmp_int
    key_hash := int_key_hash }

/-- The table after `hash_table_init` with size 2 and `hash_table_set` of the `int` keys 1
and 4, which share the chain of slot 0. -/
def example_table : hash_table (Option Int) Nat :=
  { index_size := 2
    entry_size := 2
    index := some [some { nodes := [{ key := some 1, value := some 10, must_destroy := 0 },
                                    { key := some 4, value := some 40, must_destroy := 0 }],
                          size := 2 }, none]
    key_cmp := value_cmp_int
    key_hash := int_key_hash }

/-- The visitor `destroy_iter_func`: it releases the entry, and through
`hash_table_destroy_entry` its key and value when `must_destroy` is set.  The released blocks
are no part of the table; the argument of the visitor, `NULL`, is the unit value. -/
def destroy_iter_func {K V : Type} (_entry : hash_table_entry K V) (_index : Nat)
    (_user_arg : Unit) : Unit :=
  ()

/-- The function `hash_table_destroy`. -/
def hash_table_destroy {K V : Type} (ht : hash_table K V) :
    Except Fault (hash_table K V × Bool) :=
  match ht.index with
  | none => .ok (ht, false)
  | some _ =>
    match hash_table_iter ht destroy_iter_func () with
    | .error f => .error f
    | .ok (_, false) => .ok (ht, false)
    | .ok (_, true) => .ok ({ ht with index := none, entry_size := 0 }, true)

/-- The `struct array_list`.  The block `array` points to is the list of its cells
(`none` when the pointer is `NULL`); a cell holds a `void*`, `none` being `NULL`. -/
structure array_list (α : Type) where
  size : Nat
  capacity : Nat
  array : Option (List (Option α))

/-- The number of cells in a block of `capacity * sizeof(void*)` bytes, the product being one
of `size_t` and `sizeof(void*)` being 8. -/
def block_cells (capacity : Nat) : Nat := capacity * 8 % SIZE_MOD / 8

/-- The static function `alloc_array`: `malloc` of `capacity * sizeof(void*)` bytes on the
first allocation, `realloc` to that many bytes afterwards.  The cells a block gains are
indeterminate in C; they are `NULL` here. -/
def alloc_array {α : Type} (lst : array_list α) : array_list α × Bool :=
  let cells := block_cells lst.capacity
  match lst.array with
  | none => ({ lst with array := some (List.replicate cells none) }, true)
  | some a =>
    ({ lst with array := some (a.take cells ++ List.replicate (cells - a.length) none) }, true)

/-- The function `array_list_init`; the `memset` clears `capacity * sizeof(void*)` bytes. -/
def array_list_init {α : Type} (capacity : Nat) : array_list α × Bool :=
  let lst : array_list α := { size := 0, capacity := capacity, array := none }
  match alloc_array lst with
  | (lst1, false) => (lst1, false)
  | (lst1, true) =>
    ({ lst1 with array := some (List.replicate (block_cells lst1.capacity) none) }, true)

/-- The read `lst->array[i]`. -/
def array_load {α : Type} (lst : array_list α) (i : Nat) : Except Fault (Option α) :=
  match lst.array with
  | none => .error .null_deref
  | some a =>
    match a[i]? with
    | none => .error .out_of_bounds
    | some c => .ok c

/-- The write `lst->array[i] = v`. -/
def array_store {α : Type} (lst : array_list α) (i : Nat) (v : Option α) :
    Except Fault (array_list α) :=
  match lst.array with
  | none => .error .null_deref
  | some a =>
    if i < a.length then .ok { lst with array := some (a.set i v) }
    else .error .out_of_bounds

/-- The function `array_list_resize`. -/
def array_list_resize {α : Type} (lst : array_list α) (capacity : Nat) : array_list α × Bool :=
  if capacity = lst.capacity then (lst, true)
  else if capacity < lst.capacity ∧ capacity < lst.size then (lst, false)
  else
    let old_capacity := lst.capacity
    match alloc_array { lst with capacity := capacity } with
    | (lst1, false) => ({ lst1 with capacity := old_capacity }, false)
    | (lst1, true) => (lst1, true)

/-- The loop of `shift_right`, `for (i = lst->size; i > pos; --i) array[i] = array[i - 1]`,
entered with the current value of `i`. -/
def shift_right_loop {α : Type} (pos : Nat) : Nat → array_list α → Except Fault (array_list α)
  | 0, lst => .ok lst
  | i + 1, lst =>
    if i + 1 > pos then
      match array_load lst i with
      | .error f => .error f
      | .ok c =>
        match array_store lst (i + 1) c with
        | .error f => .error f
        | .ok lst1 => shift_right_loop pos i lst1
    else .ok lst

/-- The static function `shift_right`. -/
def shift_right {α : Type} (lst : array_list α) (pos : Nat) :
    Except Fault (array_list α × Bool) :=
  let r := if pos + 1 ≥ lst.capacity then array_list_resize lst (pos + 1) else (lst, true)
  match r with
  | (lst1, false) => .ok (lst1, false)
  | (lst1, true) =>
    match shift_right_loop pos lst1.size lst1 with
    | .error f => .error f
    | .ok lst2 => .ok (lst2, true)

/-- The function `array_list_insert_at`. -/
def array_list_insert_at {α : Type} (lst : array_list α) (value : Option α) (pos : Nat) :
    Except Fault (array_list α × Bool) :=
  if pos > lst.size then .ok (lst, false)
  else if lst.size = 0 ∧ pos = 0 then
    match array_store lst 0 value with
    | .error f => .error f
    | .ok lst1 => .ok ({ lst1 with size := lst1.size + 1 }, true)
  else
    match shift_right lst pos with
    | .error f => .error f
    | .ok (lst1, false) => .ok (lst1, false)
    | .ok (lst1, true) =>
      match array_store lst1 pos value with
      | .error f => .error f
      | .ok lst2 => .ok ({ lst2 with size := lst2.size + 1 }, true)

/-- The function `array_list_get_at`. -/
def array_list_get_at {α : Type} (lst : array_list α) (pos : Nat) : Except Fault (Option α) :=
  if pos ≥ lst.size then .ok none
  else array_load lst pos

/-- The loop of `array_list_set_at`, `for (i = lst->size; i < pos; ++i) array[i] = NULL`, with
the number of cells left to fill and the current value of `i`. -/
def fill_null_loop {α : Type} : Nat → Nat → array_list α → Except Fault (array_list α)
  | 0, _, lst => .ok lst
  | n + 1, i, lst =>
    match array_store lst i none with
    | .error f => .error f
    | .ok lst1 => fill_null_loop n (i + 1) lst1

/-- The function `array_list_set_at`; `pos + 1` is a sum of `size_t`. -/
def array_list_set_at {α : Type} (lst : array_list α) (pos : Nat) (value : Option α) :
    Except Fault (array_list α × Bool) :=
  if pos ≥ lst.size then
    let r :=
      if pos ≥ lst.capacity then array_list_resize lst ((pos + 1) % SIZE_MOD) else (lst, true)
    match r with
    | (lst1, false) => .ok (lst1, false)
    | (lst1, true) =>
      match fill_null_loop (pos - lst1.size) lst1.size lst1 with
      | .error f => .error f
      | .ok lst2 =>
        match array_store { lst2 with size := (pos + 1) % SIZE_MOD } pos value with
        | .error f => .error f
        | .ok lst3 => .ok (lst3, true)
  else
    match array_store lst pos value with
    | .error f => .error f
    | .ok lst1 => .ok (lst1, true)

/-- The function `array_list_head`. -/
def array_list_head {α : Type} (lst : array_list α) : Except Fault (Option α) :=
  if lst.size = 0 then .ok none
  else array_load lst 0

/-- The function `array_list_push_tail`. -/
def array_list_push_tail {α : Type} (lst : array_list α) (value : Option α) :
    Except Fault (array_list α × Bool) :=
  array_list_insert_at lst value lst.size

/-! ## The heap (`src/structs/heap.c`) -/

/-- The `enum heap_type`. -/
inductive heap_type where
  | MIN_HEAP
  | MAX_HEAP
  deriving DecidableEq

/-- The `struct heap`; `heap_array` is the array list the field points to. -/
structure heap (α : Type) where
  type : heap_type
  size : Nat
  heap_array : array_list α
  value_cmp : Option α → Option α → Int

/-- The function `heap_init`; `actual_capacity += 1` is a sum of `size_t`. -/
def heap_init {α : Type} (type : heap_type) (value_cmp : Option α → Option α → Int)
    (capacity : Nat) : heap α × Bool :=
  let actual_capacity := if capacity % 2 ≠ 0 then (capacity + 1) % SIZE_MOD else capacity
  match array_list_init actual_capacity with
  | (lst, ok) =>
    ({ type := type, value_cmp := value_cmp, size := 0, heap_array := lst }, ok)

/-- The static function `parent`, `(size_t)floor((double)(index - 1) / 2)`: the subtraction
wraps at `index = 0`, where the double is `2 ^ 64` and the result `2 ^ 63`; for
`1 ≤ index ≤ 2 ^ 53` the conversions are exact. -/
def parent (index : Nat) : Nat :=
  if index = 0 then 2 ^ 63 else (index - 1) / 2

/-- The static function `left_child`. -/
def left_child (index : Nat) : Nat := 2 * index + 1

/-- The static function `right_child`. -/
def right_child (index : Nat) : Nat := 2 * index + 2

/-- The two writes of a swap, `!array_list_set_at(a, i, x) || !array_list_set_at(a, j, y)`:
the second is not made when the first returns false.  The result is the list and whether
both writes returned true. -/
def set_both {α : Type} (lst : array_list α) (i : Nat) (x : Option α) (j : Nat)
    (y : Option α) : Except Fault (array_list α × Bool) :=
  match array_list_set_at lst i x with
  | .error f => .error f
  | .ok (lst1, false) => .ok (lst1, false)
  | .ok (lst1, true) => array_list_set_at lst1 j y

/-- The static function `heapify_up`; the first argument bounds the depth of the recursion
(`index + 1` calls are enough, `heapify_up_fuel`).  The test `parent_idx < 0` of the source
is on a `size_t` and never true. -/
def heapify_up {α : Type} : Nat → heap α → Nat → Except Fault (heap α × Bool)
  | 0, _, _ => .error .out_of_fuel
  | fuel + 1, h, index =>
    if index = 0 then .ok (h, true)
    else
      let parent_idx := parent index
      match array_list_get_at h.heap_array parent_idx with
      | .error f => .error f
      | .ok parent_val =>
        match array_list_get_at h.heap_array index with
        | .error f => .error f
        | .ok val =>
          let cmp_result := h.value_cmp parent_val val
          if (h.type = .MIN_HEAP ∧ cmp_result > 0) ∨ (h.type = .MAX_HEAP ∧ cmp_result ≤ 0) then
            match set_both h.heap_array parent_idx val index parent_val with
            | .error f => .error f
            | .ok (lst, false) => .ok ({ h with heap_array := lst }, false)
            | .ok (lst, true) => heapify_up fuel { h with heap_array := lst } parent_idx
          else .ok (h, true)

/-- The swap of `heapify_down` with the child at `child_idx` and the call on that child. -/
def heapify_down_swap {α : Type}
    (rec_call : heap α → Nat → Except Fault (heap α × Bool)) (h : heap α) (index : Nat)
    (val : Option α) (child_idx : Nat) (child_val : Option α) :
    Except Fault (heap α × Bool) :=
  match set_both h.heap_array index child_val child_idx val with
  | .error f => .error f
  | .ok (lst, false) => .ok ({ h with heap_array := lst }, false)
  | .ok (lst, true) => rec_call { h with heap_array := lst } child_idx

/-- The static function `heapify_down`; the first argument bounds the depth of the recursion
(`h.size + 1 - index` calls are enough, `heapify_down_fuel`). -/
def heapify_down {α : Type} : Nat → heap α → Nat → Except Fault (heap α × Bool)
  | 0, _, _ => .error .out_of_fuel
  | fuel + 1, h, index =>
    let left_idx := left_child index
    let right_idx := right_child index
    if index ≥ h.size ∨ left_idx ≥ h.size then .ok (h, true)
    else
      match array_list_get_at h.heap_array left_idx with
      | .error f => .error f
      | .ok left_val =>
        match array_list_get_at h.heap_array right_idx with
        | .error f => .error f
        | .ok right_val =>
          match array_list_get_at h.heap_array index with
          | .error f => .error f
          | .ok val =>
            let lv_rv_cmp_result := h.value_cmp left_val right_val
            match h.type with
            | .MIN_HEAP =>
              if lv_rv_cmp_result > 0 ∧ h.value_cmp val right_val > 0 then
                heapify_down_swap (heapify_down fuel) h index val right_idx right_val
              else if lv_rv_cmp_result ≤ 0 ∧ h.value_cmp val left_val ≥ 0 then
                heapify_down_swap (heapify_down fuel) h index val left_idx left_val
              else .ok (h, true)
            | .MAX_HEAP =>
              if lv_rv_cmp_result < 0 ∧ h.value_cmp val right_val < 0 then
                heapify_down_swap (heapify_down fuel) h index val right_idx right_val
              else if lv_rv_cmp_result ≥ 0 ∧ h.value_cmp val left_val ≤ 0 then
                heapify_down_swap (heapify_down fuel) h index val left_idx left_val
              else .ok (h, true)

/-- The function `heap_push`: `heapify_up(h, h->size++)` is entered with the old size as
index and the size already incremented. -/
def heap_push {α : Type} (h : heap α) (value : Option α) : Except Fault (heap α × Bool) :=
  match array_list_set_at h.heap_array h.size value with
  | .error f => .error f
  | .ok (lst, false) => .ok ({ h with heap_array := lst }, false)
  | .ok (lst, true) =>
    heapify_up (h.size + 1) { h with heap_array := lst, size := h.size + 1 } h.size

/-- The function `heap_pop`; the result is the heap and the pointer returned. -/
def heap_pop {α : Type} (h : heap α) : Except Fault (heap α × Option α) :=
  if h.size = 0 then .ok (h, none)
  else
    match array_list_head h.heap_array with
    | .error f => .error f
    | .ok value =>
      let h1 : heap α := { h with size := h.size - 1 }
      if h1.size = 0 then .ok (h1, value)
      else
        match array_list_get_at h1.heap_array h1.size with
        | .error f => .error f
        | .ok tail_val =>
          match array_list_set_at h1.heap_array 0 tail_val with
          | .error f => .error f
          | .ok (lst, _) =>
            match heapify_down (h1.size + 1) { h1 with heap_array := lst } 0 with
            | .error f => .error f
            | .ok (h2, false) => .ok (h2, none)
            | .ok (h2, true) => .ok (h2, value)

/-- The function `heap_peek`. -/
def heap_peek {α : Type} (h : heap α) : Except Fault (Option α) :=
  if h.size = 0 then .ok none
  else array_list_head h.heap_array

/-- The list of `array_list_init(&lst, 2)`. -/
def example_list_init : array_list Int :=
  { size := 0, capacity := 2, array := some [none, none] }

/-- The list after `array_list_push_tail` of a pointer to 5. -/
def example_list_one : array_list Int :=
  { size := 1, capacity := 2, array := some [some 5, none] }

/-- The full list after `array_list_push_tail` of a pointer to 7: size 2, capacity 2. -/
def example_list_full : array_list Int :=
  { size := 2, capacity := 2, array := some [some 5, some 7] }

/-! ## Specification vocabulary of the heap -/

/-- The cell `i` of a block, `NULL` for an index outside the block. -/
def cell {α : Type} (a : List (Option α)) (i : Nat) : Option α := (a[i]?).getD none

/-- The cell `i` of the array of the heap. -/
def heap_cell {α : Type} (h : heap α) (i : Nat) : Option α :=
  match h.heap_array.array with
  | none => none
  | some a => cell a i

/-- The values of the heap: the cells `0 .. size - 1` of its array. -/
def heap_values {α : Type} (h : heap α) : List (Option α) :=
  (List.range h.size).map (heap_cell h)

/-- The order of a heap type: `x` may stand above `y`, that is `x <= y` in a `MIN_HEAP` and
`x >= y` in a `MAX_HEAP`. -/
def heap_le {α : Type} (type : heap_type) (value_cmp : Option α → Option α → Int)
    (x y : Option α) : Prop :=
  match type with
  | .MIN_HEAP => value_cmp x y ≤ 0
  | .MAX_HEAP => value_cmp x y ≥ 0

/-- The order `heap_le` between two cells that both hold a value. -/
def cell_le {α : Type} (type : heap_type) (value_cmp : Option α → Option α → Int)
    (x y : Option α) : Prop :=
  ∃ a b, x = some a ∧ y = some b ∧ heap_le type value_cmp (some a) (some b)

/-- A comparator with the contract of `value_cmp_func` (`utils/value.h`) for a total preorder
of the non-`NULL` values: `value_cmp a b <= 0` is `a <= b`, it is transitive, and the sign of
`value_cmp b a` is the opposite of the sign of `value_cmp a b` (so that two values are always
comparable, and `value_cmp a b >= 0` is `b <= a`). -/
structure CmpPreorder {α : Type} (value_cmp : Option α → Option α → Int) : Prop where
  sign : ∀ a b : α, value_cmp (some a) (some b) ≤ 0 ↔ 0 ≤ value_cmp (some b) (some a)
  trans : ∀ a b c : α, value_cmp (some a) (some b) ≤ 0 → value_cmp (some b) (some c) ≤ 0 →
    value_cmp (some a) (some c) ≤ 0

/-- The heap order of the cells `0 .. n - 1`: every cell but the root is below its parent. -/
def HeapOrdered {β : Type} (R : β → β → Prop) (G : Nat → β) (n : Nat) : Prop :=
  ∀ i, 0 < i → i < n → R (G ((i - 1) / 2)) (G i)

/-- The state of `heapify_up` at `k`: the heap order holds except between `k` and its parent,
and the children of `k` are below the parent of `k`. -/
def UpInv {β : Type} (R : β → β → Prop) (G : Nat → β) (n k : Nat) : Prop :=
  (∀ i, 0 < i → i < n → i ≠ k → R (G ((i - 1) / 2)) (G i)) ∧
  (∀ i, 0 < i → i < n → (i - 1) / 2 = k → 0 < k → R (G ((k - 1) / 2)) (G i))

/-- The state of `heapify_down` at `k`: the heap order holds except between `k` and its
children, and the children of `k` are below the parent of `k`. -/
def DownInv {β : Type} (R : β → β → Prop) (G : Nat → β) (n k : Nat) : Prop :=
  (∀ i, 0 < i → i < n → (i - 1) / 2 ≠ k → R (G ((i - 1) / 2)) (G i)) ∧
  (∀ i, 0 < i → i < n → (i - 1) / 2 = k → 0 < k → R (G ((k - 1) / 2)) (G i))

/-- The invariant of a heap of the given type and comparator: the array is allocated and
holds at least `size` cells, the cells below `size` hold values, and each of them but the
root is below its parent in the order of the heap type. -/
structure HeapInv {α : Type} (type : heap_type) (value_cmp : Option α → Option α → Int)
    (h : heap α) : Prop where
  type_eq : h.type = type
  cmp_eq : h.value_cmp = value_cmp
  block : ∃ a, h.heap_array.array = some a ∧ h.heap_array.size ≤ a.length ∧
    h.heap_array.capacity = a.length
  size_le : h.size ≤ h.heap_array.size
  live : ∀ i, i < h.size → ∃ x, heap_cell h i = some x
  order : ∀ i, 0 < i → i < h.size →
    heap_le type value_cmp (heap_cell h (parent i)) (heap_cell h i)

/-- The states reachable from `heap_init` by `heap_push` of non-`NULL` values and `heap_pop`,
each with the values pushed and not yet popped.  The byte size of the initial array does not
wrap, and a push is made on a heap of fewer than `2 ^ 53` values. -/
inductive HeapReach {α : Type} [DecidableEq α] (type : heap_type)
    (value_cmp : Option α → Option α → Int) : heap α → List α → Prop where
  | init (capacity : Nat) : (capacity + 1) * 8 < SIZE_MOD →
      HeapReach type value_cmp (heap_init type value_cmp capacity).1 []
  | push {h : heap α} {M : List α} (v : α) (h1 : heap α) (r : Bool) :
      HeapReach type value_cmp h M → h.size < 2 ^ 53 → heap_push h (some v) = .ok (h1, r) →
      HeapReach type value_cmp h1 (v :: M)
  | pop {h : heap α} {M : List α} (x : α) (h1 : heap α) :
      HeapReach type value_cmp h M → heap_pop h = .ok (h1, some x) →
      HeapReach type value_cmp h1 (M.erase x)
  | pop_null {h : heap α} {M : List α} (h1 : heap α) :
      HeapReach type value_cmp h M → heap_pop h = .ok (h1, none) →
      HeapReach type value_cmp h1 M

/-- A client loop: `heap_push` of the values of a list in turn, stopping at a push that
returns false. -/
def heap_push_list {α : Type} (h : heap α) : List α → Except Fault (heap α × Bool)
  | [] => .ok (h, true)
  | v :: vs =>
    match heap_push h (some v) with
    | .error f => .error f
    | .ok (h1, false) => .ok (h1, false)
    | .ok (h1, true) => heap_push_list h1 vs

/-- A client loop: `n` calls of `heap_pop`, with the pointers returned in the order of the
calls. -/
def heap_pop_n {α : Type} : Nat → heap α → Except Fault (heap α × List (Option α))
  | 0, h => .ok (h, [])
  | n + 1, h =>
    match heap_pop h with
    | .error f => .error f
    | .ok (h1, v) =>
      match heap_pop_n n h1 with
      | .error f => .error f
      | .ok (h2, vs) => .ok (h2, v :: vs)

/-- The result `a1` of a sift on the array `a` of a heap of `n` values: the same block
length, values in the cells below `n`, the heap order, the same values below `n` counted
with multiplicity, and the cells from `n` on untouched. -/
def SiftPost {α : Type} (type : heap_type) (value_cmp : Option α → Option α → Int) (n : Nat)
    (a a1 : List (Option α)) : Prop :=
  a1.length = a.length ∧
  (∀ i, i < n → ∃ x, cell a1 i = some x) ∧
  HeapOrdered (cell_le type value_cmp) (cell a1) n ∧
  (Multiset.range n).map (cell a1) = (Multiset.range n).map (cell a) ∧
  ∀ i, n ≤ i → cell a1 i = cell a i

/-- The `MIN_HEAP` of `heap_init(&h, MIN_HEAP, value_cmp_int, 7)` after `heap_push` of
pointers to 5, 3 and 8. -/
def example_min_heap : heap Int :=
  { type := .MIN_HEAP, size := 3,
    heap_array :=
      { size := 3, capacity := 8,
        array := some [some 3, some 5, some 8, none, none, none, none, none] },
    value_cmp := value_cmp_int }

/-- The `MAX_HEAP` of `heap_init(&h, MAX_HEAP, value_cmp_int, 9)` after `heap_push` of
pointers to 5, 3 and 8. -/
def example_max_heap : heap Int :=
  { type := .MAX_HEAP, size := 3,
    heap_array :=
      { size := 3, capacity := 10,
        array := some [some 8, some 3, some 5, none, none, none, none, none, none, none] },
    value_cmp := value_cmp_int }

/-! ## The array list, continued: deletion and search -/

/-- The function `array_list_tail`. -/
def array_list_tail {α : Type} (lst : array_list α) : Except Fault (Option α) :=
  if lst.size = 0 then .ok none
  else array_load lst (lst.size - 1)

/-- The loop of `shift_left`, `for (i = pos; i < lst->size; ++i) array[i] = array[i + 1]`, with
the number of iterations left and the current value of `i`. -/
def shift_left_loop {α : Type} : Nat → Nat → array_list α → Except Fault (array_list α)
  | 0, _, lst => .ok lst
  | n + 1, i, lst =>
    match array_load lst (i + 1) with
    | .error f => .error f
    | .ok c =>
      match array_store lst i c with
      | .error f => .error f
      | .ok lst1 => shift_left_loop n (i + 1) lst1

/-- The static function `shift_left`; its only caller has checked `pos < lst->size`, so that
`--lst->size` does not wrap. -/
def shift_left {α : Type} (lst : array_list α) (pos : Nat) : Except Fault (array_list α) :=
  let lst1 : array_list α := { lst with size := lst.size - 1 }
  shift_left_loop (lst1.size - pos) pos lst1

/-- The function `array_list_del_at`; the result is the list and the pointer returned. -/
def array_list_del_at {α : Type} (lst : array_list α) (pos : Nat) :
    Except Fault (array_list α × Option α) :=
  if pos ≥ lst.size then .ok (lst, none)
  else
    match array_list_get_at lst pos with
    | .error f => .error f
    | .ok value =>
      match shift_left lst pos with
      | .error f => .error f
      | .ok lst1 => .ok (lst1, value)

/-- The value `(size_t)-1`, the result "not found" of the searches. -/
def NOT_FOUND : Nat := SIZE_MOD - 1

/-- The loop of `array_list_index_of`, with the number of iterations left and the current
value of `i`.  Two pointers are equal when they are both `NULL` or point to the same value. -/
def array_list_index_of_loop {α : Type} [DecidableEq α] (lst : array_list α)
    (value : Option α) : Nat → Nat → Except Fault Nat
  | 0, _ => .ok NOT_FOUND
  | n + 1, i =>
    match array_load lst i with
    | .error f => .error f
    | .ok c => if c = value then .ok i else array_list_index_of_loop lst value n (i + 1)

/-- The function `array_list_index_of`. -/
def array_list_index_of {α : Type} [DecidableEq α] (lst : array_list α) (value : Option α) :
    Except Fault Nat :=
  array_list_index_of_loop lst value lst.size 0

/-- The `do ... while (hi > lo)` loop of the macro `array_binary_search` (`algos/array.h`),
entered with the current `lo` and `hi`; the first argument bounds the number of iterations
(`array_binary_search_fuel`).  `haystack` is the block the array lies in, and a read outside
it is the fault `out_of_bounds`.  `mid` is `floor((double)lo + (double)(hi - lo) / 2)`, exact
below `2 ^ 53`, with `lo <= hi` whenever it is computed. -/
def array_binary_search_loop {β : Type} [DecidableEq β] [LT β]
    [DecidableRel (fun a b : β => a < b)] (haystack : List β) (needle : β) :
    Nat → Nat → Nat → Except Fault Nat
  | 0, _, _ => .error .out_of_fuel
  | fuel + 1, lo, hi =>
    let mid := lo + (hi - lo) / 2
    match haystack[mid]? with
    | none => .error .out_of_bounds
    | some elem =>
      if elem = needle then .ok mid
      else
        let lo1 := if elem < needle then mid + 1 else lo
        let hi1 := if elem < needle then hi else mid
        if hi1 > lo1 then array_binary_search_loop haystack needle fuel lo1 hi1
        else .ok NOT_FOUND

/-- The macro `array_binary_search`: `lo = 0`, `hi = haystack_len`, `retval = -1`, then the
loop. -/
def array_binary_search {β : Type} [DecidableEq β] [LT β]
    [DecidableRel (fun a b : β => a < b)] (haystack : List β) (haystack_len : Nat)
    (needle : β) : Except Fault Nat :=
  array_binary_search_loop haystack needle (haystack_len + 1) 0 haystack_len

/-- The comparison `<` of two nullable pointers is decidable when that of the values is. -/
instance option_lt_decidable {α : Type} [LT α] [DecidableRel (fun a b : α => a < b)] :
    DecidableRel (fun a b : Option α => a < b) :=
  fun a b => inferInstanceAs (Decidable (Option.lt (fun x y => x < y) a b))

/-- The function `array_list_binary_search_index_of`:
`array_binary_search(void*, lst->array, lst->size, value)`.  The macro compares the cells as
pointers: `NULL` is the address 0, below every other pointer, and two pointers to values
compare as the values do (the values stand for their addresses); this is the order of
`Option α`. -/
def array_list_binary_search_index_of {α : Type} [DecidableEq α] [LT α]
    [DecidableRel (fun a b : α => a < b)] (lst : array_list α) (value : Option α) :
    Except Fault Nat :=
  match lst.array with
  | none => .error .null_deref
  | some a => array_binary_search a lst.size value

/-- An array list is well formed: `size <= capacity`, and the array is a block of `capacity`
cells, or `NULL` with capacity 0 (a destroyed list). -/
def ArrayListWF {α : Type} (lst : array_list α) : Prop :=
  lst.size ≤ lst.capacity ∧
  match lst.array with
  | none => lst.capacity = 0
  | some a => a.length = lst.capacity

/-! ## The doubly-linked list with its nodes in memory (`src/structs/linked_list.c`)

The hash table above uses a chain through its sequence of values.  Here the list is embedded
with its nodes: a `list_node*` is an address, the index of the node in the memory `mem`;
`malloc` yields the next unused address, and `free` marks the node as released and leaves its
fields as last written. -/

namespace Mem

/-- The struct `list_node` (`linked_list_node`), and whether the node has been released. -/
structure list_node (α : Type) where
  value : α
  prev : Option Nat
  next : Option Nat
  freed : Bool
  deriving DecidableEq

/-- The struct `linked_list`, together with the memory its node pointers refer to.  `size` is
a `size_t`: `++lst->size` and `--lst->size` are taken modulo `2 ^ 64`. -/
structure linked_list (α : Type) where
  head : Option Nat
  tail : Option Nat
  size : Nat
  mem : List (list_node α)
  deriving DecidableEq

/-- The read of the node at address `p`. -/
def node_at {α : Type} (mem : List (list_node α)) (p : Nat) : Except Fault (list_node α) :=
  match mem[p]? with
  | none => .error .out_of_bounds
  | some n => .ok n

/-- The write of fields of the node at address `p`. -/
def node_update {α : Type} (mem : List (list_node α)) (p : Nat)
    (f : list_node α → list_node α) : Except Fault (List (list_node α)) :=
  match mem[p]? with
  | none => .error .out_of_bounds
  | some n => .ok (mem.set p (f n))

/-- The static function `make_node`: the memory with the new node, and its address. -/
def make_node {α : Type} (mem : List (list_node α)) (value : α) :
    List (list_node α) × Nat :=
  (mem ++ [{ value := value, prev := none, next := none, freed := false }], mem.length)

/-- The call `free(p)`. -/
def free_node {α : Type} (mem : List (list_node α)) (p : Nat) :
    Except Fault (List (list_node α)) :=
  node_update mem p (fun n => { n with freed := true })

/-- The static function `find_node_at`: at most `pos + 1` nodes are visited.  The counter `i`
is an `int`, compared to `pos` as a `size_t`; lists hold fewer than `2 ^ 31` nodes. -/
def find_node_at {α : Type} (mem : List (list_node α)) :
    Option Nat → Nat → Except Fault (Option Nat)
  | none, _ => .ok none
  | some p, 0 => .ok (some p)
  | some p, pos + 1 =>
    match node_at mem p with
    | .error f => .error f
    | .ok n => find_node_at mem n.next pos

/-- The function `linked_list_init`, on a memory without nodes. -/
def linked_list_init {α : Type} : linked_list α × Bool :=
  ({ head := none, tail := none, size := 0, mem := [] }, true)

/-- The function `linked_list_insert_at`. -/
def linked_list_insert_at {α : Type} (lst : linked_list α) (value : α) (pos : Nat) :
    Except Fault (linked_list α × Bool) :=
  let p_head := lst.head
  match find_node_at lst.mem p_head pos with
  | .error f => .error f
  | .ok none => .ok (lst, false)
  | .ok (some p_existing) =>
    match make_node lst.mem value with
    | (mem1, p_node) =>
      let lst1 : linked_list α :=
        if p_head = none then { lst with mem := mem1, head := some p_node }
        else { lst with mem := mem1 }
      match node_at lst1.mem p_existing with
      | .error f => .error f
      | .ok existing =>
        match node_update lst1.mem p_node
            (fun n => { n with prev := existing.prev, next := some p_existing }) with
        | .error f => .error f
        | .ok mem2 =>
          match node_at mem2 p_node with
          | .error f => .error f
          | .ok node =>
            let lst2 : linked_list α :=
              if node.next = none then { lst1 with mem := mem2, tail := some p_node }
              else { lst1 with mem := mem2 }
            .ok ({ lst2 with size := (lst2.size + 1) % SIZE_MOD }, true)

/-- The function `linked_list_get_at`. -/
def linked_list_get_at {α : Type} (lst : linked_list α) (pos : Nat) :
    Except Fault (Option α) :=
  match find_node_at lst.mem lst.head pos with
  | .error f => .error f
  | .ok none => .ok none
  | .ok (some p_node) =>
    match node_at lst.mem p_node with
    | .error f => .error f
    | .ok n => .ok (some n.value)

/-- The function `linked_list_del_at`. -/
def linked_list_del_at {α : Type} (lst : linked_list α) (pos : Nat) :
    Except Fault (linked_list α × Bool) :=
  match lst.head with
  | none => .ok (lst, false)
  | some _ =>
    match find_node_at lst.mem lst.head pos with
    | .error f => .error f
    | .ok none => .ok (lst, false)
    | .ok (some p_node) =>
      match node_at lst.mem p_node with
      | .error f => .error f
      | .ok node =>
        let p_before := node.prev
        let p_after := node.next
        let r1 : Except Fault (linked_list α) :=
          match p_before with
          | some b =>
            match node_update lst.mem b (fun n => { n with next := p_after }) with
            | .error f => .error f
            | .ok mem1 => .ok { lst with mem := mem1 }
          | none => .ok { lst with head := p_after }
        match r1 with
        | .error f => .error f
        | .ok lst1 =>
          let r2 : Except Fault (linked_list α) :=
            match p_after with
            | some a =>
              match node_update lst1.mem a (fun n => { n with prev := p_before }) with
              | .error f => .error f
              | .ok mem2 => .ok { lst1 with mem := mem2 }
            | none => .ok { lst1 with tail := p_before }
          match r2 with
          | .error f => .error f
          | .ok lst2 =>
            match node_update lst2.mem p_node
                (fun n => { n with prev := none, next := none }) with
            | .error f => .error f
            | .ok mem3 =>
              match free_node mem3 p_node with
              | .error f => .error f
              | .ok mem4 =>
                .ok ({ lst2 with mem := mem4, size := (lst2.size + SIZE_MOD - 1) % SIZE_MOD },
                  true)

/-- The function `linked_list_head`. -/
def linked_list_head {α : Type} (lst : linked_list α) : Except Fault (Option α) :=
  match lst.head with
  | none => .ok none
  | some p =>
    match node_at lst.mem p with
    | .error f => .error f
    | .ok n => .ok (some n.value)

/-- The function `linked_list_push_head`. -/
def linked_list_push_head {α : Type} (lst : linked_list α) (value : α) :
    Except Fault (linked_list α × Bool) :=
  let p_head := lst.head
  match make_node lst.mem value with
  | (mem1, p_node) =>
    let r1 : Except Fault (linked_list α) :=
      match p_head with
      | some h =>
        match node_update mem1 p_node (fun n => { n with next := some h }) with
        | .error f => .error f
        | .ok mem2 =>
          match node_update mem2 h (fun n => { n with prev := some p_node }) with
          | .error f => .error f
          | .ok mem3 => .ok { lst with mem := mem3, head := some p_node }
      | none => .ok { lst with mem := mem1, head := some p_node }
    match r1 with
    | .error f => .error f
    | .ok lst1 =>
      match node_at lst1.mem p_node with
      | .error f => .error f
      | .ok node =>
        let lst2 : linked_list α :=
          if node.next = none then { lst1 with tail := some p_node } else lst1
        .ok ({ lst2 with size := (lst2.size + 1) % SIZE_MOD }, true)

/-- The function `linked_list_pop_head`; the result is the list and the pointer returned. -/
def linked_list_pop_head {α : Type} (lst : linked_list α) :
    Except Fault (linked_list α × Option α) :=
  match lst.head with
  | none => .ok (lst, none)
  | some p_node =>
    match node_at lst.mem p_node with
    | .error f => .error f
    | .ok node =>
      let value := node.value
      let lst1 : linked_list α := { lst with head := node.next }
      match node_update lst1.mem p_node (fun n => { n with next := none }) with
      | .error f => .error f
      | .ok mem1 =>
        match free_node mem1 p_node with
        | .error f => .error f
        | .ok mem2 =>
          .ok ({ lst1 with mem := mem2, size := (lst1.size + SIZE_MOD - 1) % SIZE_MOD },
            some value)

/-- The function `linked_list_tail`. -/
def linked_list_tail {α : Type} (lst : linked_list α) : Except Fault (Option α) :=
  match lst.tail with
  | none => .ok none
  | some p =>
    match node_at lst.mem p with
    | .error f => .error f
    | .ok n => .ok (some n.value)

/-- The function `linked_list_push_tail`. -/
def linked_list_push_tail {α : Type} (lst : linked_list α) (value : α) :
    Except Fault (linked_list α × Bool) :=
  let p_tail := lst.tail
  match make_node lst.mem value with
  | (mem1, p_node) =>
    let r1 : Except Fault (linked_list α) :=
      match p_tail with
      | some t =>
        match node_update mem1 t (fun n => { n with next := some p_node }) with
        | .error f => .error f
        | .ok mem2 =>
          match node_update mem2 p_node (fun n => { n with prev := some t }) with
          | .error f => .error f
          | .ok mem3 => .ok { lst with mem := mem3 }
      | none => .ok { lst with mem := mem1, head := some p_node }
    match r1 with
    | .error f => .error f
    | .ok lst1 =>
      .ok ({ lst1 with tail := some p_node, size := (lst1.size + 1) % SIZE_MOD }, true)

/-- The function `linked_list_pop_tail`; the result is the list and the pointer returned. -/
def linked_list_pop_tail {α : Type} (lst : linked_list α) :
    Except Fault (linked_list α × Option α) :=
  match lst.tail with
  | none => .ok (lst, none)
  | some p_node =>
    match node_at lst.mem p_node with
    | .error f => .error f
    | .ok node =>
      let p_before := node.prev
      let lst1 : linked_list α := { lst with tail := p_before }
      let r1 : Except Fault (linked_list α) :=
        match p_before with
        | none => .ok { lst1 with head := none }
        | some b =>
          match node_update lst1.mem b (fun n => { n with next := none }) with
          | .error f => .error f
          | .ok mem1 =>
            match node_update mem1 p_node (fun n => { n with prev := none }) with
            | .error f => .error f
            | .ok mem2 => .ok { lst1 with tail := some b, mem := mem2 }
      match r1 with
      | .error f => .error f
      | .ok lst2 =>
        match node_at lst2.mem p_node with
        | .error f => .error f
        | .ok node1 =>
          let value := node1.value
          match free_node lst2.mem p_node with
          | .error f => .error f
          | .ok mem3 =>
            .ok ({ lst2 with mem := mem3, size := (lst2.size + SIZE_MOD - 1) % SIZE_MOD },
              some value)

/-- The `do ... while (p_node != NULL)` loop of `linked_list_forward_iter`, entered at the
node `p_node` with the counter `i`; the first argument bounds the number of iterations. -/
def forward_iter_loop {α σ : Type} (mem : List (list_node α))
    (iter_func : list_node α → Nat → σ → σ) : Nat → Nat → Nat → σ → Except Fault σ
  | 0, _, _, _ => .error .out_of_fuel
  | fuel + 1, p_node, i, user_arg =>
    match node_at mem p_node with
    | .error f => .error f
    | .ok node =>
      let p_next := node.next
      let user_arg1 := iter_func node i user_arg
      match p_next with
      | none => .ok user_arg1
      | some q => forward_iter_loop mem iter_func fuel q (i + 1) user_arg1

/-- The function `linked_list_forward_iter`, with a visitor that reads the node it is given
and updates its argument.  The loop is bounded by the number of nodes in memory plus one: a
longer walk has met a node twice and does not end. -/
def linked_list_forward_iter {α σ : Type} (lst : linked_list α)
    (iter_func : list_node α → Nat → σ → σ) (iter_func_user_arg : σ) : Except Fault σ :=
  match lst.head with
  | none => .ok iter_func_user_arg
  | some p_node =>
    forward_iter_loop lst.mem iter_func (lst.mem.length + 1) p_node 0 iter_func_user_arg

/-- The `do ... while (p_node != NULL)` loop of `linked_list_backward_iter`. -/
def backward_iter_loop {α σ : Type} (mem : List (list_node α))
    (iter_func : list_node α → Nat → σ → σ) : Nat → Nat → Nat → σ → Except Fault σ
  | 0, _, _, _ => .error .out_of_fuel
  | fuel + 1, p_node, i, user_arg =>
    match node_at mem p_node with
    | .error f => .error f
    | .ok node =>
      let p_prev := node.prev
      let user_arg1 := iter_func node i user_arg
      match p_prev with
      | none => .ok user_arg1
      | some q => backward_iter_loop mem iter_func fuel q (i + 1) user_arg1

/-- The function `linked_list_backward_iter`, bounded like `linked_list_forward_iter`. -/
def linked_list_backward_iter {α σ : Type} (lst : linked_list α)
    (iter_func : list_node α → Nat → σ → σ) (iter_func_user_arg : σ) : Except Fault σ :=
  match lst.tail with
  | none => .ok iter_func_user_arg
  | some p_node =>
    backward_iter_loop lst.mem iter_func (lst.mem.length + 1) p_node 0 iter_func_user_arg

/-- A visitor that records the value of each node it is given, in the order of the visits. -/
def collect_iter_func {α : Type} (node : list_node α) (_index : Nat) (acc : List α) : List α :=
  acc ++ [node.value]

/-- The addresses reached from `p` by following `next`, with a bound on their number. -/
def reach_next {α : Type} (mem : List (list_node α)) : Nat → Option Nat → List Nat
  | 0, _ => []
  | _ + 1, none => []
  | fuel + 1, some p =>
    match mem[p]? with
    | none => [p]
    | some n => p :: reach_next mem fuel n.next

/-- The nodes reachable from `head`. -/
def nodes_from_head {α : Type} (lst : linked_list α) : List Nat :=
  reach_next lst.mem (lst.mem.length + 1) lst.head

end Mem

/-- The list of `array_list_init(&lst, 3)`, its cells pointers to numbers. -/
def example_search_init : array_list Nat :=
  { size := 0, capacity := 3, array := some [none, none, none] }

/-- The list after `array_list_push_tail` of a pointer to 7. -/
def example_search_one : array_list Nat :=
  { size := 1, capacity := 3, array := some [some 7, none, none] }

/-- The list after `array_list_del_at(&lst, 0)`: empty again, the pointer still in cell 0. -/
def example_search_emptied : array_list Nat :=
  { size := 0, capacity := 3, array := some [some 7, none, none] }

/-- The linked list after `linked_list_init` and `linked_list_push_tail` of 10. -/
def example_dll_one : Mem.linked_list Nat :=
  { head := some 0, tail := some 0, size := 1,
    mem := [{ value := 10, prev := none, next := none, freed := false }] }

/-- The linked list after a further `linked_list_push_tail` of 20. -/
def example_dll_two : Mem.linked_list Nat :=
  { head := some 0, tail := some 1, size := 2,
    mem := [{ value := 10, prev := none, next := some 1, freed := false },
      { value := 20, prev := some 0, next := none, freed := false }] }

/-- The list `example_dll_two` after `linked_list_insert_at(&lst, 99, 1)`: the new node, at
address 2, points into the list and no node of the list points to it. -/
def example_dll_inserted : Mem.linked_list Nat :=
  { head := some 0, tail := some 1, size := 3,
    mem := [{ value := 10, prev := none, next := some 1, freed := false },
      { value := 20, prev := some 0, next := none, freed := false },
      { value := 99, prev := some 0, next := some 1, freed := false }] }

/-- The list `example_dll_one` after `linked_list_pop_head`: `tail` still holds the address
of the released node. -/
def example_dll_popped : Mem.linked_list Nat :=
  { head := none, tail := some 0, size := 0,
    mem := [{ value := 10, prev := none, next := none, freed := true }] }

/-- The list `example_dll_popped` after `linked_list_push_tail` of 30: `head` is still
`NULL`. -/
def example_dll_pushed : Mem.linked_list Nat :=
  { head := none, tail := some 1, size := 1,
    mem := [{ value := 10, prev := none, next := some 1, freed := true },
      { value := 30, prev := some 0, next := none, freed := false }] }

/-- The list `example_dll_two` after `linked_list_pop_head`: the new head, at address 1,
still has the released node as its `prev`. -/
def example_dll_rest : Mem.linked_list Nat :=
  { head := some 1, tail := some 1, size := 1,
    mem := [{ value := 10, prev := none, next := none, freed := true },
      { value := 20, prev := some 0, next := none, freed := false }] }

namespace Mem

/-- The value of the node at address `p`, if there is such a node. -/
def value_at {α : Type} (mem : List (list_node α)) (p : Nat) : Option α :=
  (mem[p]?).map (fun n => n.value)

/-- The values of the nodes at the addresses `ps`, in that order. -/
def list_values {α : Type} (lst : linked_list α) (ps : List Nat) : List (Option α) :=
  ps.map (value_at lst.mem)

/-- The list is well formed, with the nodes at the addresses `ps` from head to tail: the
addresses are distinct, `head` is the first and `tail` the last of them (`NULL` when there is
none), `size` is their number and is a `size_t`, and each node is allocated and not
released, its `prev` the address before it and its `next` the address after it (`NULL` at
the ends). -/
def WellFormed {α : Type} (lst : linked_list α) (ps : List Nat) : Prop :=
  ps.Nodup ∧ lst.head = ps.head? ∧ lst.tail = ps.getLast? ∧ lst.size = ps.length ∧
  lst.size < SIZE_MOD ∧
  ∀ i p, ps[i]? = some p → ∃ n, lst.mem[p]? = some n ∧ n.freed = false ∧
    n.prev = (if i = 0 then none else ps[i - 1]?) ∧ n.next = ps[i + 1]?

end Mem

/-! ## The bit array (`src/structs/bit_array.c`) -/

/-- The modulus of `uint32_t` arithmetic. -/
def UINT32_MOD : Nat := 2 ^ 32

set_option linter.dupNamespace false

/-- The struct `bit_array`: `size_bits`, and the block of `uint32_t` words that the field
`bit_array` points to (`none` is `NULL`). -/
structure bit_array where
  size_bits : Nat
  bit_array : Option (List Nat)
  deriving DecidableEq

/-- The function `bit_array_init`; the sums and products are those of `size_t`, and the block
of `malloc(array_elem_count * array_elem_size)` holds one word per `array_elem_size` bytes,
all zero after the `memset`. -/
def bit_array_init (size : Nat) : bit_array × Bool :=
  let array_elem_size := 4
  let array_elem_size_bits := array_elem_size * 8
  let size_bits :=
    (size + (array_elem_size_bits - 1)) % SIZE_MOD / array_elem_size_bits
      * array_elem_size_bits % SIZE_MOD
  let array_elem_count :=
    if size_bits % array_elem_size_bits > 0 then
      (size_bits / array_elem_size_bits + 1) % SIZE_MOD
    else size_bits / array_elem_size_bits
  let bytes := array_elem_count * array_elem_size % SIZE_MOD
  ({ size_bits := size_bits
     bit_array := some (List.replicate (bytes / array_elem_size) 0) }, true)

/-- The expression `1U << n` on the 32-bit `unsigned int`: C leaves the shift undefined when
`n` is not smaller than the width of the operand. -/
def shl_one (n : Nat) : Except Fault Nat :=
  if n < 32 then .ok (1 <<< n) else .error .shift_too_wide

/-- The expression `~x` on a 32-bit `unsigned int`. -/
def not32 (x : Nat) : Nat := UINT32_MOD - 1 - x

/-- The function `bit_array_set`:
`ba->bit_array[k / ba->size_bits] |= 1U << (k % ba->size_bits)`. -/
def bit_array_set (ba : bit_array) (k : Nat) : Except Fault bit_array :=
  match ba.bit_array with
  | none => .error .null_deref
  | some words =>
    if ba.size_bits = 0 then .error .div_by_zero
    else
      match shl_one (k % ba.size_bits) with
      | .error f => .error f
      | .ok mask =>
        match words[k / ba.size_bits]? with
        | none => .error .out_of_bounds
        | some word =>
          .ok { ba with bit_array := some (words.set (k / ba.size_bits) (word ||| mask)) }

/-- The function `bit_array_clear`:
`ba->bit_array[k / ba->size_bits] &= ~(1U << (k % ba->size_bits))`. -/
def bit_array_clear (ba : bit_array) (k : Nat) : Except Fault bit_array :=
  match ba.bit_array with
  | none => .error .null_deref
  | some words =>
    if ba.size_bits = 0 then .error .div_by_zero
    else
      match shl_one (k % ba.size_bits) with
      | .error f => .error f
      | .ok mask =>
        match words[k / ba.size_bits]? with
        | none => .error .out_of_bounds
        | some word =>
          .ok { ba with
            bit_array := some (words.set (k / ba.size_bits) (word &&& not32 mask)) }

/-- The function `bit_array_test`:
`(ba->bit_array[k / ba->size_bits] & (1U << (k % ba->size_bits))) != 0`. -/
def bit_array_test (ba : bit_array) (k : Nat) : Except Fault Bool :=
  match ba.bit_array with
  | none => .error .null_deref
  | some words =>
    if ba.size_bits = 0 then .error .div_by_zero
    else
      match shl_one (k % ba.size_bits) with
      | .error f => .error f
      | .ok mask =>
        match words[k / ba.size_bits]? with
        | none => .error .out_of_bounds
        | some word => .ok (decide (word &&& mask ≠ 0))

/-! ## The bloom filter (`src/structs/bloom_filter.c`) -/

/-- The struct `bloom_filter`; the field `bit_array` is the bit array it points to (`none`
is `NULL`). -/
structure bloom_filter where
  hash_count : Nat
  bit_array : Option bit_array
  deriving DecidableEq

/-- The function `bloom_filter_init`. -/
def bloom_filter_init (size : Nat) : bloom_filter × Bool :=
  match bit_array_init size with
  | (ba, true) => ({ hash_count := 2, bit_array := some ba }, true)
  | (_, false) => ({ hash_count := 2, bit_array := none }, false)

/-- The loop of the static function `bloom_hashes` over the values of `i` still to come:
`hashes_out[i] = (hash1 + i * hash2) % m` in `uint32_t` arithmetic. -/
def bloom_hashes_loop (hash1 hash2 m : Nat) : List Nat → List Nat → Except Fault (List Nat)
  | [], hashes_out => .ok hashes_out
  | i :: rest, hashes_out =>
    if m = 0 then .error .div_by_zero
    else if i < hashes_out.length then
      bloom_hashes_loop hash1 hash2 m rest
        (hashes_out.set i ((hash1 + i * hash2 % UINT32_MOD) % UINT32_MOD % m))
    else .error .out_of_bounds

/-- The static function `bloom_hashes`.  The hash `murmur3` is a parameter: a function of the
bytes of the key and of the seed, whose result is taken as a `uint32_t`. -/
def bloom_hashes (murmur3 : List Nat → Nat → Nat) (key : List Nat) (k m : Nat)
    (hashes_out : List Nat) : Except Fault (List Nat) :=
  let hash1 := murmur3 key 0x5f3759df % UINT32_MOD
  let hash2 := murmur3 key 0x9e3779b9 % UINT32_MOD
  bloom_hashes_loop hash1 hash2 m (List.range k) hashes_out

/-- The loop of `bloom_filter_add` over the values of `i` still to come. -/
def bloom_filter_add_loop (hashes : List Nat) : List Nat → bit_array → Except Fault bit_array
  | [], ba => .ok ba
  | i :: rest, ba =>
    match hashes[i]? with
    | none => .error .out_of_bounds
    | some hash =>
      match bit_array_set ba hash with
      | .error f => .error f
      | .ok ba1 => bloom_filter_add_loop hashes rest ba1

/-- The function `bloom_filter_add`.  The array `hashes` has `hash_count` cells, which are
indeterminate in C before `bloom_hashes` writes them and are 0 here; the arguments `k` and
`m` of `bloom_hashes` are conversions to `uint32_t`. -/
def bloom_filter_add (murmur3 : List Nat → Nat → Nat) (bf : bloom_filter) (key : List Nat) :
    Except Fault (bloom_filter × Bool) :=
  match bf.bit_array with
  | none => .error .null_deref
  | some ba =>
    match bloom_hashes murmur3 key (bf.hash_count % UINT32_MOD) (ba.size_bits % UINT32_MOD)
        (List.replicate bf.hash_count 0) with
    | .error f => .error f
    | .ok hashes =>
      match bloom_filter_add_loop hashes (List.range bf.hash_count) ba with
      | .error f => .error f
      | .ok ba1 => .ok ({ bf with bit_array := some ba1 }, true)

/-- The loop of `bloom_filter_check` over the values of `i` still to come. -/
def bloom_filter_check_loop (hashes : List Nat) (ba : bit_array) : List Nat → Except Fault Bool
  | [] => .ok true
  | i :: rest =>
    match hashes[i]? with
    | none => .error .out_of_bounds
    | some hash =>
      match bit_array_test ba hash with
      | .error f => .error f
      | .ok false => .ok false
      | .ok true => bloom_filter_check_loop hashes ba rest

/-- The function `bloom_filter_check`. -/
def bloom_filter_check (murmur3 : List Nat → Nat → Nat) (bf : bloom_filter) (key : List Nat) :
    Except Fault Bool :=
  match bf.bit_array with
  | none => .error .null_deref
  | some ba =>
    match bloom_hashes murmur3 key (bf.hash_count % UINT32_MOD) (ba.size_bits % UINT32_MOD)
        (List.replicate bf.hash_count 0) with
    | .error f => .error f
    | .ok hashes => bloom_filter_check_loop hashes ba (List.range bf.hash_count)

/-- A client loop: `bloom_filter_add` of the keys of a list in turn. -/
def bloom_filter_add_list (murmur3 : List Nat → Nat → Nat) (bf : bloom_filter) :
    List (List Nat) → Except Fault bloom_filter
  | [] => .ok bf
  | key :: rest =>
    match bloom_filter_add murmur3 bf key with
    | .error f => .error f
    | .ok (bf1, _) => bloom_filter_add_list murmur3 bf1 rest

/-- The bit array of `bit_array_init(&ba, 5)`: 32 bits in one word. -/
def example_bits_32 : bit_array :=
  { size_bits := 32, bit_array := some [0] }

/-- The bit array of `bit_array_init(&ba, 33)`: 64 bits in two words. -/
def example_bits_64 : bit_array :=
  { size_bits := 64, bit_array := some [0, 0] }

/-- The bloom filter of `bloom_filter_init(&bf, 33)`. -/
def example_bloom_64 : bloom_filter :=
  { hash_count := 2, bit_array := some example_bits_64 }

/-- A hash in the place of `murmur3` that yields 40 for every key and seed. -/
def example_murmur3 (_key : List Nat) (_seed : Nat) : Nat := 40

/-- The bloom filter of two hashes over one word `w` of 32 bits, as `bloom_filter_init`
with a size of 1 to 32 makes it (with `w = 0`). -/
def bloom_32 (w : Nat) : bloom_filter :=
  { hash_count := 2, bit_array := some { size_bits := 32, bit_array := some [w] } }

/-- The hash that `bloom_hashes` writes to `hashes_out[i]` for a key, with `m` bits. -/
def bloom_index (murmur3 : List Nat → Nat → Nat) (key : List Nat) (m i : Nat) : Nat :=
  (murmur3 key 0x5f3759df % UINT32_MOD + i * (murmur3 key 0x9e3779b9 % UINT32_MOD) % UINT32_MOD)
    % UINT32_MOD % m

/-! ## The IPv4 conversions (`src/utils/net_utils.c`) -/

/-- The libc predicate `isspace` in the "C" locale: the space and the characters 9 to 13. -/
def isspace (c : Char) : Bool :=
  c == ' ' || (9 ≤ c.toNat && c.toNat ≤ 13)

/-- The digit loop of `atoi`: the value of the leading decimal digits, after `acc`. -/
def atoi_digits : List Char → Nat → Nat
  | [], acc => acc
  | c :: rest, acc =>
    if c.isDigit then atoi_digits rest (acc * 10 + (c.toNat - 48)) else acc

/-- The libc function `atoi`: white space, an optional sign, and decimal digits up to the
first other character.  C leaves a value outside the range of `int` undefined; here it is
the exact value. -/
def atoi (nptr : List Char) : Int :=
  match nptr.dropWhile isspace with
  | [] => 0
  | c :: rest =>
    if c = '-' then - (atoi_digits rest 0 : Int)
    else if c = '+' then (atoi_digits rest 0 : Int)
    else (atoi_digits (c :: rest) 0 : Int)

/-- One call of the libc function `strtok` with the single delimiter `delim`, on the
characters that are left to scan: `none` is the `NULL` returned when no token is left;
otherwise the token and the characters after the delimiter that ends it. -/
def strtok (s : List Char) (delim : Char) : Option (List Char × List Char) :=
  match s.dropWhile (fun c => c == delim) with
  | [] => none
  | c :: cs =>
    some ((c :: cs).takeWhile (fun c => c != delim),
      ((c :: cs).dropWhile (fun c => c != delim)).drop 1)

/-- The `while` loop of `net_utils_ipv4_to_long`, entered with the current token and the
characters left to scan; the first argument bounds the number of tokens (one more than the
length of the string is enough, `ipv4_to_long_loop_fuel`). -/
def ipv4_to_long_loop : Nat → List Char → List Char → Nat → Except Fault Nat
  | 0, _, _, _ => .error .out_of_fuel
  | fuel + 1, token, rest, long_addr =>
    let long_addr1 := long_addr <<< 8 % UINT32_MOD
    let long_addr2 := long_addr1 ||| (Int.land (atoi token) 0xFF).toNat
    match strtok rest '.' with
    | none => .ok long_addr2
    | some (token1, rest1) => ipv4_to_long_loop fuel token1 rest1 long_addr2

/-- The function `net_utils_ipv4_to_long` on a C string, the list of its characters before
the terminating NUL; the `-1` of a string without a token is `UINT32_MAX`. -/
def net_utils_ipv4_to_long (ip_addr : List Char) : Except Fault Nat :=
  match strtok ip_addr '.' with
  | none => .ok (UINT32_MOD - 1)
  | some (token, rest) => ipv4_to_long_loop (ip_addr.length + 1) token rest 0

/-- The call `snprintf(octet, size, "%d", v)` for a value that is not negative: the returned
count is the number of decimal digits of `v`, and the buffer receives the first `size - 1`
of them. -/
def snprintf_d (size : Nat) (v : Nat) : Int × List Char :=
  ((Nat.toDigits 10 v).length, (Nat.toDigits 10 v).take (size - 1))

/-- The `for` loop of `net_utils_long_to_ipv4` over the values of `i` still to come, with
the string built so far in `ip_addr_out`; `none` is the `nullptr` returned when `snprintf`
fails. -/
def long_to_ipv4_loop (long_addr : Nat) : List Nat → List Char → Option (List Char)
  | [], ip_addr_out => some ip_addr_out
  | i :: rest, ip_addr_out =>
    match snprintf_d 4 ((long_addr >>> (24 - 8 * i)) &&& 0xFF) with
    | (ret, octet) =>
      if ret < 0 then none
      else
        long_to_ipv4_loop long_addr rest
          (if i < 3 then ip_addr_out ++ octet ++ ['.'] else ip_addr_out ++ octet)

/-- The function `net_utils_long_to_ipv4`; the result is the string left in `ip_addr_out`,
a buffer that the caller makes large enough. -/
def net_utils_long_to_ipv4 (long_addr : Nat) : Option (List Char) :=
  long_to_ipv4_loop long_addr (List.range 4) []

/-- The part of the structural invariant of a table that holds for every comparator and
every hash function: the index array has `index_size >= 2` slots, every chain has its `size`
field equal to its number of nodes and holds only entries that `find_index` sends to its
slot, and the last slot of the index is `NULL`. -/
structure Placement {K V : Type} (key_cmp : K → K → Int) (key_hash : K → Nat → Nat)
    (ht : hash_table K V) : Prop where
  cmp_eq : ht.key_cmp = key_cmp
  hash_eq : ht.key_hash = key_hash
  two_le : 2 ≤ ht.index_size
  has_index : ∃ idx, ht.index = some idx ∧ idx.length = ht.index_size
  size_eq : ∀ (idx : List (Option (linked_list (hash_table_entry K V)))) (i : Nat)
    (p_list : linked_list (hash_table_entry K V)),
    ht.index = some idx → idx[i]? = some (some p_list) → p_list.size = p_list.nodes.length
  placed : ∀ i, ∀ e ∈ chain_at ht i, slot_of ht e.key = i
  last_null : ∀ (idx : List (Option (linked_list (hash_table_entry K V)))),
    ht.index = some idx → idx[ht.index_size - 1]? = some none

/-- The claim of the heap order on the cells of a heap: for every index `i` with
`1 <= i < size` the cells at `(i - 1) / 2` and at `i` hold values, and the value of the
parent compares `<=` the value at `i` in a `MIN_HEAP` and `>=` it in a `MAX_HEAP`. -/
def ParentOrder {α : Type} (type : heap_type) (value_cmp : Option α → Option α → Int)
    (h : heap α) : Prop :=
  ∀ i, 1 ≤ i → i < h.size →
    ∃ a b, heap_cell h ((i - 1) / 2) = some a ∧ heap_cell h i = some b ∧
      heap_le type value_cmp (some a) (some b)

/-- A comparator of `int` keys that takes two keys that differ by at most 1 as equal, and
orders the others, and `NULL`, as `value_cmp_int` does; "equal" is not transitive. -/
def example_near_cmp (a b : Option Int) : Int :=
  match a, b with
  | none, none => 0
  | none, some _ => -1
  | some _, none => 1
  | some val_a, some val_b =>
    if val_a - val_b ≤ 1 ∧ val_b - val_a ≤ 1 then 0
    else if val_a > val_b then 1
    else -1

/-- The table after `hash_table_init` with size 2 and the comparator `example_near_cmp`,
and `hash_table_set` of the `int` keys 0 and 2, which share the chain of slot 0. -/
def example_near_table : hash_table (Option Int) Nat :=
  { index_size := 2
    entry_size := 2
    index := some [some { nodes := [{ key := some 0, value := some 10, must_destroy := 0 },
                                    { key := some 2, value := some 20, must_destroy := 0 }],
                          size := 2 }, none]
    key_cmp := example_near_cmp
    key_hash := int_key_hash }


/-- The list of `array_list_init(&lst, 2 ^ 61)`: the byte size `2 ^ 61 * sizeof(void*)` of
the block wraps to 0, so the capacity is `2 ^ 61` and the block holds no cell. -/
def example_list_wrapped : array_list Int :=
  { size := 0, capacity := 2 ^ 61, array := some [] }

/-- The list of `array_list_init(&lst, 2 ^ 61 + 2)`: the byte size of the block wraps to
16, so the capacity is `2 ^ 61 + 2` and the block holds two cells. -/
def example_list_wrapped_two : array_list Int :=
  { size := 0, capacity := 2 ^ 61 + 2, array := some [none, none] }

/-- The `MIN_HEAP` of `heap_init(&h, MIN_HEAP, value_cmp_int, 2 ^ 61)`, and of the same call
with the odd capacity `2 ^ 61 - 1`, which `heap_init` increments: the array has the capacity
`2 ^ 61` and a block without cells. -/
def example_heap_wrapped_min : heap Int :=
  { type := .MIN_HEAP, size := 0, heap_array := example_list_wrapped,
    value_cmp := value_cmp_int }

/-- The `MAX_HEAP` of `heap_init(&h, MAX_HEAP, value_cmp_int, 2 ^ 61)`: the array has the
capacity `2 ^ 61` and a block without cells. -/
def example_heap_wrapped_max : heap Int :=
  { type := .MAX_HEAP, size := 0, heap_array := example_list_wrapped,
    value_cmp := value_cmp_int }

/-! ## Lemmas on the chain loops -/

section Loops

variable {K V : Type}

theorem get_entry_loop_none (key_cmp : K → K → Int) (key : K)
    (l : List (hash_table_entry K V)) (i : Nat) :
    get_entry_loop key_cmp key l i = none ↔ ∀ e ∈ l, key_cmp e.key key ≠ 0 := by
  induction l generalizing i with
  | nil => simp [get_entry_loop]
  | cons a l ih =>
    by_cases h : key_cmp a.key key = 0
    · simp [get_entry_loop, h]
    · simp [get_entry_loop, h, ih]

theorem get_entry_loop_some (key_cmp : K → K → Int) (key : K)
    (l : List (hash_table_entry K V)) (i p : Nat) (e : hash_table_entry K V)
    (h : get_entry_loop key_cmp key l i = some (p, e)) :
    ∃ pre post, l = pre ++ e :: post ∧ p = i + pre.length ∧ key_cmp e.key key = 0 ∧
      ∀ x ∈ pre, key_cmp x.key key ≠ 0 := by
  induction l generalizing i with
  | nil => simp [get_entry_loop] at h
  | cons a l ih =>
    by_cases hc : key_cmp a.key key = 0
    · simp [get_entry_loop, hc] at h
      obtain ⟨rfl, rfl⟩ := h
      exact ⟨[], l, by simp, by simp, hc, by simp⟩
    · simp [get_entry_loop, hc] at h
      obtain ⟨pre, post, h1, h2, h3, h4⟩ := ih (i + 1) h
      refine ⟨a :: pre, post, by simp [h1], by simp [h2]; omega, h3, ?_⟩
      intro x hx
      rcases List.mem_cons.1 hx with rfl | hx
      · exact hc
      · exact h4 x hx

theorem set_entry_loop_none (key_cmp : K → K → Int) (entry : hash_table_entry K V)
    (l : List (hash_table_entry K V)) :
    set_entry_loop key_cmp entry l = none ↔ ∀ e ∈ l, key_cmp e.key entry.key ≠ 0 := by
  induction l with
  | nil => simp [set_entry_loop]
  | cons a l ih =>
    by_cases h : key_cmp a.key entry.key = 0
    · simp [set_entry_loop, h]
    · cases hr : set_entry_loop key_cmp entry l with
      | none =>
        simp only [set_entry_loop, h, hr, if_false, true_iff]
        intro e he
        rcases List.mem_cons.1 he with rfl | he
        · exact h
        · exact ih.1 hr e he
      | some l' =>
        have : ¬ ∀ e ∈ l, key_cmp e.key entry.key ≠ 0 := fun hn => by
          rw [ih.2 hn] at hr; cases hr
        simp only [set_entry_loop, h, hr, if_false]
        constructor
        · intro h'; cases h'
        · intro h'; exact absurd (fun e he => h' e (List.mem_cons_of_mem _ he)) this

theorem set_entry_loop_some (key_cmp : K → K → Int) (entry : hash_table_entry K V)
    (l l' : List (hash_table_entry K V))
    (h : set_entry_loop key_cmp entry l = some l') :
    ∃ pre e0 post, l = pre ++ e0 :: post ∧
      l' = pre ++ { e0 with value := entry.value } :: post ∧
      key_cmp e0.key entry.key = 0 ∧ ∀ x ∈ pre, key_cmp x.key entry.key ≠ 0 := by
  induction l generalizing l' with
  | nil => simp [set_entry_loop] at h
  | cons a l ih =>
    by_cases hc : key_cmp a.key entry.key = 0
    · simp [set_entry_loop, hc] at h
      exact ⟨[], a, l, by simp, by simp [← h], hc, by simp⟩
    · cases hr : set_entry_loop key_cmp entry l with
      | none => simp [set_entry_loop, hc, hr] at h
      | some l2 =>
        simp [set_entry_loop, hc, hr] at h
        obtain ⟨pre, e0, post, h1, h2, h3, h4⟩ := ih l2 hr
        refine ⟨a :: pre, e0, post, by simp [h1], by simp [← h, h2], h3, ?_⟩
        intro x hx
        rcases List.mem_cons.1 hx with rfl | hx
        · exact hc
        · exact h4 x hx

theorem get_entry_loop_find (key_cmp : K → K → Int) (key : K)
    (l : List (hash_table_entry K V)) (i : Nat) :
    (get_entry_loop key_cmp key l i).map Prod.snd =
      l.find? (fun e => decide (key_cmp e.key key = 0)) := by
  induction l generalizing i with
  | nil => simp [get_entry_loop]
  | cons a l ih =>
    by_cases h : key_cmp a.key key = 0
    · simp [get_entry_loop, h]
    · simp [get_entry_loop, h, ih]

theorem linked_list_del_at_of_lt {α : Type} (lst : linked_list α) (pos : Nat)
    (h : pos < lst.nodes.length) :
    linked_list_del_at lst pos =
      ({ nodes := lst.nodes.eraseIdx pos, size := lst.size - 1 }, true) := by
  unfold linked_list_del_at find_node_at
  cases hn : lst.nodes with
  | nil => simp [hn] at h
  | cons a l =>
    cases hd : List.drop pos (a :: l) with
    | nil =>
      rw [List.drop_eq_nil_iff] at hd
      rw [hn] at h
      omega
    | cons b l2 => rfl

theorem hash_table_del_stale_loop_no_match (key_cmp : K → K → Int) (key : K)
    (p_list : linked_list (hash_table_entry K V)) (rest : List (hash_table_entry K V))
    (i d : Nat) (h : ∀ e ∈ rest, key_cmp e.key key ≠ 0) :
    hash_table_del_stale_loop key_cmp key p_list rest i d = some (p_list, d) := by
  induction rest generalizing i with
  | nil => simp [hash_table_del_stale_loop]
  | cons a l ih =>
    have ha : key_cmp a.key key ≠ 0 := h a (List.mem_cons_self _ _)
    simp only [hash_table_del_stale_loop, ha, if_false]
    exact ih (i + 1) (fun e he => h e (List.mem_cons_of_mem _ he))

theorem hash_table_del_stale_loop_match (key_cmp : K → K → Int) (key : K)
    (p_list : linked_list (hash_table_entry K V))
    (pre0 pre post : List (hash_table_entry K V)) (e0 : hash_table_entry K V) (d : Nat)
    (hn : p_list.nodes = pre0 ++ (pre ++ e0 :: post))
    (h0 : key_cmp e0.key key = 0) (hpre : ∀ x ∈ pre, key_cmp x.key key ≠ 0) :
    hash_table_del_stale_loop key_cmp key p_list (pre ++ e0 :: post) pre0.length d =
      some ({ nodes := pre0 ++ (pre ++ post), size := p_list.size - 1 }, d + 1) := by
  induction pre generalizing pre0 with
  | nil =>
    have hlt : pre0.length < p_list.nodes.length := by simp [hn]
    simp only [List.nil_append, hash_table_del_stale_loop, h0, if_true]
    rw [linked_list_del_at_of_lt p_list pre0.length hlt]
    simp [hn, List.eraseIdx_append_of_length_le]
  | cons a l ih =>
    have ha : key_cmp a.key key ≠ 0 := hpre a (List.mem_cons_self _ _)
    simp only [List.cons_append, hash_table_del_stale_loop, ha, if_false]
    have := ih (pre0 ++ [a]) (by simp [hn]) (fun x hx => hpre x (List.mem_cons_of_mem _ hx))
    simpa using this

end Loops

/-! ## Lemmas on the index -/

section Index

variable {K V : Type}

theorem find_index_ok (ht : hash_table K V) (key : K) (h : 2 ≤ ht.index_size) :
    find_index ht key = .ok (slot_of ht key) := by
  unfold find_index slot_of
  have h1 : ht.index_size ≠ 0 := by omega
  have h2 : ht.index_size - 1 ≠ 0 := by omega
  simp [h1, h2]

theorem slot_of_lt (ht : hash_table K V) (key : K) (h : 2 ≤ ht.index_size) :
    slot_of ht key < ht.index_size := by
  unfold slot_of
  have : ht.key_hash key ht.index_size % (ht.index_size - 1) < ht.index_size - 1 :=
    Nat.mod_lt _ (by omega)
  omega

theorem chain_at_of_set (ht ht' : hash_table K V)
    (idx : List (Option (linked_list (hash_table_entry K V)))) (j : Nat)
    (c' : linked_list (hash_table_entry K V))
    (h' : ht'.index = some (idx.set j (some c'))) (h : ht.index = some idx)
    (hj : j < idx.length) (i : Nat) :
    chain_at ht' i = if i = j then c'.nodes else chain_at ht i := by
  unfold chain_at
  rw [h', h]
  by_cases hij : i = j
  · subst hij
    simp [hj]
  · have : j ≠ i := fun h => hij h.symm
    simp [hij, List.getElem?_set_ne this]

theorem chain_at_eq_nodes (ht : hash_table K V)
    (idx : List (Option (linked_list (hash_table_entry K V)))) (j : Nat)
    (c : linked_list (hash_table_entry K V))
    (h : ht.index = some idx) (hc : idx[j]? = some (some c)) :
    chain_at ht j = c.nodes := by
  unfold chain_at
  simp [h, hc]

theorem chain_at_eq_nil (ht : hash_table K V)
    (idx : List (Option (linked_list (hash_table_entry K V)))) (j : Nat)
    (h : ht.index = some idx) (hc : idx[j]? = some none) :
    chain_at ht j = [] := by
  unfold chain_at
  simp [h, hc]

theorem Inv_of_set (key_cmp : K → K → Int) (key_hash : K → Nat → Nat)
    (ht ht' : hash_table K V) (hI : Inv key_cmp key_hash ht)
    (idx : List (Option (linked_list (hash_table_entry K V)))) (j : Nat)
    (c' : linked_list (hash_table_entry K V))
    (h : ht.index = some idx) (h' : ht'.index = some (idx.set j (some c')))
    (hsz : ht'.index_size = ht.index_size) (hcmp : ht'.key_cmp = ht.key_cmp)
    (hhash : ht'.key_hash = ht.key_hash)
    (hj : j < idx.length) (hsize : c'.size = c'.nodes.length)
    (hplaced : ∀ e ∈ c'.nodes, slot_of ht e.key = j)
    (hdist : c'.nodes.Pairwise (fun a b => key_cmp a.key b.key ≠ 0)) :
    Inv key_cmp key_hash ht' := by
  have hslot : ∀ k, slot_of ht' k = slot_of ht k := by
    intro k; unfold slot_of; rw [hsz, hhash]
  obtain ⟨idx0, hidx0, hlen0⟩ := hI.has_index
  have hidx : idx0 = idx := by rw [h] at hidx0; exact (Option.some.inj hidx0).symm
  subst hidx
  refine ⟨hcmp.trans hI.cmp_eq, hhash.trans hI.hash_eq, hsz ▸ hI.two_le,
    ⟨_, h', by simp [hlen0, hsz]⟩, ?_, ?_, ?_⟩
  · intro idx1 i p_list hidx1 hp
    rw [h'] at hidx1
    have hidx1 := (Option.some.inj hidx1).symm
    subst hidx1
    by_cases hij : j = i
    · subst hij
      simp [hj] at hp
      subst hp
      exact hsize
    · rw [List.getElem?_set_ne hij] at hp
      exact hI.size_eq idx0 i p_list h hp
  · intro i e he
    rw [chain_at_of_set ht ht' idx0 j c' h' h hj i] at he
    rw [hslot]
    by_cases hij : i = j
    · simp only [hij, if_true] at he
      rw [hij]; exact hplaced e he
    · simp only [hij, if_false] at he
      exact hI.placed i e he
  · intro i
    rw [chain_at_of_set ht ht' idx0 j c' h' h hj i]
    by_cases hij : i = j
    · simp only [hij, if_true]; exact hdist
    · simp only [hij, if_false]; exact hI.distinct i

theorem hash_table_get_eq (key_cmp : K → K → Int) (key_hash : K → Nat → Nat)
    (ht : hash_table K V) (hI : Inv key_cmp key_hash ht) (key : K) :
    hash_table_get ht key =
      .ok (((chain_at ht (slot_of ht key)).find?
        (fun e => decide (key_cmp e.key key = 0))).bind (fun e => e.value)) := by
  obtain ⟨idx, hidx, hlen⟩ := hI.has_index
  have hlt : slot_of ht key < idx.length := hlen ▸ slot_of_lt ht key hI.two_le
  unfold hash_table_get hash_table_get_entry
  simp only [hidx, find_index_ok ht key hI.two_le]
  cases hs : idx[slot_of ht key]? with
  | none =>
    rw [List.getElem?_eq_none_iff] at hs
    omega
  | some s =>
    cases s with
    | none => simp [chain_at_eq_nil ht idx _ hidx hs]
    | some p_list =>
      have hsz := hI.size_eq idx _ p_list hidx hs
      rw [chain_at_eq_nodes ht idx _ p_list hidx hs]
      cases hn : p_list.nodes with
      | nil => simp [hsz, hn]
      | cons a l =>
        have hne : p_list.size ≠ 0 := by simp [hsz, hn]
        have hf := get_entry_loop_find ht.key_cmp key (a :: l) 0
        rw [hI.cmp_eq] at hf
        simp only [hne, if_false, hI.cmp_eq]
        rw [← hf]
        cases hg : get_entry_loop key_cmp key (a :: l) 0 with
        | none => simp [hn, hg]
        | some pe => simp [hn, hg]

theorem slot_of_congr (key_cmp : K → K → Int) (key_hash : K → Nat → Nat)
    (hK : ConsistentKeys key_cmp key_hash) (ht : hash_table K V)
    (hI : Inv key_cmp key_hash ht) (a b : K) (h : key_cmp a b = 0) :
    slot_of ht a = slot_of ht b := by
  unfold slot_of
  rw [hI.hash_eq, hK.hash_eq a b _ h]

theorem eq_of_pairwise_of_cmp (key_cmp : K → K → Int) (key_hash : K → Nat → Nat)
    (hK : ConsistentKeys key_cmp key_hash) (l : List (hash_table_entry K V))
    (hl : l.Pairwise (fun a b => key_cmp a.key b.key ≠ 0))
    (a b : hash_table_entry K V) (ha : a ∈ l) (hb : b ∈ l) (h : key_cmp a.key b.key = 0) :
    a = b := by
  by_contra hne
  have hsym : Symmetric (fun a b : hash_table_entry K V => key_cmp a.key b.key ≠ 0) :=
    fun x y hxy hyx => hxy (hK.symm _ _ hyx)
  exact hl.forall hsym ha hb hne h

theorem hash_table_get_of_mem (key_cmp : K → K → Int) (key_hash : K → Nat → Nat)
    (hK : ConsistentKeys key_cmp key_hash) (ht : hash_table K V)
    (hI : Inv key_cmp key_hash ht) (i : Nat) (e : hash_table_entry K V)
    (he : e ∈ chain_at ht i) (key : K) (hk : key_cmp e.key key = 0) :
    hash_table_get ht key = .ok e.value := by
  have hi : i = slot_of ht key := by
    rw [← hI.placed i e he]
    exact slot_of_congr key_cmp key_hash hK ht hI _ _ hk
  subst hi
  rw [hash_table_get_eq key_cmp key_hash ht hI key]
  cases hf : (chain_at ht (slot_of ht key)).find? (fun e => decide (key_cmp e.key key = 0)) with
  | none =>
    rw [List.find?_eq_none] at hf
    have := hf e he
    simp [hk] at this
  | some e' =>
    have hm : e' ∈ chain_at ht (slot_of ht key) := List.mem_of_find?_eq_some hf
    have hp : key_cmp e'.key key = 0 := by
      have := List.find?_some hf
      simpa using this
    have : e' = e :=
      eq_of_pairwise_of_cmp key_cmp key_hash hK _ (hI.distinct _) e' e hm he
        (hK.trans _ _ _ hp (hK.symm _ _ hk))
    simp [this]

theorem hash_table_get_of_not_mem (key_cmp : K → K → Int) (key_hash : K → Nat → Nat)
    (ht : hash_table K V) (hI : Inv key_cmp key_hash ht) (key : K)
    (h : ∀ e ∈ chain_at ht (slot_of ht key), key_cmp e.key key ≠ 0) :
    hash_table_get ht key = .ok none := by
  rw [hash_table_get_eq key_cmp key_hash ht hI key]
  have : (chain_at ht (slot_of ht key)).find? (fun e => decide (key_cmp e.key key = 0)) = none := by
    rw [List.find?_eq_none]
    intro x hx
    simpa using h x hx
  simp [this]

end Index

/-! ## Effect of the operations -/

section Effects

variable {K V : Type}

theorem pairwise_set_value (key_cmp : K → K → Int)
    (pre post : List (hash_table_entry K V)) (e0 : hash_table_entry K V) (v : Option V)
    (h : (pre ++ e0 :: post).Pairwise (fun a b => key_cmp a.key b.key ≠ 0)) :
    (pre ++ { e0 with value := v } :: post).Pairwise (fun a b => key_cmp a.key b.key ≠ 0) := by
  simp only [List.pairwise_append, List.pairwise_cons, List.mem_cons] at h ⊢
  obtain ⟨h1, ⟨h2, h3⟩, h4⟩ := h
  refine ⟨h1, ⟨h2, h3⟩, ?_⟩
  intro a ha b hb
  rcases hb with rfl | hb
  · exact h4 a ha e0 (Or.inl rfl)
  · exact h4 a ha b (Or.inr hb)

theorem hash_table_set_entry_spec (key_cmp : K → K → Int) (key_hash : K → Nat → Nat)
    (ht ht' : hash_table K V) (hI : Inv key_cmp key_hash ht)
    (entry : hash_table_entry K V) (r : Bool)
    (h : hash_table_set_entry ht entry = .ok (ht', r)) :
    r = true ∧ Inv key_cmp key_hash ht' ∧ ht'.index_size = ht.index_size ∧
      SetEffect key_cmp ht ht' entry := by
  obtain ⟨idx, hidx, hlen⟩ := hI.has_index
  have hlt : slot_of ht entry.key < idx.length := hlen ▸ slot_of_lt ht entry.key hI.two_le
  unfold hash_table_set_entry at h
  simp only [hidx, find_index_ok ht entry.key hI.two_le] at h
  cases hs : idx[slot_of ht entry.key]? with
  | none =>
    rw [List.getElem?_eq_none_iff] at hs
    omega
  | some s =>
    rw [hs] at h
    cases s with
    | none =>
      simp only [linked_list_init, linked_list_push_tail, List.nil_append, Except.ok.injEq,
        Prod.mk.injEq] at h
      obtain ⟨h1, h2⟩ := h
      subst h1
      have hnil := chain_at_eq_nil ht idx _ hidx hs
      refine ⟨h2.symm, ?_, rfl, Or.inl ⟨?_, ?_, rfl⟩⟩
      · refine Inv_of_set key_cmp key_hash ht _ hI idx (slot_of ht entry.key)
          { nodes := [entry], size := 0 + 1 } hidx rfl rfl rfl rfl hlt (by simp) ?_ ?_
        · intro e he
          simp at he
          rw [he]
        · simp
      · rw [hnil]; simp
      · intro i
        rw [chain_at_of_set ht _ idx (slot_of ht entry.key) { nodes := [entry], size := 0 + 1 }
          rfl hidx hlt i, hnil]
        simp
    | some p_list =>
      have hnodes := chain_at_eq_nodes ht idx _ p_list hidx hs
      have hsz := hI.size_eq idx _ p_list hidx hs
      cases hn : p_list.nodes with
      | nil => simp [hn] at h
      | cons a l =>
        simp only [hn, hI.cmp_eq] at h
        cases hl : set_entry_loop key_cmp entry (a :: l) with
        | none =>
          have hno := (set_entry_loop_none key_cmp entry (a :: l)).1 hl
          simp only [hl, linked_list_push_tail, Except.ok.injEq, Prod.mk.injEq] at h
          obtain ⟨h1, h2⟩ := h
          subst h1
          refine ⟨h2.symm, ?_, rfl, Or.inl ⟨?_, ?_, rfl⟩⟩
          · refine Inv_of_set key_cmp key_hash ht _ hI idx (slot_of ht entry.key)
              { nodes := p_list.nodes ++ [entry], size := p_list.size + 1 } hidx rfl rfl
              hI.cmp_eq.symm rfl hlt (by simp [hsz]) ?_ ?_
            · intro e he
              simp only [List.mem_append, List.mem_singleton] at he
              rcases he with he | he
              · exact hI.placed _ e (hnodes ▸ he)
              · rw [he]
            · have hd := hI.distinct (slot_of ht entry.key)
              rw [hnodes] at hd
              simp only [List.pairwise_append, List.pairwise_cons, List.Pairwise.nil,
                List.mem_singleton]
              refine ⟨hd, ⟨by simp, trivial⟩, ?_⟩
              intro x hx b hb
              rw [hb]
              exact hno x (hn ▸ hx)
          · rw [hnodes, hn]; exact hno
          · intro i
            rw [chain_at_of_set ht _ idx (slot_of ht entry.key)
              { nodes := p_list.nodes ++ [entry], size := p_list.size + 1 } rfl hidx hlt i,
              hnodes]
        | some nodes' =>
          obtain ⟨pre, e0, post, hp1, hp2, hp3, hp4⟩ :=
            set_entry_loop_some key_cmp entry (a :: l) nodes' hl
          simp only [hl, Except.ok.injEq, Prod.mk.injEq] at h
          obtain ⟨h1, h2⟩ := h
          subst h1
          have hd := hI.distinct (slot_of ht entry.key)
          rw [hnodes, hn, hp1] at hd
          refine ⟨h2.symm, ?_, rfl, Or.inr ⟨pre, e0, post, ?_, hp3, hp4, ?_, rfl⟩⟩
          · refine Inv_of_set key_cmp key_hash ht _ hI idx (slot_of ht entry.key)
              { p_list with nodes := nodes' } hidx rfl rfl hI.cmp_eq.symm rfl hlt
              ?_ ?_ ?_
            · simp [hsz, hn, hp1, hp2]
            · intro e he
              simp only [hp2, List.mem_append, List.mem_cons] at he
              have hpl := hI.placed (slot_of ht entry.key)
              rw [hnodes, hn, hp1] at hpl
              rcases he with he | he | he
              · exact hpl e (by simp [he])
              · rw [he]; exact hpl e0 (by simp)
              · exact hpl e (by simp [he])
            · simp only [hp2]
              exact pairwise_set_value key_cmp pre post e0 entry.value hd
          · rw [hnodes, hn, hp1]
          · intro i
            rw [chain_at_of_set ht _ idx (slot_of ht entry.key) { p_list with nodes := nodes' }
              rfl hidx hlt i, hp2]

theorem hash_table_set_entry_empty_chain (ht : hash_table K V)
    (idx : List (Option (linked_list (hash_table_entry K V))))
    (p_list : linked_list (hash_table_entry K V)) (entry : hash_table_entry K V)
    (h2 : 2 ≤ ht.index_size) (hidx : ht.index = some idx)
    (hs : idx[slot_of ht entry.key]? = some (some p_list)) (hn : p_list.nodes = []) :
    hash_table_set_entry ht entry = .error .null_deref := by
  unfold hash_table_set_entry
  simp only [hidx, find_index_ok ht entry.key h2, hs, hn]

theorem hash_table_get_entry_spec (key_cmp : K → K → Int) (key_hash : K → Nat → Nat)
    (ht : hash_table K V) (hI : Inv key_cmp key_hash ht) (key : K) :
    (hash_table_get_entry ht key = .ok none ∧
      ∀ x ∈ chain_at ht (slot_of ht key), key_cmp x.key key ≠ 0) ∨
    (∃ idx p_list pre e0 post, ht.index = some idx ∧
      idx[slot_of ht key]? = some (some p_list) ∧ p_list.nodes = pre ++ e0 :: post ∧
      key_cmp e0.key key = 0 ∧ (∀ x ∈ pre, key_cmp x.key key ≠ 0) ∧
      hash_table_get_entry ht key =
        .ok (some { slot := slot_of ht key, pos := pre.length, entry := e0 })) := by
  obtain ⟨idx, hidx, hlen⟩ := hI.has_index
  have hlt : slot_of ht key < idx.length := hlen ▸ slot_of_lt ht key hI.two_le
  unfold hash_table_get_entry
  simp only [hidx, find_index_ok ht key hI.two_le]
  cases hs : idx[slot_of ht key]? with
  | none =>
    rw [List.getElem?_eq_none_iff] at hs
    omega
  | some s =>
    cases s with
    | none => left; simp [chain_at_eq_nil ht idx _ hidx hs]
    | some p_list =>
      have hsz := hI.size_eq idx _ p_list hidx hs
      have hnodes := chain_at_eq_nodes ht idx _ p_list hidx hs
      cases hn : p_list.nodes with
      | nil => left; simp [hsz, hn, hnodes]
      | cons a l =>
        have hne : p_list.size ≠ 0 := by simp [hsz, hn]
        simp only [hne, if_false, hI.cmp_eq, hn]
        cases hg : get_entry_loop key_cmp key (a :: l) 0 with
        | none =>
          left
          refine ⟨rfl, ?_⟩
          rw [hnodes, hn]
          exact (get_entry_loop_none key_cmp key (a :: l) 0).1 hg
        | some pe =>
          obtain ⟨pos, e⟩ := pe
          obtain ⟨pre, post, h1, h2, h3, h4⟩ := get_entry_loop_some key_cmp key (a :: l) 0 pos e hg
          right
          refine ⟨idx, p_list, pre, e, post, rfl, hs, by rw [hn, ← h1], h3, h4, ?_⟩
          simp [h2]

theorem hash_table_set_spec (key_cmp : K → K → Int) (key_hash : K → Nat → Nat)
    (ht ht' : hash_table K V) (hI : Inv key_cmp key_hash ht)
    (key : K) (value : Option V) (r : Bool)
    (h : hash_table_set ht key value = .ok (ht', r)) :
    r = true ∧ Inv key_cmp key_hash ht' ∧ ht'.index_size = ht.index_size ∧
      SetEffect key_cmp ht ht' { key := key, value := value, must_destroy := 0 } := by
  unfold hash_table_set at h
  rcases hash_table_get_entry_spec key_cmp key_hash ht hI key with
    ⟨hg, _⟩ | ⟨idx, p_list, pre, e0, post, hidx, hs, hn, h0, hpre, hg⟩
  · rw [hg] at h
    exact hash_table_set_entry_spec key_cmp key_hash ht ht' hI _ r h
  · rw [hg] at h
    have hlt : slot_of ht key < idx.length := by
      obtain ⟨i0, hi0, hlen⟩ := hI.has_index
      rw [hidx] at hi0
      have := Option.some.inj hi0
      subst this
      exact hlen ▸ slot_of_lt ht key hI.two_le
    have hnodes := chain_at_eq_nodes ht idx _ p_list hidx hs
    have hsz := hI.size_eq idx _ p_list hidx hs
    have hset : List.set (pre ++ e0 :: post) pre.length { e0 with value := value } =
        pre ++ { e0 with value := value } :: post := by
      simp
    simp only [entry_ptr_set_value, hidx, hs, hn, hset, Except.ok.injEq, Prod.mk.injEq] at h
    obtain ⟨h1, h2⟩ := h
    subst h1
    have hd := hI.distinct (slot_of ht key)
    rw [hnodes, hn] at hd
    refine ⟨h2.symm, ?_, rfl, Or.inr ⟨pre, e0, post, ?_, h0, hpre, ?_, rfl⟩⟩
    · refine Inv_of_set key_cmp key_hash ht _ hI idx (slot_of ht key)
        { p_list with nodes := pre ++ { e0 with value := value } :: post } hidx rfl rfl rfl rfl
        hlt ?_ ?_ ?_
      · simp [hsz, hn]
      · intro e he
        simp only [List.mem_append, List.mem_cons] at he
        have hpl := hI.placed (slot_of ht key)
        rw [hnodes, hn] at hpl
        rcases he with he | he | he
        · exact hpl e (by simp [he])
        · rw [he]; exact hpl e0 (by simp)
        · exact hpl e (by simp [he])
      · exact pairwise_set_value key_cmp pre post e0 value hd
    · rw [hnodes, hn]
    · intro i
      rw [chain_at_of_set ht _ idx (slot_of ht key)
        { p_list with nodes := pre ++ { e0 with value := value } :: post } rfl hidx hlt i]

theorem set_eq_self_of_getElem? {α : Type} (l : List α) (j : Nat) (x : α)
    (h : l[j]? = some x) : l.set j x = l := by
  apply List.ext_getElem?
  intro i
  by_cases hij : j = i
  · subst hij
    have hlt : j < l.length := by
      by_contra hc
      rw [List.getElem?_eq_none (by omega)] at h
      cases h
    rw [List.getElem?_set_self hlt, h]
  · rw [List.getElem?_set_ne hij]

theorem hash_table_del_stale_spec (key_cmp : K → K → Int) (key_hash : K → Nat → Nat)
    (ht : hash_table K V) (hI : Inv key_cmp key_hash ht) (key : K) :
    ∃ ht' r, hash_table_del_stale ht key = .ok (ht', r) ∧
      ((r = false ∧ ht' = ht ∧ ∀ x ∈ chain_at ht (slot_of ht key), key_cmp x.key key ≠ 0) ∨
       (r = true ∧ Inv key_cmp key_hash ht' ∧ ht'.index_size = ht.index_size ∧
        ∃ pre e0 post, chain_at ht (slot_of ht key) = pre ++ e0 :: post ∧
          key_cmp e0.key key = 0 ∧ (∀ x ∈ pre, key_cmp x.key key ≠ 0) ∧
          (∀ i, chain_at ht' i = if i = slot_of ht key then pre ++ post else chain_at ht i) ∧
          ht'.entry_size = ht.entry_size - 1)) := by
  obtain ⟨idx, hidx, hlen⟩ := hI.has_index
  have hlt : slot_of ht key < idx.length := hlen ▸ slot_of_lt ht key hI.two_le
  have hc := hI.cmp_eq
  subst hc
  unfold hash_table_del_stale
  simp only [hidx, find_index_ok ht key hI.two_le]
  cases hs : idx[slot_of ht key]? with
  | none =>
    rw [List.getElem?_eq_none_iff] at hs
    omega
  | some s =>
    cases s with
    | none =>
      refine ⟨ht, false, rfl, Or.inl ⟨rfl, rfl, ?_⟩⟩
      simp [chain_at_eq_nil ht idx _ hidx hs]
    | some p_list =>
      have hsz := hI.size_eq idx _ p_list hidx hs
      have hnodes := chain_at_eq_nodes ht idx _ p_list hidx hs
      by_cases hz : p_list.size = 0
      · refine ⟨ht, false, by simp [hz], Or.inl ⟨rfl, rfl, ?_⟩⟩
        have : p_list.nodes = [] := by
          rw [hz] at hsz
          exact List.length_eq_zero.1 hsz.symm
        simp [hnodes, this]
      · simp only [hz, if_false]
        cases hg : get_entry_loop ht.key_cmp key p_list.nodes 0 with
        | none =>
          have hno := (get_entry_loop_none ht.key_cmp key p_list.nodes 0).1 hg
          rw [hash_table_del_stale_loop_no_match ht.key_cmp key p_list p_list.nodes 0 0 hno]
          refine ⟨_, _, rfl, Or.inl ⟨by simp, ?_, by rw [hnodes]; exact hno⟩⟩
          rw [Nat.sub_zero, set_eq_self_of_getElem? idx _ _ hs, ← hidx]
        | some pe =>
          obtain ⟨pos, e0⟩ := pe
          obtain ⟨pre, post, h1, _, h3, h4⟩ :=
            get_entry_loop_some ht.key_cmp key p_list.nodes 0 pos e0 hg
          have hl := hash_table_del_stale_loop_match ht.key_cmp key p_list [] pre post e0 0
            (by simpa using h1) h3 h4
          rw [h1]
          simp only [List.length_nil, List.nil_append, Nat.zero_add] at hl
          rw [hl]
          have hd := hI.distinct (slot_of ht key)
          rw [hnodes, h1] at hd
          have hpl := hI.placed (slot_of ht key)
          rw [hnodes, h1] at hpl
          refine ⟨_, _, rfl, Or.inr ⟨by simp, ?_, rfl, pre, e0, post, by rw [hnodes, h1], h3, h4,
            ?_, rfl⟩⟩
          · refine Inv_of_set ht.key_cmp key_hash ht _ hI idx (slot_of ht key)
              { nodes := pre ++ post, size := p_list.size - 1 } hidx rfl rfl rfl rfl
              hlt ?_ ?_ ?_
            · simp [hsz, h1]
            · intro e he
              simp only [List.mem_append] at he
              rcases he with he | he
              · exact hpl e (by simp [he])
              · exact hpl e (by simp [he])
            · simp only [List.pairwise_append, List.pairwise_cons, List.mem_cons] at hd ⊢
              obtain ⟨hd1, ⟨_, hd3⟩, hd4⟩ := hd
              exact ⟨hd1, hd3, fun a ha b hb => hd4 a ha b (Or.inr hb)⟩
          · intro i
            rw [chain_at_of_set ht _ idx (slot_of ht key)
              { nodes := pre ++ post, size := p_list.size - 1 } rfl hidx hlt i]

theorem chain_at_init (size : Nat) (key_cmp : K → K → Int) (key_hash : K → Nat → Nat)
    (i : Nat) : chain_at (hash_table_init size key_cmp key_hash : hash_table K V × Bool).1 i = [] := by
  unfold chain_at hash_table_init
  simp only [List.getElem?_replicate]
  split <;> simp_all

theorem Inv_init (size : Nat) (key_cmp : K → K → Int) (key_hash : K → Nat → Nat)
    (h : 2 ≤ size) :
    Inv key_cmp key_hash (hash_table_init size key_cmp key_hash : hash_table K V × Bool).1 := by
  refine ⟨rfl, rfl, h, ⟨_, rfl, by simp [hash_table_init]⟩, ?_, ?_, ?_⟩
  · intro idx i p_list hidx hp
    simp only [hash_table_init, Option.some.injEq] at hidx
    subst hidx
    rw [List.getElem?_replicate] at hp
    split at hp <;> simp at hp
  · intro i e he
    rw [chain_at_init] at he
    simp at he
  · intro i
    rw [chain_at_init]
    exact List.Pairwise.nil

theorem NoEmptyChain_init (size : Nat) (key_cmp : K → K → Int) (key_hash : K → Nat → Nat) :
    NoEmptyChain (hash_table_init size key_cmp key_hash : hash_table K V × Bool).1 := by
  intro idx i p_list hidx hp
  simp only [hash_table_init, Option.some.injEq] at hidx
  subst hidx
  rw [List.getElem?_replicate] at hp
  split at hp <;> simp at hp

theorem NoEmptyChain_of_set (ht ht' : hash_table K V) (hne : NoEmptyChain ht)
    (idx : List (Option (linked_list (hash_table_entry K V)))) (j : Nat)
    (c' : linked_list (hash_table_entry K V))
    (h : ht.index = some idx) (h' : ht'.index = some (idx.set j (some c')))
    (hc : c'.nodes ≠ []) : NoEmptyChain ht' := by
  intro idx1 i p_list hidx1 hp
  rw [h'] at hidx1
  have hidx1 := (Option.some.inj hidx1).symm
  subst hidx1
  by_cases hij : j = i
  · subst hij
    rw [List.getElem?_set] at hp
    simp only [if_true] at hp
    split at hp
    · simp only [Option.some.injEq] at hp
      rw [← hp]; exact hc
    · cases hp
  · rw [List.getElem?_set_ne hij] at hp
    exact hne idx i p_list h hp

theorem hash_table_set_entry_ok (key_cmp : K → K → Int) (key_hash : K → Nat → Nat)
    (ht : hash_table K V) (hI : Inv key_cmp key_hash ht) (hne : NoEmptyChain ht)
    (entry : hash_table_entry K V) :
    ∃ ht', hash_table_set_entry ht entry = .ok (ht', true) ∧ NoEmptyChain ht' := by
  obtain ⟨idx, hidx, hlen⟩ := hI.has_index
  have hlt : slot_of ht entry.key < idx.length := hlen ▸ slot_of_lt ht entry.key hI.two_le
  unfold hash_table_set_entry
  simp only [hidx, find_index_ok ht entry.key hI.two_le]
  cases hs : idx[slot_of ht entry.key]? with
  | none =>
    rw [List.getElem?_eq_none_iff] at hs
    omega
  | some s =>
    cases s with
    | none =>
      refine ⟨_, rfl, ?_⟩
      exact NoEmptyChain_of_set ht _ hne idx _ _ hidx rfl (by simp [linked_list_push_tail])
    | some p_list =>
      have hnn := hne idx _ p_list hidx hs
      cases hn : p_list.nodes with
      | nil => exact absurd hn hnn
      | cons a l =>
        simp only [hn]
        cases hl : set_entry_loop ht.key_cmp entry (a :: l) with
        | none =>
          simp only [hl]
          refine ⟨_, rfl, ?_⟩
          exact NoEmptyChain_of_set ht _ hne idx _ _ hidx rfl (by simp [linked_list_push_tail])
        | some nodes' =>
          simp only [hl]
          refine ⟨_, rfl, ?_⟩
          refine NoEmptyChain_of_set ht _ hne idx _ _ hidx rfl ?_
          obtain ⟨pre, e0, post, _, hp2, _, _⟩ :=
            set_entry_loop_some ht.key_cmp entry (a :: l) nodes' hl
          simp [hp2]

theorem hash_table_set_ok (key_cmp : K → K → Int) (key_hash : K → Nat → Nat)
    (ht : hash_table K V) (hI : Inv key_cmp key_hash ht) (hne : NoEmptyChain ht)
    (key : K) (value : Option V) :
    ∃ ht', hash_table_set ht key value = .ok (ht', true) ∧ NoEmptyChain ht' := by
  unfold hash_table_set
  rcases hash_table_get_entry_spec key_cmp key_hash ht hI key with
    ⟨hg, _⟩ | ⟨idx, p_list, pre, e0, post, hidx, hs, hn, _, _, hg⟩
  · rw [hg]
    exact hash_table_set_entry_ok key_cmp key_hash ht hI hne _
  · rw [hg]
    refine ⟨_, rfl, ?_⟩
    simp only [entry_ptr_set_value, hidx, hs]
    exact NoEmptyChain_of_set ht _ hne idx _ _ hidx rfl (by simp [hn])

theorem mem_entries (ht : hash_table K V) (x : hash_table_entry K V) :
    x ∈ entries ht ↔ Stored ht x := by
  unfold entries Stored chain_at
  cases hi : ht.index with
  | none => simp
  | some idx =>
    simp only [List.mem_flatMap]
    constructor
    · rintro ⟨s, hs, hx⟩
      obtain ⟨i, hi⟩ := List.mem_iff_getElem?.1 hs
      refine ⟨i, ?_⟩
      cases s with
      | none => simp [slot_nodes] at hx
      | some p => simpa [hi, slot_nodes] using hx
    · rintro ⟨i, hx⟩
      cases hs : idx[i]? with
      | none => simp [hs] at hx
      | some s =>
        cases s with
        | none => simp [hs] at hx
        | some p =>
          refine ⟨some p, List.mem_iff_getElem?.2 ⟨i, hs⟩, ?_⟩
          simpa [hs, slot_nodes] using hx

theorem entries_pairwise (key_cmp : K → K → Int) (key_hash : K → Nat → Nat)
    (hK : ConsistentKeys key_cmp key_hash) (ht : hash_table K V)
    (hI : Inv key_cmp key_hash ht) :
    (entries ht).Pairwise (fun a b => key_cmp a.key b.key ≠ 0) := by
  obtain ⟨idx, hidx, hlen⟩ := hI.has_index
  unfold entries
  rw [hidx]
  simp only []
  rw [List.pairwise_flatMap]
  constructor
  · intro s hs
    obtain ⟨i, hi⟩ := List.mem_iff_getElem?.1 hs
    cases s with
    | none => exact List.Pairwise.nil
    | some p =>
      have := hI.distinct i
      rw [chain_at_eq_nodes ht idx i p hidx hi] at this
      exact this
  · rw [List.pairwise_iff_getElem]
    intro i j hi hj hij x hx y hy hxy
    have h1 : slot_of ht x.key = i := by
      apply hI.placed i x
      unfold chain_at
      rw [hidx]
      simp only [List.getElem?_eq_getElem hi]
      cases hs : idx[i] with
      | none => simp [hs, slot_nodes] at hx
      | some p => simpa [hs, slot_nodes] using hx
    have h2 : slot_of ht y.key = j := by
      apply hI.placed j y
      unfold chain_at
      rw [hidx]
      simp only [List.getElem?_eq_getElem hj]
      cases hs : idx[j] with
      | none => simp [hs, slot_nodes] at hy
      | some p => simpa [hs, slot_nodes] using hy
    have := slot_of_congr key_cmp key_hash hK ht hI _ _ hxy
    omega

theorem entries_nodup (key_cmp : K → K → Int) (key_hash : K → Nat → Nat)
    (hK : ConsistentKeys key_cmp key_hash) (ht : hash_table K V)
    (hI : Inv key_cmp key_hash ht) : (entries ht).Nodup := by
  have := entries_pairwise key_cmp key_hash hK ht hI
  unfold List.Nodup
  refine this.imp ?_
  intro a b hab heq
  exact hab (heq ▸ hK.refl a.key)

theorem hash_table_rehash_chain_append (ht : hash_table K V)
    (l1 l2 : List (hash_table_entry K V)) :
    hash_table_rehash_chain ht (l1 ++ l2) =
      match hash_table_rehash_chain ht l1 with
      | .error f => .error f
      | .ok (ht', false) => .ok (ht', false)
      | .ok (ht', true) => hash_table_rehash_chain ht' l2 := by
  induction l1 generalizing ht with
  | nil => simp [hash_table_rehash_chain]
  | cons a l ih =>
    simp only [List.cons_append, hash_table_rehash_chain]
    cases hs : hash_table_set_entry ht a with
    | error f => simp
    | ok p =>
      obtain ⟨ht', r⟩ := p
      cases r with
      | false => simp
      | true => simp [ih]

theorem hash_table_rehash_index_eq (ht : hash_table K V)
    (slots : List (Option (linked_list (hash_table_entry K V)))) :
    hash_table_rehash_index ht slots = hash_table_rehash_chain ht (slots.flatMap slot_nodes) := by
  induction slots generalizing ht with
  | nil => simp [hash_table_rehash_index, hash_table_rehash_chain]
  | cons s rest ih =>
    cases s with
    | none => simp [hash_table_rehash_index, slot_nodes, ih]
    | some p =>
      simp only [hash_table_rehash_index, List.flatMap_cons, slot_nodes]
      rw [hash_table_rehash_chain_append]
      cases hs : hash_table_rehash_chain ht p.nodes with
      | error f => simp
      | ok q =>
        obtain ⟨ht', r⟩ := q
        cases r with
        | false => simp
        | true => simp [ih]

theorem stored_of_insert (ht ht' : hash_table K V) (j : Nat) (entry : hash_table_entry K V)
    (h : ∀ i, chain_at ht' i = if i = j then chain_at ht j ++ [entry] else chain_at ht i)
    (x : hash_table_entry K V) : Stored ht' x ↔ Stored ht x ∨ x = entry := by
  unfold Stored
  constructor
  · rintro ⟨i, hi⟩
    rw [h i] at hi
    by_cases hij : i = j
    · simp only [hij, if_true, List.mem_append, List.mem_singleton] at hi
      rcases hi with hi | hi
      · exact Or.inl ⟨j, hi⟩
      · exact Or.inr hi
    · simp only [hij, if_false] at hi
      exact Or.inl ⟨i, hi⟩
  · rintro (⟨i, hi⟩ | hx)
    · refine ⟨i, ?_⟩
      rw [h i]
      by_cases hij : i = j
      · simp only [hij, if_true, List.mem_append]
        exact Or.inl (hij ▸ hi)
      · simp only [hij, if_false]
        exact hi
    · refine ⟨j, ?_⟩
      rw [h j]
      simp [hx]

theorem hash_table_rehash_chain_spec (key_cmp : K → K → Int) (key_hash : K → Nat → Nat)
    (L : List (hash_table_entry K V)) (T : hash_table K V)
    (hI : Inv key_cmp key_hash T) (hne : NoEmptyChain T)
    (hL : L.Pairwise (fun a b => key_cmp a.key b.key ≠ 0))
    (hT : ∀ e ∈ L, ∀ x, Stored T x → key_cmp x.key e.key ≠ 0) :
    ∃ T', hash_table_rehash_chain T L = .ok (T', true) ∧ Inv key_cmp key_hash T' ∧
      NoEmptyChain T' ∧ T'.index_size = T.index_size ∧
      (∀ x, Stored T' x ↔ Stored T x ∨ x ∈ L) ∧
      T'.entry_size = T.entry_size + L.length := by
  induction L generalizing T with
  | nil =>
    exact ⟨T, rfl, hI, hne, rfl, by simp, by simp⟩
  | cons e rest ih =>
    obtain ⟨T1, hset, hne1⟩ := hash_table_set_entry_ok key_cmp key_hash T hI hne e
    obtain ⟨_, hI1, hsz1, heff⟩ := hash_table_set_entry_spec key_cmp key_hash T T1 hI e true hset
    have hins : (∀ i, chain_at T1 i =
        if i = slot_of T e.key then chain_at T (slot_of T e.key) ++ [e] else chain_at T i) ∧
        T1.entry_size = T.entry_size + 1 := by
      rcases heff with ⟨_, h2, h3⟩ | ⟨pre, e0, post, h1, h2, _⟩
      · exact ⟨h2, h3⟩
      · exfalso
        have : Stored T e0 := ⟨slot_of T e.key, by rw [h1]; simp⟩
        exact hT e (List.mem_cons_self _ _) e0 this h2
    obtain ⟨hch, hes⟩ := hins
    have hst := stored_of_insert T T1 _ e hch
    rw [List.pairwise_cons] at hL
    obtain ⟨T2, h2, hI2, hne2, hsz2, hst2, hes2⟩ := ih T1 hI1 hne1 hL.2 (by
      intro e' he' x hx
      rcases (hst x).1 hx with hx | hx
      · exact hT e' (List.mem_cons_of_mem _ he') x hx
      · rw [hx]; exact hL.1 e' he')
    refine ⟨T2, ?_, hI2, hne2, hsz2.trans hsz1, ?_, ?_⟩
    · simp only [hash_table_rehash_chain, hset]
      exact h2
    · intro x
      rw [hst2 x, hst x, List.mem_cons]
      tauto
    · rw [hes2, hes, List.length_cons]
      omega

theorem stored_init (size : Nat) (key_cmp : K → K → Int) (key_hash : K → Nat → Nat)
    (x : hash_table_entry K V) :
    ¬ Stored (hash_table_init size key_cmp key_hash : hash_table K V × Bool).1 x := by
  rintro ⟨i, hi⟩
  rw [chain_at_init] at hi
  simp at hi

theorem hash_table_rehash_spec (key_cmp : K → K → Int) (key_hash : K → Nat → Nat)
    (hK : ConsistentKeys key_cmp key_hash) (ht : hash_table K V)
    (hI : Inv key_cmp key_hash ht) (new_size : Nat) (hn : 2 ≤ new_size) :
    ∃ ht', hash_table_rehash ht new_size = .ok (ht', true) ∧ Inv key_cmp key_hash ht' ∧
      NoEmptyChain ht' ∧ ht'.index_size = new_size ∧
      (∀ x, Stored ht' x ↔ Stored ht x) ∧
      ht'.entry_size = ht.entry_size + (entries ht).length := by
  obtain ⟨idx, hidx, hlen⟩ := hI.has_index
  have hc := hI.cmp_eq
  have hh := hI.hash_eq
  subst hc
  subst hh
  let T : hash_table K V :=
    { ht with index := some (List.replicate new_size none), index_size := new_size }
  have hTI : Inv ht.key_cmp ht.key_hash T := by
    have := Inv_init (V := V) new_size ht.key_cmp ht.key_hash hn
    exact ⟨rfl, rfl, hn, this.has_index, this.size_eq, this.placed, this.distinct⟩
  have hTne : NoEmptyChain T := NoEmptyChain_init (V := V) new_size ht.key_cmp ht.key_hash
  have hTst : ∀ x, ¬ Stored T x := stored_init (V := V) new_size ht.key_cmp ht.key_hash
  obtain ⟨T', h1, hI', hne', hsz', hst', hes'⟩ :=
    hash_table_rehash_chain_spec ht.key_cmp ht.key_hash (entries ht) T hTI hTne
      (entries_pairwise ht.key_cmp ht.key_hash hK ht hI)
      (fun e _ x hx => absurd hx (hTst x))
  refine ⟨T', ?_, hI', hne', hsz', ?_, hes'⟩
  · unfold hash_table_rehash
    simp only [hidx, hlen, Nat.lt_irrefl, if_false]
    rw [← hlen, List.take_length, hash_table_rehash_index_eq]
    have : entries ht = idx.flatMap slot_nodes := by
      unfold entries; rw [hidx]
    rw [← this]
    exact h1
  · intro x
    rw [hst' x, mem_entries]
    constructor
    · rintro (h | h)
      · exact absurd h (hTst x)
      · exact h
    · exact Or.inr

theorem Reachable.inv (key_cmp : K → K → Int) (key_hash : K → Nat → Nat)
    (hK : ConsistentKeys key_cmp key_hash)
    (ht : hash_table K V) (h : Reachable key_cmp key_hash ht) : Inv key_cmp key_hash ht := by
  induction h with
  | init size h => exact Inv_init size key_cmp key_hash h
  | set key value _ hs ih => exact (hash_table_set_spec key_cmp key_hash _ _ ih key value _ hs).2.1
  | set_entry entry _ hs ih =>
    exact (hash_table_set_entry_spec key_cmp key_hash _ _ ih entry _ hs).2.1
  | del key _ hs ih =>
    obtain ⟨ht2, r2, h2, hcase⟩ := hash_table_del_stale_spec key_cmp key_hash _ ih key
    rw [hs] at h2
    simp only [Except.ok.injEq, Prod.mk.injEq] at h2
    obtain ⟨rfl, rfl⟩ := h2
    rcases hcase with ⟨_, he, _⟩ | ⟨_, hinv, _⟩
    · rw [he]; exact ih
    · exact hinv
  | rehash new_size h _ hs ih =>
    obtain ⟨ht2, h2, hinv, _⟩ := hash_table_rehash_spec key_cmp key_hash hK _ ih new_size h
    rw [hs] at h2
    simp only [Except.ok.injEq, Prod.mk.injEq] at h2
    rw [h2.1]; exact hinv

theorem slot_of_eq_of_inv (key_cmp : K → K → Int) (key_hash : K → Nat → Nat)
    (ht ht' : hash_table K V) (hI : Inv key_cmp key_hash ht) (hI' : Inv key_cmp key_hash ht')
    (hsz : ht'.index_size = ht.index_size) (key : K) : slot_of ht' key = slot_of ht key := by
  unfold slot_of
  rw [hsz, hI.hash_eq, hI'.hash_eq]

theorem get_set_same (key_cmp : K → K → Int) (key_hash : K → Nat → Nat)
    (hK : ConsistentKeys key_cmp key_hash) (ht ht' : hash_table K V)
    (hI' : Inv key_cmp key_hash ht') (entry : hash_table_entry K V)
    (heff : SetEffect key_cmp ht ht' entry) (key : K) (hk : key_cmp entry.key key = 0) :
    hash_table_get ht' key = .ok entry.value := by
  rcases heff with ⟨_, h2, _⟩ | ⟨pre, e0, post, _, h2, _, h4, _⟩
  · have hm : entry ∈ chain_at ht' (slot_of ht entry.key) := by
      rw [h2]; simp
    exact hash_table_get_of_mem key_cmp key_hash hK ht' hI' _ entry hm key hk
  · have hm : { e0 with value := entry.value } ∈ chain_at ht' (slot_of ht entry.key) := by
      rw [h4]; simp
    exact hash_table_get_of_mem key_cmp key_hash hK ht' hI' _ _ hm key
      (hK.trans _ _ _ h2 hk)

theorem get_set_other (key_cmp : K → K → Int) (key_hash : K → Nat → Nat)
    (hK : ConsistentKeys key_cmp key_hash) (ht ht' : hash_table K V)
    (hI : Inv key_cmp key_hash ht) (hI' : Inv key_cmp key_hash ht')
    (hsz : ht'.index_size = ht.index_size) (entry : hash_table_entry K V)
    (heff : SetEffect key_cmp ht ht' entry) (key : K) (hk : key_cmp entry.key key ≠ 0) :
    hash_table_get ht' key = hash_table_get ht key := by
  rw [hash_table_get_eq key_cmp key_hash ht' hI' key, hash_table_get_eq key_cmp key_hash ht hI key,
    slot_of_eq_of_inv key_cmp key_hash ht ht' hI hI' hsz key]
  rcases heff with ⟨_, h2, _⟩ | ⟨pre, e0, post, h1, h2, _, h4, _⟩
  · rw [h2]
    by_cases hj : slot_of ht key = slot_of ht entry.key
    · simp only [hj, if_true, List.find?_append]
      simp [hk]
    · simp only [hj, if_false]
  · rw [h4]
    by_cases hj : slot_of ht key = slot_of ht entry.key
    · have h0 : key_cmp e0.key key ≠ 0 := fun h =>
        hk (hK.trans _ _ _ (hK.symm _ _ h2) h)
      simp only [hj, if_true, h1, List.find?_append, List.find?_cons]
      simp [h0]
    · simp only [hj, if_false]

theorem hash_table_set_seq_spec (key_cmp : K → K → Int) (key_hash : K → Nat → Nat)
    (hK : ConsistentKeys key_cmp key_hash) (sets : List (K × Option V)) (ht : hash_table K V)
    (hI : Inv key_cmp key_hash ht) (hne : NoEmptyChain ht) :
    ∃ ht', hash_table_set_seq ht sets = .ok (ht', List.replicate sets.length true) ∧
      Inv key_cmp key_hash ht' ∧ NoEmptyChain ht' ∧ ht'.index_size = ht.index_size ∧
      (∀ key pre k0 v post, sets = pre ++ (k0, v) :: post → key_cmp k0 key = 0 →
        (∀ p ∈ post, key_cmp p.1 key ≠ 0) → hash_table_get ht' key = .ok v) ∧
      (∀ key, (∀ p ∈ sets, key_cmp p.1 key ≠ 0) →
        hash_table_get ht' key = hash_table_get ht key) := by
  induction sets generalizing ht with
  | nil =>
    refine ⟨ht, rfl, hI, hne, rfl, ?_, fun _ _ => rfl⟩
    intro key pre k0 v post h
    simp at h
  | cons s rest ih =>
    obtain ⟨k1, v1⟩ := s
    obtain ⟨ht1, hset, hne1⟩ := hash_table_set_ok key_cmp key_hash ht hI hne k1 v1
    obtain ⟨_, hI1, hsz1, heff⟩ := hash_table_set_spec key_cmp key_hash ht ht1 hI k1 v1 true hset
    obtain ⟨ht2, hrun, hI2, hne2, hsz2, hA, hB⟩ := ih ht1 hI1 hne1
    refine ⟨ht2, ?_, hI2, hne2, hsz2.trans hsz1, ?_, ?_⟩
    · simp only [hash_table_set_seq, hset, hrun, List.length_cons, List.replicate_succ]
    · intro key pre k0 v post hdec h0 hpost
      cases pre with
      | nil =>
        simp only [List.nil_append, List.cons.injEq, Prod.mk.injEq] at hdec
        obtain ⟨⟨rfl, rfl⟩, rfl⟩ := hdec
        rw [hB key hpost]
        exact get_set_same key_cmp key_hash hK ht ht1 hI1 _ heff key h0
      | cons q pre' =>
        simp only [List.cons_append, List.cons.injEq] at hdec
        exact hA key pre' k0 v post hdec.2 h0 hpost
    · intro key hall
      rw [hB key (fun p hp => hall p (List.mem_cons_of_mem _ hp))]
      exact get_set_other key_cmp key_hash hK ht ht1 hI hI1 hsz1 _ heff key
        (hall (k1, v1) (List.mem_cons_self _ _))

theorem stored_keys_of_set (key_cmp : K → K → Int) (key_hash : K → Nat → Nat)
    (hK : ConsistentKeys key_cmp key_hash) (ht ht' : hash_table K V)
    (entry : hash_table_entry K V) (heff : SetEffect key_cmp ht ht' entry) :
    (∀ y, Stored ht' y → (∃ x, Stored ht x ∧ y.key = x.key) ∨ y = entry) ∧
    (∀ x, Stored ht x → ∃ y, Stored ht' y ∧ y.key = x.key) ∧
    (∃ y, Stored ht' y ∧ key_cmp y.key entry.key = 0) := by
  rcases heff with ⟨_, h2, _⟩ | ⟨pre, e0, post, h1, h2, _, h4, _⟩
  · have hst := stored_of_insert ht ht' _ entry h2
    refine ⟨?_, ?_, ⟨entry, (hst entry).2 (Or.inr rfl), hK.refl _⟩⟩
    · intro y hy
      rcases (hst y).1 hy with h | h
      · exact Or.inl ⟨y, h, rfl⟩
      · exact Or.inr h
    · intro x hx
      exact ⟨x, (hst x).2 (Or.inl hx), rfl⟩
  · have hnew : Stored ht' { e0 with value := entry.value } :=
      ⟨slot_of ht entry.key, by rw [h4]; simp⟩
    have hold : Stored ht e0 := ⟨slot_of ht entry.key, by rw [h1]; simp⟩
    refine ⟨?_, ?_, ⟨_, hnew, h2⟩⟩
    · rintro y ⟨i, hi⟩
      rw [h4 i] at hi
      by_cases hij : i = slot_of ht entry.key
      · simp only [hij, if_true, List.mem_append, List.mem_cons] at hi
        rcases hi with hi | hi | hi
        · exact Or.inl ⟨y, ⟨slot_of ht entry.key, by rw [h1]; simp [hi]⟩, rfl⟩
        · exact Or.inl ⟨e0, hold, by rw [hi]⟩
        · exact Or.inl ⟨y, ⟨slot_of ht entry.key, by rw [h1]; simp [hi]⟩, rfl⟩
      · simp only [hij, if_false] at hi
        exact Or.inl ⟨y, ⟨i, hi⟩, rfl⟩
    · rintro x ⟨i, hi⟩
      by_cases hij : i = slot_of ht entry.key
      · rw [hij, h1] at hi
        simp only [List.mem_append, List.mem_cons] at hi
        rcases hi with hi | hi | hi
        · exact ⟨x, ⟨slot_of ht entry.key, by rw [h4]; simp [hi]⟩, rfl⟩
        · exact ⟨_, hnew, by rw [hi]⟩
        · exact ⟨x, ⟨slot_of ht entry.key, by rw [h4]; simp [hi]⟩, rfl⟩
      · refine ⟨x, ⟨i, ?_⟩, rfl⟩
        rw [h4 i]
        simp only [hij, if_false]
        exact hi

theorem represents_of_set (key_cmp : K → K → Int) (key_hash : K → Nat → Nat)
    (hK : ConsistentKeys key_cmp key_hash) (ht ht' : hash_table K V)
    (entry : hash_table_entry K V) (heff : SetEffect key_cmp ht ht' entry) (seen : List K)
    (hrep : Represents key_cmp ht seen) : Represents key_cmp ht' (entry.key :: seen) := by
  obtain ⟨h1, h2, y0, hy0, hy0k⟩ := stored_keys_of_set key_cmp key_hash hK ht ht' entry heff
  constructor
  · intro y hy
    rcases h1 y hy with ⟨x, hx, hxy⟩ | h
    · obtain ⟨k, hk, hkx⟩ := hrep.1 x hx
      exact ⟨k, List.mem_cons_of_mem _ hk, by rw [hxy]; exact hkx⟩
    · exact ⟨entry.key, List.mem_cons_self _ _, by rw [h]; exact hK.refl _⟩
  · intro k hk
    rcases List.mem_cons.1 hk with rfl | hk
    · exact ⟨y0, hy0, hy0k⟩
    · obtain ⟨x, hx, hxk⟩ := hrep.2 k hk
      obtain ⟨y, hy, hyx⟩ := h2 x hx
      exact ⟨y, hy, by rw [hyx]; exact hxk⟩

theorem entry_size_of_set (key_cmp : K → K → Int) (key_hash : K → Nat → Nat)
    (hK : ConsistentKeys key_cmp key_hash) (ht ht' : hash_table K V)
    (hI : Inv key_cmp key_hash ht)
    (entry : hash_table_entry K V) (heff : SetEffect key_cmp ht ht' entry) (seen : List K)
    (hrep : Represents key_cmp ht seen) :
    ht'.entry_size = ht.entry_size +
      (if seen.any (fun k => decide (key_cmp k entry.key = 0)) then 0 else 1) := by
  by_cases hany : seen.any (fun k => decide (key_cmp k entry.key = 0)) = true
  · simp only [hany, if_true, Nat.add_zero]
    rcases heff with ⟨h1, _, _⟩ | ⟨_, _, _, _, _, _, _, h5⟩
    · exfalso
      rw [List.any_eq_true] at hany
      obtain ⟨k, hk, hkk⟩ := hany
      have hkk : key_cmp k entry.key = 0 := by simpa using hkk
      obtain ⟨x, ⟨i, hi⟩, hxk⟩ := hrep.2 k hk
      have hx : key_cmp x.key entry.key = 0 := hK.trans _ _ _ hxk hkk
      have hslot : i = slot_of ht entry.key := by
        rw [← hI.placed i x hi]
        exact slot_of_congr key_cmp key_hash hK ht hI _ _ hx
      exact h1 x (hslot ▸ hi) hx
    · exact h5
  · simp only [hany, if_false]
    rcases heff with ⟨_, _, h3⟩ | ⟨pre, e0, post, h1, h2, _, _, _⟩
    · rw [h3]; simp
    · exfalso
      apply hany
      rw [List.any_eq_true]
      obtain ⟨k, hk, hke⟩ := hrep.1 e0 ⟨slot_of ht entry.key, by rw [h1]; simp⟩
      exact ⟨k, hk, by simpa using hK.trans _ _ _ hke h2⟩

theorem hash_table_set_seq_size (key_cmp : K → K → Int) (key_hash : K → Nat → Nat)
    (hK : ConsistentKeys key_cmp key_hash) (sets : List (K × Option V)) (ht : hash_table K V)
    (seen : List K) (hI : Inv key_cmp key_hash ht) (hne : NoEmptyChain ht)
    (hrep : Represents key_cmp ht seen) :
    ∃ ht', hash_table_set_seq ht sets = .ok (ht', List.replicate sets.length true) ∧
      ht'.entry_size = ht.entry_size + distinct_from key_cmp seen (sets.map Prod.fst) := by
  induction sets generalizing ht seen with
  | nil =>
    exact ⟨ht, rfl, by simp [distinct_from]⟩
  | cons s rest ih =>
    obtain ⟨k1, v1⟩ := s
    obtain ⟨ht1, hset, hne1⟩ := hash_table_set_ok key_cmp key_hash ht hI hne k1 v1
    obtain ⟨_, hI1, _, heff⟩ := hash_table_set_spec key_cmp key_hash ht ht1 hI k1 v1 true hset
    have hrep1 := represents_of_set key_cmp key_hash hK ht ht1 _ heff seen hrep
    have hes1 := entry_size_of_set key_cmp key_hash hK ht ht1 hI _ heff seen hrep
    obtain ⟨ht2, hrun, hes2⟩ := ih ht1 (k1 :: seen) hI1 hne1 hrep1
    refine ⟨ht2, ?_, ?_⟩
    · simp only [hash_table_set_seq, hset, hrun, List.length_cons, List.replicate_succ]
    · rw [hes2, hes1]
      simp only [List.map_cons, distinct_from, Nat.add_assoc]

theorem flatMap_slot_nodes_eq_range
    (l : List (Option (linked_list (hash_table_entry K V)))) :
    l.flatMap slot_nodes =
      (List.range l.length).flatMap (fun i =>
        match l[i]? with
        | some (some p_list) => p_list.nodes
        | _ => []) := by
  induction l with
  | nil => simp
  | cons a l ih =>
    rw [List.length_cons, List.range_succ_eq_map, List.flatMap_cons, List.flatMap_cons,
      List.flatMap_map, ih]
    simp only [Nat.succ_eq_add_one, List.getElem?_cons_succ, List.getElem?_cons_zero]
    cases a <;> simp [slot_nodes]

theorem entries_eq_range (ht : hash_table K V)
    (idx : List (Option (linked_list (hash_table_entry K V)))) (h : ht.index = some idx) :
    entries ht = (List.range idx.length).flatMap (chain_at ht) := by
  unfold entries
  rw [h]
  simp only []
  rw [flatMap_slot_nodes_eq_range]
  congr 1
  funext i
  unfold chain_at
  rw [h]

theorem sum_range_update (f f' : Nat → Nat) (n j a : Nat) (hj : j < n)
    (h : ∀ i, f' i = if i = j then a else f i) :
    ((List.range n).map f').sum + f j = ((List.range n).map f).sum + a := by
  induction n with
  | zero => omega
  | succ n ih =>
    rw [List.range_succ, List.map_append, List.map_append, List.sum_append, List.sum_append]
    simp only [List.map_cons, List.map_nil, List.sum_cons, List.sum_nil, Nat.add_zero]
    by_cases hjn : j = n
    · subst hjn
      have hcongr : (List.range j).map f' = (List.range j).map f := by
        apply List.map_congr_left
        intro i hi
        rw [List.mem_range] at hi
        rw [h i]
        simp [Nat.ne_of_lt hi]
      rw [hcongr, h j]
      simp only [if_true]
      omega
    · have hlt : j < n := by omega
      have := ih hlt
      rw [h n]
      have hnj : ¬ n = j := fun h => hjn h.symm
      simp only [hnj, if_false]
      omega

theorem entries_length_of_update (key_cmp : K → K → Int) (key_hash : K → Nat → Nat)
    (ht ht' : hash_table K V) (hI : Inv key_cmp key_hash ht) (hI' : Inv key_cmp key_hash ht')
    (hsz : ht'.index_size = ht.index_size) (j : Nat) (hj : j < ht.index_size)
    (L' : List (hash_table_entry K V))
    (hch : ∀ i, chain_at ht' i = if i = j then L' else chain_at ht i) :
    (entries ht').length + (chain_at ht j).length = (entries ht).length + L'.length := by
  obtain ⟨idx, hidx, hlen⟩ := hI.has_index
  obtain ⟨idx', hidx', hlen'⟩ := hI'.has_index
  rw [entries_eq_range ht idx hidx, entries_eq_range ht' idx' hidx', List.length_flatMap,
    List.length_flatMap, hlen, hlen', hsz]
  apply sum_range_update (List.length ∘ chain_at ht) (List.length ∘ chain_at ht')
    ht.index_size j L'.length hj
  intro i
  simp only [Function.comp, hch i]
  split <;> rfl

theorem count_of_set (key_cmp : K → K → Int) (key_hash : K → Nat → Nat)
    (ht ht' : hash_table K V) (hI : Inv key_cmp key_hash ht) (hI' : Inv key_cmp key_hash ht')
    (hsz : ht'.index_size = ht.index_size) (entry : hash_table_entry K V)
    (heff : SetEffect key_cmp ht ht' entry) (hc : (entries ht).length ≤ ht.entry_size) :
    (entries ht').length ≤ ht'.entry_size := by
  have hj := slot_of_lt ht entry.key hI.two_le
  rcases heff with ⟨_, h2, h3⟩ | ⟨pre, e0, post, h1, _, _, h4, h5⟩
  · have := entries_length_of_update key_cmp key_hash ht ht' hI hI' hsz _ hj _ h2
    simp only [List.length_append, List.length_singleton] at this
    omega
  · have := entries_length_of_update key_cmp key_hash ht ht' hI hI' hsz _ hj _ h4
    rw [h1] at this
    simp only [List.length_append, List.length_cons] at this
    omega

theorem Reachable.count (key_cmp : K → K → Int) (key_hash : K → Nat → Nat)
    (hK : ConsistentKeys key_cmp key_hash)
    (ht : hash_table K V) (h : Reachable key_cmp key_hash ht) :
    (entries ht).length ≤ ht.entry_size := by
  induction h with
  | init size h => simp [entries, hash_table_init, slot_nodes]
  | set key value hR hs ih =>
    have hI := Reachable.inv key_cmp key_hash hK _ hR
    obtain ⟨_, hI', hsz, heff⟩ := hash_table_set_spec key_cmp key_hash _ _ hI key value _ hs
    exact count_of_set key_cmp key_hash _ _ hI hI' hsz _ heff ih
  | set_entry entry hR hs ih =>
    have hI := Reachable.inv key_cmp key_hash hK _ hR
    obtain ⟨_, hI', hsz, heff⟩ := hash_table_set_entry_spec key_cmp key_hash _ _ hI entry _ hs
    exact count_of_set key_cmp key_hash _ _ hI hI' hsz _ heff ih
  | del key hR hs ih =>
    have hI := Reachable.inv key_cmp key_hash hK _ hR
    obtain ⟨ht2, r2, h2, hcase⟩ := hash_table_del_stale_spec key_cmp key_hash _ hI key
    rw [hs] at h2
    simp only [Except.ok.injEq, Prod.mk.injEq] at h2
    obtain ⟨rfl, rfl⟩ := h2
    rcases hcase with ⟨_, he, _⟩ | ⟨_, hI', hsz, pre, e0, post, h1, _, _, hch, hes⟩
    · rw [he]; exact ih
    · have := entries_length_of_update key_cmp key_hash _ _ hI hI' hsz _
        (slot_of_lt _ key hI.two_le) _ hch
      rw [h1] at this
      simp only [List.length_append, List.length_cons] at this
      omega
  | @rehash ht0 ht1 r0 new_size h hR hs ih =>
    have hI := Reachable.inv key_cmp key_hash hK _ hR
    obtain ⟨ht2, h2, hI', _, _, hst, hes⟩ :=
      hash_table_rehash_spec key_cmp key_hash hK _ hI new_size h
    rw [hs] at h2
    simp only [Except.ok.injEq, Prod.mk.injEq] at h2
    obtain ⟨h2a, _⟩ := h2
    rw [h2a]
    have hperm : (entries ht2).Perm (entries ht0) := by
      rw [List.perm_ext_iff_of_nodup (entries_nodup key_cmp key_hash hK ht2 hI')
        (entries_nodup key_cmp key_hash hK ht0 hI)]
      intro x
      rw [mem_entries, mem_entries]
      exact hst x
    rw [hes, hperm.length_eq]
    omega

theorem get_del_same (key_cmp : K → K → Int) (key_hash : K → Nat → Nat)
    (hK : ConsistentKeys key_cmp key_hash) (ht ht' : hash_table K V)
    (hI : Inv key_cmp key_hash ht) (hI' : Inv key_cmp key_hash ht')
    (hsz : ht'.index_size = ht.index_size) (key : K)
    (pre post : List (hash_table_entry K V)) (e0 : hash_table_entry K V)
    (h1 : chain_at ht (slot_of ht key) = pre ++ e0 :: post)
    (h0 : key_cmp e0.key key = 0) (hpre : ∀ x ∈ pre, key_cmp x.key key ≠ 0)
    (hch : ∀ i, chain_at ht' i = if i = slot_of ht key then pre ++ post else chain_at ht i) :
    hash_table_get ht' key = .ok none := by
  apply hash_table_get_of_not_mem key_cmp key_hash ht' hI' key
  rw [slot_of_eq_of_inv key_cmp key_hash ht ht' hI hI' hsz key, hch]
  simp only [if_true, List.mem_append]
  have hd := hI.distinct (slot_of ht key)
  rw [h1] at hd
  simp only [List.pairwise_append, List.pairwise_cons] at hd
  rintro x (hx | hx)
  · exact hpre x hx
  · intro hxk
    exact hd.2.1.1 x hx (hK.trans _ _ _ h0 (hK.symm _ _ hxk))

theorem get_del_other (key_cmp : K → K → Int) (key_hash : K → Nat → Nat)
    (hK : ConsistentKeys key_cmp key_hash) (ht ht' : hash_table K V)
    (hI : Inv key_cmp key_hash ht) (hI' : Inv key_cmp key_hash ht')
    (hsz : ht'.index_size = ht.index_size) (key key' : K)
    (pre post : List (hash_table_entry K V)) (e0 : hash_table_entry K V)
    (h1 : chain_at ht (slot_of ht key) = pre ++ e0 :: post)
    (h0 : key_cmp e0.key key = 0)
    (hch : ∀ i, chain_at ht' i = if i = slot_of ht key then pre ++ post else chain_at ht i)
    (hne : key_cmp key' key ≠ 0) :
    hash_table_get ht' key' = hash_table_get ht key' := by
  rw [hash_table_get_eq key_cmp key_hash ht' hI' key', hash_table_get_eq key_cmp key_hash ht hI key',
    slot_of_eq_of_inv key_cmp key_hash ht ht' hI hI' hsz key', hch]
  by_cases hj : slot_of ht key' = slot_of ht key
  · have he0 : key_cmp e0.key key' ≠ 0 := fun h =>
      hne (hK.trans _ _ _ (hK.symm _ _ h) h0)
    simp only [hj, if_true, h1, List.find?_append, List.find?_cons]
    simp [he0]
  · simp only [hj, if_false]

end Effects

/-! ## The heap: the sifts keep the heap order -/

section Heap

variable {α β : Type} {value_cmp : Option α → Option α → Int}

theorem cell_set (a : List (Option α)) (i : Nat) (v : Option α) (hi : i < a.length) :
    cell (a.set i v) = Function.update (cell a) i v := by
  funext j
  by_cases h : j = i
  · subst h
    simp [cell, hi]
  · have h1 : i ≠ j := fun e => h e.symm
    simp [cell, Function.update_noteq h, List.getElem?_set_ne h1]

theorem array_list_get_at_lt (s c : Nat) (a : List (Option α)) (pos : Nat) (h1 : pos < s)
    (h2 : s ≤ a.length) :
    array_list_get_at ⟨s, c, some a⟩ pos = .ok (cell a pos) := by
  have h3 : pos < a.length := by omega
  simp [array_list_get_at, array_load, cell, Nat.not_le.mpr h1, List.getElem?_eq_getElem h3]

theorem array_list_set_at_lt (s c : Nat) (a : List (Option α)) (pos : Nat) (v : Option α)
    (h1 : pos < s) (h2 : s ≤ a.length) :
    array_list_set_at ⟨s, c, some a⟩ pos v = .ok (⟨s, c, some (a.set pos v)⟩, true) := by
  have h3 : pos < a.length := by omega
  simp [array_list_set_at, array_store, Nat.not_le.mpr h1, h3]

theorem set_both_lt (s c : Nat) (a : List (Option α)) (i j : Nat) (x y : Option α)
    (hi : i < s) (hj : j < s) (h2 : s ≤ a.length) :
    set_both ⟨s, c, some a⟩ i x j y = .ok (⟨s, c, some ((a.set i x).set j y)⟩, true) := by
  unfold set_both
  rw [array_list_set_at_lt s c a i x hi h2]
  simp only
  rw [array_list_set_at_lt s c _ j y hj (by simpa using h2)]

theorem heapOrdered_of_upInv {R : β → β → Prop} {G : Nat → β} {n k : Nat}
    (hinv : UpInv R G n k) (hk : 0 < k → R (G ((k - 1) / 2)) (G k)) : HeapOrdered R G n := by
  intro i hi hin
  by_cases hik : i = k
  · subst hik
    exact hk hi
  · exact hinv.1 i hi hin hik

theorem upInv_swap {R : β → β → Prop} (htr : ∀ x y z, R x y → R y z → R x z) {G : Nat → β}
    {n k : Nat} (hk : 0 < k) (hkn : k < n) (hinv : UpInv R G n k)
    (hsw : R (G k) (G ((k - 1) / 2))) :
    UpInv R (Function.update (Function.update G ((k - 1) / 2) (G k)) k (G ((k - 1) / 2))) n
      ((k - 1) / 2) := by
  have hpk : (k - 1) / 2 ≠ k := by omega
  have e_k : Function.update (Function.update G ((k - 1) / 2) (G k)) k (G ((k - 1) / 2)) k =
      G ((k - 1) / 2) := by simp
  have e_p : Function.update (Function.update G ((k - 1) / 2) (G k)) k (G ((k - 1) / 2))
      ((k - 1) / 2) = G k := by
    rw [Function.update_noteq hpk, Function.update_same]
  have e_o : ∀ i, i ≠ k → i ≠ (k - 1) / 2 →
      Function.update (Function.update G ((k - 1) / 2) (G k)) k (G ((k - 1) / 2)) i = G i := by
    intro i h1 h2
    rw [Function.update_noteq h1, Function.update_noteq h2]
  refine ⟨?_, ?_⟩
  · intro i hi hin hip
    by_cases hik : i = k
    · subst hik
      rw [e_k, e_p]
      exact hsw
    · by_cases hpi : (i - 1) / 2 = (k - 1) / 2
      · rw [hpi, e_p, e_o i hik hip]
        have := hinv.1 i hi hin hik
        rw [hpi] at this
        exact htr _ _ _ hsw this
      · by_cases hki : (i - 1) / 2 = k
        · rw [hki, e_k, e_o i hik hip]
          exact hinv.2 i hi hin hki hk
        · rw [e_o _ hki hpi, e_o i hik hip]
          exact hinv.1 i hi hin hik
  · intro i hi hin hip hp
    have h1 : ((k - 1) / 2 - 1) / 2 ≠ k := by omega
    have h2 : ((k - 1) / 2 - 1) / 2 ≠ (k - 1) / 2 := by omega
    rw [e_o _ h1 h2]
    have h3 := hinv.1 ((k - 1) / 2) hp (by omega) hpk
    by_cases hik : i = k
    · subst hik
      rw [e_k]
      exact h3
    · have h4 : i ≠ (k - 1) / 2 := by omega
      rw [e_o i hik h4]
      have := hinv.1 i hi hin hik
      rw [hip] at this
      exact htr _ _ _ h3 this

theorem heapOrdered_of_downInv {R : β → β → Prop} {G : Nat → β} {n k : Nat}
    (hinv : DownInv R G n k) (hk : ∀ i, 0 < i → i < n → (i - 1) / 2 = k → R (G k) (G i)) :
    HeapOrdered R G n := by
  intro i hi hin
  by_cases hik : (i - 1) / 2 = k
  · have := hk i hi hin hik
    rw [hik]
    exact this
  · exact hinv.1 i hi hin hik

theorem downInv_swap {R : β → β → Prop} {G : Nat → β} {n k c : Nat} (hc0 : 0 < c)
    (hcn : c < n) (hck : (c - 1) / 2 = k) (hinv : DownInv R G n k) (hsw : R (G c) (G k))
    (hsib : ∀ i, 0 < i → i < n → (i - 1) / 2 = k → i ≠ c → R (G c) (G i)) :
    DownInv R (Function.update (Function.update G k (G c)) c (G k)) n c := by
  have hkc : k ≠ c := by omega
  have e_c : Function.update (Function.update G k (G c)) c (G k) c = G k := by simp
  have e_k : Function.update (Function.update G k (G c)) c (G k) k = G c := by
    rw [Function.update_noteq hkc, Function.update_same]
  have e_o : ∀ i, i ≠ c → i ≠ k →
      Function.update (Function.update G k (G c)) c (G k) i = G i := by
    intro i h1 h2
    rw [Function.update_noteq h1, Function.update_noteq h2]
  refine ⟨?_, ?_⟩
  · intro i hi hin hic
    by_cases hi_c : i = c
    · subst hi_c
      rw [hck, e_k, e_c]
      exact hsw
    · by_cases hpk : (i - 1) / 2 = k
      · have hik : i ≠ k := by omega
        rw [hpk, e_k, e_o i hi_c hik]
        exact hsib i hi hin hpk hi_c
      · by_cases hik : i = k
        · subst hik
          have h1 : (i - 1) / 2 ≠ c := by omega
          rw [e_o _ h1 hpk, e_k]
          have := hinv.2 c hc0 hcn hck hi
          exact this
        · rw [e_o _ hic hpk, e_o i hi_c hik]
          exact hinv.1 i hi hin hpk
  · intro i hi hin hic _
    have hi_c : i ≠ c := by omega
    have hik : i ≠ k := by omega
    rw [hck, e_k, e_o i hi_c hik]
    have := hinv.1 i hi hin (by omega)
    rw [hic] at this
    exact this

theorem vals_swap (G : Nat → β) (n i j : Nat) (hi : i < n) (hj : j < n) :
    (Multiset.range n).map (Function.update (Function.update G i (G j)) j (G i)) =
      (Multiset.range n).map G := by
  have h1 : Function.update (Function.update G i (G j)) j (G i) = G ∘ (Equiv.swap j i) := by
    rw [Equiv.comp_swap_eq_update]
  rw [h1, ← Multiset.map_map]
  congr 1
  have h2 : (Finset.range n).map (Equiv.swap j i).toEmbedding = Finset.range n := by
    apply Finset.map_perm
    intro x hx
    simp only [Set.mem_setOf_eq] at hx
    simp only [Finset.coe_range, Set.mem_Iio]
    by_contra hxn
    apply hx
    apply Equiv.swap_apply_of_ne_of_ne <;> omega
  have h3 := congrArg Finset.val h2
  simpa [Finset.map] using h3

theorem cmpPreorder_refl (hP : CmpPreorder value_cmp) (a : α) :
    value_cmp (some a) (some a) = 0 := by
  have := hP.sign a a
  omega

theorem cmpPreorder_trans_ge (hP : CmpPreorder value_cmp) (a b c : α)
    (h1 : 0 ≤ value_cmp (some a) (some b)) (h2 : 0 ≤ value_cmp (some b) (some c)) :
    0 ≤ value_cmp (some a) (some c) := by
  have s1 := hP.sign b a
  have s2 := hP.sign c b
  have s3 := hP.sign c a
  have := hP.trans c b a (by omega) (by omega)
  omega

theorem heap_le_trans (hP : CmpPreorder value_cmp) (type : heap_type) (a b c : α)
    (h1 : heap_le type value_cmp (some a) (some b))
    (h2 : heap_le type value_cmp (some b) (some c)) :
    heap_le type value_cmp (some a) (some c) := by
  cases type
  · exact hP.trans a b c h1 h2
  · exact cmpPreorder_trans_ge hP a b c h1 h2

theorem heap_le_refl (hP : CmpPreorder value_cmp) (type : heap_type) (a : α) :
    heap_le type value_cmp (some a) (some a) := by
  have := cmpPreorder_refl hP a
  cases type <;> simp only [heap_le] <;> omega

theorem heap_le_of_not (hP : CmpPreorder value_cmp) (type : heap_type) (a b : α)
    (h : ¬ heap_le type value_cmp (some a) (some b)) :
    heap_le type value_cmp (some b) (some a) := by
  have s1 := hP.sign a b
  have s2 := hP.sign b a
  cases type <;> simp only [heap_le] at h ⊢ <;> omega

theorem cell_le_trans (hP : CmpPreorder value_cmp) (type : heap_type) (x y z : Option α)
    (h1 : cell_le type value_cmp x y) (h2 : cell_le type value_cmp y z) :
    cell_le type value_cmp x z := by
  obtain ⟨a, b, rfl, rfl, hab⟩ := h1
  obtain ⟨b', c, hb, rfl, hbc⟩ := h2
  cases hb
  exact ⟨a, c, rfl, rfl, heap_le_trans hP type a b c hab hbc⟩

theorem cell_le_some (type : heap_type) (a b : α) :
    cell_le type value_cmp (some a) (some b) ↔ heap_le type value_cmp (some a) (some b) := by
  constructor
  · rintro ⟨a', b', ha, hb, h⟩
    cases ha
    cases hb
    exact h
  · intro h
    exact ⟨a, b, rfl, rfl, h⟩

theorem siftPost_refl (type : heap_type) (n : Nat) (a : List (Option α))
    (hl : ∀ i, i < n → ∃ x, cell a i = some x)
    (ho : HeapOrdered (cell_le type value_cmp) (cell a) n) :
    SiftPost type value_cmp n a a :=
  ⟨rfl, hl, ho, rfl, fun _ _ => rfl⟩

theorem siftPost_of_swap (type : heap_type) (n : Nat) (a a1 : List (Option α)) (i j : Nat)
    (hi : i < n) (hj : j < n) (hn : n ≤ a.length)
    (h : SiftPost type value_cmp n ((a.set i (cell a j)).set j (cell a i)) a1) :
    SiftPost type value_cmp n a a1 := by
  obtain ⟨h1, h2, h3, h4, h5⟩ := h
  have e : cell ((a.set i (cell a j)).set j (cell a i)) =
      Function.update (Function.update (cell a) i (cell a j)) j (cell a i) := by
    rw [cell_set _ _ _ (by simp; omega), cell_set _ _ _ (by omega)]
  refine ⟨by simpa using h1, h2, h3, ?_, ?_⟩
  · rw [h4, e, vals_swap _ _ _ _ hi hj]
  · intro k hk
    rw [h5 k hk, e, Function.update_noteq (by omega), Function.update_noteq (by omega)]

theorem up_swap_le (hP : CmpPreorder value_cmp) (type : heap_type) (pv v : α)
    (h : (type = .MIN_HEAP ∧ value_cmp (some pv) (some v) > 0) ∨
      (type = .MAX_HEAP ∧ value_cmp (some pv) (some v) ≤ 0)) :
    heap_le type value_cmp (some v) (some pv) := by
  have s1 := hP.sign pv v
  have s2 := hP.sign v pv
  rcases h with ⟨rfl, h⟩ | ⟨rfl, h⟩ <;> simp only [heap_le] <;> omega

theorem up_stay_le (type : heap_type) (pv v : α)
    (h : ¬ ((type = .MIN_HEAP ∧ value_cmp (some pv) (some v) > 0) ∨
      (type = .MAX_HEAP ∧ value_cmp (some pv) (some v) ≤ 0))) :
    heap_le type value_cmp (some pv) (some v) := by
  cases type <;> simp only [heap_le] <;> simp at h <;> omega

theorem heapify_up_spec (hP : CmpPreorder value_cmp) (type : heap_type) (n s c : Nat)
    (hns : n ≤ s) :
    ∀ (fuel k : Nat) (a : List (Option α)), k < fuel → k < n → s ≤ a.length →
      (∀ i, i < n → ∃ x, cell a i = some x) →
      UpInv (cell_le type value_cmp) (cell a) n k →
      ∃ a1, heapify_up fuel ⟨type, n, ⟨s, c, some a⟩, value_cmp⟩ k =
          .ok (⟨type, n, ⟨s, c, some a1⟩, value_cmp⟩, true) ∧
        SiftPost type value_cmp n a a1 := by
  intro fuel
  induction fuel with
  | zero => intro k a hk; omega
  | succ fuel ih =>
    intro k a hkf hkn hsa hlive hinv
    unfold heapify_up
    by_cases hk0 : k = 0
    · subst hk0
      exact ⟨a, by simp, siftPost_refl type n a hlive
        (heapOrdered_of_upInv hinv (fun h => absurd h (lt_irrefl 0)))⟩
    · have hp : parent k = (k - 1) / 2 := by simp [parent, hk0]
      have hpk : (k - 1) / 2 < k := by omega
      obtain ⟨v, hv⟩ := hlive k hkn
      obtain ⟨pv, hpv⟩ := hlive ((k - 1) / 2) (by omega)
      simp only [hk0, if_false, hp]
      rw [array_list_get_at_lt s c a _ (by omega) hsa, array_list_get_at_lt s c a k (by omega) hsa]
      simp only [hv, hpv]
      by_cases hsw : (type = .MIN_HEAP ∧ value_cmp (some pv) (some v) > 0) ∨
          (type = .MAX_HEAP ∧ value_cmp (some pv) (some v) ≤ 0)
      · rw [if_pos hsw, set_both_lt s c a _ _ _ _ (by omega) (by omega) hsa]
        simp only
        have hle := up_swap_le hP type pv v hsw
        have e : cell ((a.set ((k - 1) / 2) (some v)).set k (some pv)) =
            Function.update (Function.update (cell a) ((k - 1) / 2) (cell a k)) k
              (cell a ((k - 1) / 2)) := by
          rw [cell_set _ _ _ (by simp; omega), cell_set _ _ _ (by omega), hv, hpv]
        obtain ⟨a1, h1, h2⟩ := ih ((k - 1) / 2) ((a.set ((k - 1) / 2) (some v)).set k (some pv))
          (by omega) (by omega) (by simpa using hsa)
          (by
            intro i hi
            rw [e]
            by_cases h1 : i = k
            · subst h1
              exact ⟨pv, by simp [hpv]⟩
            · by_cases h2 : i = (k - 1) / 2
              · exact ⟨v, by rw [Function.update_noteq h1, h2, Function.update_same, hv]⟩
              · rw [Function.update_noteq h1, Function.update_noteq h2]
                exact hlive i hi)
          (by
            rw [e]
            apply upInv_swap (cell_le_trans hP type) (by omega) hkn hinv
            rw [hv, hpv]
            exact (cell_le_some type v pv).mpr hle)
        refine ⟨a1, h1, ?_⟩
        apply siftPost_of_swap type n a a1 ((k - 1) / 2) k (by omega) hkn (by omega)
        rw [hv, hpv]
        exact h2
      · rw [if_neg hsw]
        refine ⟨a, rfl, siftPost_refl type n a hlive (heapOrdered_of_upInv hinv ?_)⟩
        intro _
        rw [hv, hpv]
        exact (cell_le_some type pv v).mpr (up_stay_le type pv v hsw)

theorem heapify_down_spec (hP : CmpPreorder value_cmp) (type : heap_type) (n s c : Nat)
    (hns : n < s) (T : α) :
    ∀ (fuel k : Nat) (a : List (Option α)), n + 1 ≤ fuel + k → k < n → s ≤ a.length →
      (∀ i, i < n → ∃ x, cell a i = some x) →
      cell a n = some T → cell a k = some T →
      DownInv (cell_le type value_cmp) (cell a) n k →
      ∃ a1, heapify_down fuel ⟨type, n, ⟨s, c, some a⟩, value_cmp⟩ k =
          .ok (⟨type, n, ⟨s, c, some a1⟩, value_cmp⟩, true) ∧
        SiftPost type value_cmp n a a1 := by
  intro fuel
  induction fuel with
  | zero => intro k a hk; omega
  | succ fuel ih =>
    intro k a hfuel hkn hsa hlive hstale hval hinv
    have step : ∀ (ci : Nat) (cv : α), (ci - 1) / 2 = k → 0 < ci → ci < n →
        cell a ci = some cv → heap_le type value_cmp (some cv) (some T) →
        (∀ i, 0 < i → i < n → (i - 1) / 2 = k → i ≠ ci →
          cell_le type value_cmp (some cv) (cell a i)) →
        ∃ a1, heapify_down_swap (heapify_down fuel) ⟨type, n, ⟨s, c, some a⟩, value_cmp⟩ k
            (some T) ci (some cv) = .ok (⟨type, n, ⟨s, c, some a1⟩, value_cmp⟩, true) ∧
          SiftPost type value_cmp n a a1 := by
      intro ci cv hck hc0 hcn hcv hle hsib
      unfold heapify_down_swap
      simp only
      rw [set_both_lt s c a _ _ _ _ (by omega) (by omega) hsa]
      simp only
      have e : cell ((a.set k (some cv)).set ci (some T)) =
          Function.update (Function.update (cell a) k (cell a ci)) ci (cell a k) := by
        rw [cell_set _ _ _ (by simp; omega), cell_set _ _ _ (by omega), hval, hcv]
      have hkc : k ≠ ci := by omega
      obtain ⟨a1, h1, h2⟩ := ih ci ((a.set k (some cv)).set ci (some T))
        (by omega) hcn (by simpa using hsa)
        (by
          intro i hi
          rw [e]
          by_cases h1 : i = ci
          · subst h1
            exact ⟨T, by simp [hval]⟩
          · by_cases h2 : i = k
            · exact ⟨cv, by rw [Function.update_noteq h1, h2, Function.update_same, hcv]⟩
            · rw [Function.update_noteq h1, Function.update_noteq h2]
              exact hlive i hi)
        (by rw [e, Function.update_noteq (by omega), Function.update_noteq (by omega), hstale])
        (by rw [e, Function.update_same, hval])
        (by
          rw [e]
          apply downInv_swap hc0 hcn hck hinv
          · rw [hval, hcv]
            exact (cell_le_some type cv T).mpr hle
          · intro i hi hin hik hic
            rw [hcv]
            exact hsib i hi hin hik hic)
      refine ⟨a1, h1, ?_⟩
      apply siftPost_of_swap type n a a1 k ci hkn hcn (by omega)
      rw [hval, hcv]
      exact h2
    have stay : (∀ i, 0 < i → i < n → (i - 1) / 2 = k →
          cell_le type value_cmp (some T) (cell a i)) →
        SiftPost type value_cmp n a a := by
      intro hch
      apply siftPost_refl type n a hlive
      apply heapOrdered_of_downInv hinv
      intro i hi hin hik
      rw [hval]
      exact hch i hi hin hik
    unfold heapify_down
    simp only [left_child, right_child]
    by_cases hl : 2 * k + 1 < n
    · obtain ⟨l, hlv⟩ := hlive (2 * k + 1) hl
      have hr : ∃ r, cell a (2 * k + 2) = some r ∧ (¬ 2 * k + 2 < n → r = T) := by
        by_cases hrn : 2 * k + 2 < n
        · obtain ⟨r, hr⟩ := hlive _ hrn
          exact ⟨r, hr, fun h => absurd hrn h⟩
        · have : 2 * k + 2 = n := by omega
          exact ⟨T, by rw [this, hstale], fun _ => rfl⟩
      obtain ⟨r, hrv, hrT⟩ := hr
      have hc : ¬ (k ≥ n ∨ 2 * k + 1 ≥ n) := by omega
      rw [if_neg hc, array_list_get_at_lt s c a _ (by omega) hsa,
        array_list_get_at_lt s c a (2 * k + 2) (by omega) hsa,
        array_list_get_at_lt s c a k (by omega) hsa]
      simp only [hlv, hrv, hval]
      have sTT := cmpPreorder_refl hP T
      have s1 := hP.sign l r
      have s2 := hP.sign r l
      have s3 := hP.sign T r
      have s4 := hP.sign r T
      have s5 := hP.sign T l
      have s6 := hP.sign l T
      have t1 := hP.trans T r l
      have t2 := hP.trans T l r
      have t3 := hP.trans l r T
      have t4 := hP.trans r l T
      have t5 := hP.trans l T r
      have t6 := hP.trans r T l
      have children : ∀ i, 0 < i → i < n → (i - 1) / 2 = k →
          i = 2 * k + 1 ∨ (i = 2 * k + 2 ∧ 2 * k + 2 < n) := by
        intro i _ _ _
        omega
      cases type
      · -- MIN_HEAP
        simp only
        by_cases c1 : value_cmp (some l) (some r) > 0 ∧ value_cmp (some T) (some r) > 0
        · rw [if_pos c1]
          have hrn : 2 * k + 2 < n := by
            by_contra h
            have := hrT h
            subst this
            omega
          apply step (2 * k + 2) r (by omega) (by omega) hrn hrv
          · show value_cmp (some r) (some T) ≤ 0
            omega
          · intro i hi hin hik hic
            rcases children i hi hin hik with h | ⟨h, _⟩
            · rw [h, hlv]
              refine (cell_le_some _ r l).mpr ?_
              show value_cmp (some r) (some l) ≤ 0
              omega
            · exact absurd h hic
        · rw [if_neg c1]
          by_cases c2 : value_cmp (some l) (some r) ≤ 0 ∧ value_cmp (some T) (some l) ≥ 0
          · rw [if_pos c2]
            apply step (2 * k + 1) l (by omega) (by omega) hl hlv
            · show value_cmp (some l) (some T) ≤ 0
              omega
            · intro i hi hin hik hic
              rcases children i hi hin hik with h | ⟨h, _⟩
              · exact absurd h hic
              · rw [h, hrv]
                refine (cell_le_some _ l r).mpr ?_
                show value_cmp (some l) (some r) ≤ 0
                omega
          · rw [if_neg c2]
            refine ⟨a, rfl, stay ?_⟩
            intro i hi hin hik
            rcases children i hi hin hik with h | ⟨h, _⟩
            · rw [h, hlv]
              refine (cell_le_some _ T l).mpr ?_
              show value_cmp (some T) (some l) ≤ 0
              omega
            · rw [h, hrv]
              refine (cell_le_some _ T r).mpr ?_
              show value_cmp (some T) (some r) ≤ 0
              omega
      · -- MAX_HEAP
        simp only
        by_cases c1 : value_cmp (some l) (some r) < 0 ∧ value_cmp (some T) (some r) < 0
        · rw [if_pos c1]
          have hrn : 2 * k + 2 < n := by
            by_contra h
            have := hrT h
            subst this
            omega
          apply step (2 * k + 2) r (by omega) (by omega) hrn hrv
          · show value_cmp (some r) (some T) ≥ 0
            omega
          · intro i hi hin hik hic
            rcases children i hi hin hik with h | ⟨h, _⟩
            · rw [h, hlv]
              refine (cell_le_some _ r l).mpr ?_
              show value_cmp (some r) (some l) ≥ 0
              omega
            · exact absurd h hic
        · rw [if_neg c1]
          by_cases c2 : value_cmp (some l) (some r) ≥ 0 ∧ value_cmp (some T) (some l) ≤ 0
          · rw [if_pos c2]
            apply step (2 * k + 1) l (by omega) (by omega) hl hlv
            · show value_cmp (some l) (some T) ≥ 0
              omega
            · intro i hi hin hik hic
              rcases children i hi hin hik with h | ⟨h, _⟩
              · exact absurd h hic
              · rw [h, hrv]
                refine (cell_le_some _ l r).mpr ?_
                show value_cmp (some l) (some r) ≥ 0
                omega
          · rw [if_neg c2]
            refine ⟨a, rfl, stay ?_⟩
            intro i hi hin hik
            rcases children i hi hin hik with h | ⟨h, _⟩
            · rw [h, hlv]
              refine (cell_le_some _ T l).mpr ?_
              show value_cmp (some T) (some l) ≥ 0
              omega
            · rw [h, hrv]
              refine (cell_le_some _ T r).mpr ?_
              show value_cmp (some T) (some r) ≥ 0
              omega
    · have hc : k ≥ n ∨ 2 * k + 1 ≥ n := by omega
      rw [if_pos hc]
      refine ⟨a, rfl, stay ?_⟩
      intro i hi hin hik
      omega

theorem block_cells_eq (capacity : Nat) (h : capacity * 8 < SIZE_MOD) :
    block_cells capacity = capacity := by
  unfold block_cells
  rw [Nat.mod_eq_of_lt h]
  exact Nat.mul_div_cancel _ (by decide)

theorem array_list_set_at_size (s c : Nat) (a : List (Option α)) (n : Nat) (v : Option α)
    (hns : n ≤ s) (hsa : s ≤ a.length) (hc : c = a.length) (hb : (n + 1) * 8 < SIZE_MOD) :
    ∃ s1 c1 a1, array_list_set_at ⟨s, c, some a⟩ n v = .ok (⟨s1, c1, some a1⟩, true) ∧
      n < s1 ∧ s1 ≤ a1.length ∧ c1 = a1.length ∧ cell a1 n = v ∧
      ∀ i, i < n → cell a1 i = cell a i := by
  by_cases h1 : n < s
  · refine ⟨s, c, a.set n v, array_list_set_at_lt s c a n v h1 hsa, h1, by simpa using hsa,
      by simpa using hc, ?_, ?_⟩
    · rw [cell_set _ _ _ (by omega), Function.update_same]
    · intro i hi
      rw [cell_set _ _ _ (by omega), Function.update_noteq (by omega)]
  · have hn : n = s := by omega
    subst hn
    have hm : (n + 1) % SIZE_MOD = n + 1 := Nat.mod_eq_of_lt (by omega)
    by_cases h2 : n < a.length
    · refine ⟨n + 1, c, a.set n v, ?_, by omega, by simpa using h2, by simpa using hc, ?_, ?_⟩
      · have h3 : ¬ n ≥ c := by omega
        simp [array_list_set_at, h3, fill_null_loop, array_store, h2, hm]
      · rw [cell_set _ _ _ h2, Function.update_same]
      · intro i hi
        rw [cell_set _ _ _ h2, Function.update_noteq (by omega)]
    · have h3 : a.length = n := by omega
      have h4 : n ≥ c := by omega
      have h5 : ¬ (n + 1 = c) := by omega
      have h6 : ¬ (n + 1 < c ∧ n + 1 < n) := by omega
      have h7 : n < (a ++ [none]).length := by simp; omega
      refine ⟨n + 1, n + 1, (a ++ [none]).set n v, ?_, by omega, by simp; omega,
        by simp; omega, ?_, ?_⟩
      · have e : List.take (n + 1) a ++ List.replicate (n + 1 - a.length) none = a ++ [none] := by
          rw [List.take_of_length_le (by omega), h3]
          simp
        simp only [array_list_set_at, ge_iff_le, le_refl, if_true, h4, hm, array_list_resize, h5,
          if_false, h6, alloc_array, block_cells_eq (n + 1) hb, e, Nat.sub_self, fill_null_loop,
          array_store, h7]
      · rw [cell_set _ _ _ h7, Function.update_same]
      · intro i hi
        rw [cell_set _ _ _ h7, Function.update_noteq (by omega)]
        simp only [cell]
        rw [List.getElem?_append_left (by omega)]

theorem heap_values_lit (type : heap_type) (n s c : Nat) (a : List (Option α)) :
    heap_values (⟨type, n, ⟨s, c, some a⟩, value_cmp⟩ : heap α) = (List.range n).map (cell a) :=
  rfl

theorem heapInv_lit (type : heap_type) (n s c : Nat)
    (a : List (Option α)) (hns : n ≤ s) (hsa : s ≤ a.length) (hc : c = a.length)
    (hlive : ∀ i, i < n → ∃ x, cell a i = some x)
    (hord : HeapOrdered (cell_le type value_cmp) (cell a) n) :
    HeapInv type value_cmp ⟨type, n, ⟨s, c, some a⟩, value_cmp⟩ := by
  refine ⟨rfl, rfl, ⟨a, rfl, hsa, hc⟩, hns, hlive, ?_⟩
  intro i hi hin
  have hp : parent i = (i - 1) / 2 := by
    have : i ≠ 0 := by omega
    simp [parent, this]
  obtain ⟨x, y, hx, hy, hxy⟩ := hord i hi hin
  show heap_le type value_cmp (cell a (parent i)) (cell a i)
  rw [hp, hx, hy]
  exact hxy

theorem heapInv_cases {type : heap_type} {h : heap α} (hI : HeapInv type value_cmp h) :
    ∃ n s c a, h = ⟨type, n, ⟨s, c, some a⟩, value_cmp⟩ ∧ n ≤ s ∧ s ≤ a.length ∧
      c = a.length ∧ (∀ i, i < n → ∃ x, cell a i = some x) ∧
      HeapOrdered (cell_le type value_cmp) (cell a) n := by
  obtain ⟨t, n, ⟨s, c, arr⟩, cmp1⟩ := h
  obtain ⟨h1, h2, ⟨a, h3, h4, h5⟩, h6, h7, h8⟩ := hI
  simp only at h1 h2 h3 h4 h5 h6
  subst h1 h2 h3
  refine ⟨n, s, c, a, rfl, h6, h4, h5, h7, ?_⟩
  intro i hi hin
  have hp : parent i = (i - 1) / 2 := by
    have : i ≠ 0 := by omega
    simp [parent, this]
  obtain ⟨x, hx⟩ := h7 i hin
  obtain ⟨y, hy⟩ := h7 ((i - 1) / 2) (by simp only at hin ⊢; omega)
  have := h8 i hi hin
  rw [hp] at this
  change heap_le _ _ (cell a ((i - 1) / 2)) (cell a i) at this
  change cell a i = some x at hx
  change cell a ((i - 1) / 2) = some y at hy
  rw [hx, hy] at this
  exact ⟨y, x, hy, hx, this⟩

theorem array_list_init_eq (capacity : Nat) (h : capacity * 8 < SIZE_MOD) :
    (array_list_init capacity : array_list α × Bool) =
      (⟨0, capacity, some (List.replicate capacity none)⟩, true) := by
  simp only [array_list_init, alloc_array, block_cells_eq capacity h]

theorem heap_init_eq (type : heap_type) (capacity : Nat) (hb : (capacity + 1) * 8 < SIZE_MOD) :
    ∃ c, (heap_init type value_cmp capacity : heap α × Bool) =
      (⟨type, 0, ⟨0, c, some (List.replicate c none)⟩, value_cmp⟩, true) := by
  unfold heap_init
  by_cases hodd : capacity % 2 ≠ 0
  · have hm : (capacity + 1) % SIZE_MOD = capacity + 1 := Nat.mod_eq_of_lt (by omega)
    refine ⟨capacity + 1, ?_⟩
    rw [if_pos hodd, hm]
    simp only [array_list_init_eq (capacity + 1) hb]
  · refine ⟨capacity, ?_⟩
    rw [if_neg hodd]
    simp only [array_list_init_eq capacity (by omega)]

theorem heap_init_inv (type : heap_type) (capacity : Nat)
    (hb : (capacity + 1) * 8 < SIZE_MOD) :
    HeapInv type value_cmp (heap_init type value_cmp capacity).1 ∧
    (heap_init type value_cmp capacity).1.size = 0 ∧
    (heap_init type value_cmp capacity).2 = true := by
  obtain ⟨c, e⟩ := @heap_init_eq α value_cmp type capacity hb
  rw [e]
  refine ⟨?_, rfl, rfl⟩
  apply heapInv_lit type 0 0 c _ (le_refl 0) (Nat.zero_le _)
  · simp
  · intro i hi
    omega
  · intro i _ hi
    omega

theorem heap_size_bound (n : Nat) (h : n < 2 ^ 53) : (n + 1) * 8 < SIZE_MOD := by
  unfold SIZE_MOD
  omega

theorem heap_push_spec (hP : CmpPreorder value_cmp) {type : heap_type} {h : heap α}
    (hI : HeapInv type value_cmp h) (hb : (h.size + 1) * 8 < SIZE_MOD) (v : α) :
    ∃ h1, heap_push h (some v) = .ok (h1, true) ∧ HeapInv type value_cmp h1 ∧
      h1.size = h.size + 1 ∧
      (Multiset.range h1.size).map (heap_cell h1) =
        some v ::ₘ (Multiset.range h.size).map (heap_cell h) := by
  obtain ⟨n, s, c, a, rfl, hns, hsa, hc, hlive, hord⟩ := heapInv_cases hI
  obtain ⟨s1, c1, a1, e1, h1, h2, h3, h4, h5⟩ :=
    array_list_set_at_size s c a n (some v) hns hsa hc hb
  have hlive1 : ∀ i, i < n + 1 → ∃ x, cell a1 i = some x := by
    intro i hi
    by_cases hin : i = n
    · exact ⟨v, by rw [hin, h4]⟩
    · rw [h5 i (by omega)]
      exact hlive i (by omega)
  obtain ⟨a2, e2, p1, p2, p3, p4, p5⟩ := heapify_up_spec hP type (n + 1) s1 c1 (by omega)
    (n + 1) n a1 (by omega) (by omega) h2 hlive1
    (by
      refine ⟨?_, ?_⟩
      · intro i hi hin hne
        rw [h5 i (by omega), h5 _ (by omega)]
        exact hord i hi (by omega)
      · intro i hi hin hik hn
        omega)
  refine ⟨⟨type, n + 1, ⟨s1, c1, some a2⟩, value_cmp⟩, ?_,
    heapInv_lit type (n + 1) s1 c1 a2 (by omega) (by omega) (by omega) p2 p3, rfl, ?_⟩
  · unfold heap_push
    simp only [e1]
    exact e2
  · show (Multiset.range (n + 1)).map (cell a2) = some v ::ₘ (Multiset.range n).map (cell a)
    rw [p4, Multiset.range_succ, Multiset.map_cons, h4]
    congr 1
    apply Multiset.map_congr rfl
    intro i hi
    exact h5 i (by simpa using hi)

theorem root_le (hP : CmpPreorder value_cmp) (type : heap_type) (G : Nat → Option α) (n : Nat)
    (hlive : ∀ i, i < n → ∃ x, G i = some x)
    (hord : HeapOrdered (cell_le type value_cmp) G n) :
    ∀ i, i < n → cell_le type value_cmp (G 0) (G i) := by
  intro i
  induction i using Nat.strong_induction_on with
  | _ i ih =>
    intro hin
    by_cases hi : i = 0
    · subst hi
      obtain ⟨x, hx⟩ := hlive 0 hin
      rw [hx]
      exact (cell_le_some type x x).mpr (heap_le_refl hP type x)
    · exact cell_le_trans hP type _ _ _ (ih ((i - 1) / 2) (by omega) (by omega))
        (hord i (by omega) hin)

theorem heap_pop_empty (h : heap α) (hs : h.size = 0) :
    heap_peek h = .ok none ∧ heap_pop h = .ok (h, none) := by
  simp [heap_peek, heap_pop, hs]

theorem heap_pop_spec (hP : CmpPreorder value_cmp) {type : heap_type} {h : heap α}
    (hI : HeapInv type value_cmp h) (hne : h.size ≠ 0) :
    ∃ x h1, heap_peek h = .ok (some x) ∧ heap_pop h = .ok (h1, some x) ∧
      HeapInv type value_cmp h1 ∧ h1.size + 1 = h.size ∧
      some x ::ₘ (Multiset.range h1.size).map (heap_cell h1) =
        (Multiset.range h.size).map (heap_cell h) ∧
      ∀ i, i < h.size → cell_le type value_cmp (some x) (heap_cell h i) := by
  obtain ⟨n0, s, c, a, rfl, hns, hsa, hc, hlive, hord⟩ := heapInv_cases hI
  simp only at hne
  obtain ⟨n, rfl⟩ : ∃ n, n0 = n + 1 := ⟨n0 - 1, by omega⟩
  obtain ⟨x, hx⟩ := hlive 0 (by omega)
  have hroot := root_le hP type (cell a) (n + 1) hlive hord
  rw [hx] at hroot
  have hs0 : s ≠ 0 := by omega
  have hhead : array_list_head (⟨s, c, some a⟩ : array_list α) = .ok (some x) := by
    have h0 : 0 < a.length := by omega
    simp only [array_list_head, hs0, if_false, array_load, List.getElem?_eq_getElem h0]
    simp only [cell, List.getElem?_eq_getElem h0, Option.getD_some] at hx
    rw [hx]
  have hpeek : heap_peek (⟨type, n + 1, ⟨s, c, some a⟩, value_cmp⟩ : heap α) =
      .ok (some x) := by
    simp only [heap_peek, Nat.succ_ne_zero, if_false, hhead]
  by_cases hn : n = 0
  · subst hn
    refine ⟨x, ⟨type, 0, ⟨s, c, some a⟩, value_cmp⟩, hpeek, ?_,
      heapInv_lit type 0 s c a (by omega) hsa hc (fun i hi => by omega)
        (fun i _ hi => by omega), rfl, ?_, hroot⟩
    · simp [heap_pop, hhead]
    · show some x ::ₘ (Multiset.range 0).map (cell a) = (Multiset.range 1).map (cell a)
      simp [hx]
  · obtain ⟨T, hT⟩ := hlive n (by omega)
    have e2 : cell (a.set 0 (some T)) = Function.update (cell a) 0 (some T) :=
      cell_set _ _ _ (by omega)
    obtain ⟨a1, e1, p1, p2, p3, p4, p5⟩ := heapify_down_spec hP type n s c (by omega) T
      (n + 1) 0 (a.set 0 (some T)) (by omega) (by omega) (by simpa using hsa)
      (by
        intro i hi
        rw [e2]
        by_cases h0 : i = 0
        · exact ⟨T, by rw [h0, Function.update_same]⟩
        · rw [Function.update_noteq h0]
          exact hlive i (by omega))
      (by rw [e2, Function.update_noteq hn, hT])
      (by rw [e2, Function.update_same])
      (by
        refine ⟨?_, ?_⟩
        · intro i hi hin hp
          rw [e2, Function.update_noteq hp, Function.update_noteq (by omega)]
          exact hord i hi (by omega)
        · intro i _ _ _ h0
          omega)
    have p1 : a1.length = a.length := by simpa using p1
    refine ⟨x, ⟨type, n, ⟨s, c, some a1⟩, value_cmp⟩, hpeek, ?_,
      heapInv_lit type n s c a1 (by omega) (by omega) (by omega) p2 p3, rfl, ?_, hroot⟩
    · unfold heap_pop
      simp only [Nat.succ_ne_zero, if_false, hhead, Nat.add_sub_cancel, hn]
      rw [array_list_get_at_lt s c a n (by omega) hsa, hT]
      simp only
      rw [array_list_set_at_lt s c a 0 (some T) (by omega) hsa]
      simp only
      rw [e1]
    · show some x ::ₘ (Multiset.range n).map (cell a1) = (Multiset.range (n + 1)).map (cell a)
      rw [p4, ← vals_swap (cell a) (n + 1) 0 n (by omega) (by omega), Multiset.range_succ,
        Multiset.map_cons, Function.update_same, hx]
      congr 1
      apply Multiset.map_congr rfl
      intro i hi
      have : i ≠ n := by
        have := Multiset.mem_range.mp hi
        omega
      rw [Function.update_noteq this, e2, hT]

theorem array_load_fuel (lst : array_list α) (i : Nat) :
    array_load lst i ≠ .error .out_of_fuel := by
  unfold array_load
  split
  · simp
  · split <;> simp

theorem array_store_fuel (lst : array_list α) (i : Nat) (v : Option α) :
    array_store lst i v ≠ .error .out_of_fuel := by
  unfold array_store
  split
  · simp
  · split <;> simp

theorem array_list_get_at_fuel (lst : array_list α) (pos : Nat) :
    array_list_get_at lst pos ≠ .error .out_of_fuel := by
  unfold array_list_get_at
  split
  · simp
  · exact array_load_fuel lst pos

theorem fill_null_loop_fuel (n : Nat) :
    ∀ (i : Nat) (lst : array_list α), fill_null_loop n i lst ≠ .error .out_of_fuel := by
  induction n with
  | zero => intro i lst; simp [fill_null_loop]
  | succ n ih =>
    intro i lst
    unfold fill_null_loop
    have := array_store_fuel lst i none
    split
    · rename_i f e
      intro h
      cases h
      exact this e
    · exact ih _ _

theorem array_list_set_at_fuel (lst : array_list α) (pos : Nat) (v : Option α) :
    array_list_set_at lst pos v ≠ .error .out_of_fuel := by
  unfold array_list_set_at
  split
  · simp only
    split
    · simp
    · rename_i lst1 _
      have h1 := fill_null_loop_fuel (pos - lst1.size) lst1.size lst1
      split
      · rename_i f e
        intro h
        cases h
        exact h1 e
      · rename_i lst2 _
        have h2 := array_store_fuel { lst2 with size := (pos + 1) % SIZE_MOD } pos v
        split
        · rename_i f e
          intro h
          cases h
          exact h2 e
        · simp
  · have h2 := array_store_fuel lst pos v
    split
    · rename_i f e
      intro h
      cases h
      exact h2 e
    · simp

theorem set_both_fuel (lst : array_list α) (i j : Nat) (x y : Option α) :
    set_both lst i x j y ≠ .error .out_of_fuel := by
  unfold set_both
  have h1 := array_list_set_at_fuel lst i x
  split
  · rename_i f e
    intro h
    cases h
    exact h1 e
  · simp
  · exact array_list_set_at_fuel _ j y

theorem heapify_up_fuel (fuel : Nat) :
    ∀ (h : heap α) (index : Nat), index < fuel →
      heapify_up fuel h index ≠ .error .out_of_fuel := by
  induction fuel with
  | zero => intro h index hi; omega
  | succ fuel ih =>
    intro h index hi
    unfold heapify_up
    split
    · simp
    · rename_i h0
      have hp : parent index < fuel := by
        simp only [parent, h0, if_false]
        omega
      have g1 := array_list_get_at_fuel h.heap_array (parent index)
      have g2 := array_list_get_at_fuel h.heap_array index
      simp only
      split
      · rename_i f e
        intro h'
        cases h'
        exact g1 e
      · split
        · rename_i f e
          intro h'
          cases h'
          exact g2 e
        · split
          · split
            · rename_i f e
              intro h'
              cases h'
              exact set_both_fuel _ _ _ _ _ e
            · simp
            · exact ih _ _ hp
          · simp

theorem heapify_down_swap_fuel (rec_call : heap α → Nat → Except Fault (heap α × Bool))
    (h : heap α) (index child_idx : Nat) (val child_val : Option α)
    (hrec : ∀ lst, rec_call { h with heap_array := lst } child_idx ≠ .error .out_of_fuel) :
    heapify_down_swap rec_call h index val child_idx child_val ≠ .error .out_of_fuel := by
  unfold heapify_down_swap
  have g3 := set_both_fuel h.heap_array index child_idx child_val val
  split
  · rename_i f e
    intro h'
    cases h'
    exact g3 e
  · simp
  · exact hrec _

theorem heapify_down_fuel (fuel : Nat) :
    ∀ (h : heap α) (index : Nat), 1 ≤ fuel → h.size + 1 ≤ fuel + index →
      heapify_down fuel h index ≠ .error .out_of_fuel := by
  induction fuel with
  | zero => intro h index hi; omega
  | succ fuel ih =>
    intro h index _ hf
    unfold heapify_down
    simp only [left_child, right_child]
    split
    · simp
    · rename_i hc
      have g1 := array_list_get_at_fuel h.heap_array (2 * index + 1)
      have g2 := array_list_get_at_fuel h.heap_array (2 * index + 2)
      have g3 := array_list_get_at_fuel h.heap_array index
      have hr : ∀ lst, heapify_down fuel { h with heap_array := lst } (2 * index + 2) ≠
          .error .out_of_fuel := fun lst => ih _ _ (by omega) (by simp only; omega)
      have hl : ∀ lst, heapify_down fuel { h with heap_array := lst } (2 * index + 1) ≠
          .error .out_of_fuel := fun lst => ih _ _ (by omega) (by simp only; omega)
      split
      · rename_i f e
        intro h'
        cases h'
        exact g1 e
      · split
        · rename_i f e
          intro h'
          cases h'
          exact g2 e
        · split
          · rename_i f e
            intro h'
            cases h'
            exact g3 e
          · split
            · split
              · exact heapify_down_swap_fuel _ _ _ _ _ _ hr
              · split
                · exact heapify_down_swap_fuel _ _ _ _ _ _ hl
                · simp
            · split
              · exact heapify_down_swap_fuel _ _ _ _ _ _ hr
              · split
                · exact heapify_down_swap_fuel _ _ _ _ _ _ hl
                · simp

theorem heap_values_coe (h : heap α) :
    (↑(heap_values h) : Multiset (Option α)) = (Multiset.range h.size).map (heap_cell h) :=
  rfl

theorem heap_values_length (h : heap α) : (heap_values h).length = h.size := by
  simp [heap_values]

theorem heap_size_of_perm {h : heap α} {M : List α} (hM : (heap_values h).Perm (M.map some)) :
    h.size = M.length := by
  have := hM.length_eq
  rw [heap_values_length, List.length_map] at this
  exact this

theorem heap_push_step (hP : CmpPreorder value_cmp) {type : heap_type} {h : heap α}
    {M : List α} (hI : HeapInv type value_cmp h) (hM : (heap_values h).Perm (M.map some))
    (hb : h.size < 2 ^ 53) (v : α) :
    ∃ h1, heap_push h (some v) = .ok (h1, true) ∧ HeapInv type value_cmp h1 ∧
      h1.size = h.size + 1 ∧ (heap_values h1).Perm ((v :: M).map some) := by
  obtain ⟨h1, e, hI1, hs, hv⟩ := heap_push_spec hP hI (heap_size_bound _ hb) v
  refine ⟨h1, e, hI1, hs, ?_⟩
  rw [← heap_values_coe, ← heap_values_coe, Multiset.cons_coe, Multiset.coe_eq_coe] at hv
  exact hv.trans (List.Perm.cons _ hM)

theorem heap_pop_step [DecidableEq α] (hP : CmpPreorder value_cmp) {type : heap_type} {h : heap α}
    {M : List α} (hI : HeapInv type value_cmp h) (hM : (heap_values h).Perm (M.map some))
    (hne : M ≠ []) :
    ∃ x h1, x ∈ M ∧ (∀ y ∈ M, heap_le type value_cmp (some x) (some y)) ∧
      heap_peek h = .ok (some x) ∧ heap_pop h = .ok (h1, some x) ∧
      HeapInv type value_cmp h1 ∧ h1.size + 1 = h.size ∧
      (heap_values h1).Perm ((M.erase x).map some) := by
  have hsz := heap_size_of_perm hM
  have hs0 : h.size ≠ 0 := by
    rw [hsz]
    exact fun e => hne (List.length_eq_zero.mp e)
  obtain ⟨x, h1, e1, e2, hI1, hs, hv, hmin⟩ := heap_pop_spec hP hI hs0
  rw [← heap_values_coe, ← heap_values_coe, Multiset.cons_coe, Multiset.coe_eq_coe] at hv
  have hxM : x ∈ M := by
    have h2 : some x ∈ M.map some := (hv.trans hM).subset (List.mem_cons_self _ _)
    obtain ⟨y, hy, hyx⟩ := List.mem_map.mp h2
    cases hyx
    exact hy
  refine ⟨x, h1, hxM, ?_, e1, e2, hI1, hs, ?_⟩
  · intro y hy
    have h2 : some y ∈ heap_values h := hM.symm.subset (List.mem_map_of_mem some hy)
    obtain ⟨i, hi, hiy⟩ := List.mem_map.mp h2
    have := hmin i (List.mem_range.mp hi)
    rw [hiy] at this
    exact (cell_le_some type x y).mp this
  · have h3 : (M.map some).Perm (some x :: (M.erase x).map some) :=
      ((List.perm_cons_erase hxM).map some)
    exact ((hv.trans hM).trans h3).cons_inv

theorem heapReach_inv [DecidableEq α] (hP : CmpPreorder value_cmp) {type : heap_type} {h : heap α}
    {M : List α} (hR : HeapReach type value_cmp h M) :
    HeapInv type value_cmp h ∧ (heap_values h).Perm (M.map some) := by
  induction hR with
  | init capacity hb =>
    obtain ⟨c, e⟩ := @heap_init_eq α value_cmp type capacity hb
    exact ⟨(heap_init_inv type capacity hb).1, by rw [e]; exact List.Perm.refl _⟩
  | @push h0 M0 v h1 r _ hb e ih =>
    obtain ⟨h2, e2, hI2, _, hv⟩ := heap_push_step hP ih.1 ih.2 hb v
    rw [e2] at e
    cases e
    exact ⟨hI2, hv⟩
  | @pop h0 M0 x h1 _ e ih =>
    by_cases hne : M0 = []
    · subst hne
      have hs := heap_size_of_perm ih.2
      rw [(heap_pop_empty h0 hs).2] at e
      cases e
    · obtain ⟨x2, h2, _, _, _, e2, hI2, _, hv⟩ := heap_pop_step hP ih.1 ih.2 hne
      rw [e2] at e
      cases e
      exact ⟨hI2, hv⟩
  | @pop_null h0 M0 h1 _ e ih =>
    by_cases hne : M0 = []
    · subst hne
      have hs := heap_size_of_perm ih.2
      rw [(heap_pop_empty h0 hs).2] at e
      cases e
      exact ih
    · obtain ⟨x2, h2, _, _, _, e2, _, _, _⟩ := heap_pop_step hP ih.1 ih.2 hne
      rw [e2] at e
      cases e

theorem heap_push_list_spec [DecidableEq α] (hP : CmpPreorder value_cmp) {type : heap_type}
    (vs : List α) :
    ∀ (h : heap α) (M : List α), HeapReach type value_cmp h M → h.size + vs.length ≤ 2 ^ 53 →
      ∃ h1, heap_push_list h vs = .ok (h1, true) ∧
        HeapReach type value_cmp h1 (vs.reverse ++ M) := by
  induction vs with
  | nil =>
    intro h M hR _
    exact ⟨h, rfl, by simpa using hR⟩
  | cons v vs ih =>
    intro h M hR hb
    simp only [List.length_cons] at hb
    obtain ⟨hI, hM⟩ := heapReach_inv hP hR
    obtain ⟨h1, e1, _, hs, _⟩ := heap_push_step hP hI hM (by omega) v
    obtain ⟨h2, e2, hR2⟩ := ih h1 (v :: M) (HeapReach.push v h1 true hR (by omega) e1)
      (by omega)
    refine ⟨h2, ?_, by simpa using hR2⟩
    simp only [heap_push_list, e1]
    exact e2

theorem heap_push_list_reach [DecidableEq α] (hP : CmpPreorder value_cmp) {type : heap_type}
    (vs : List α) (h : heap α) (M : List α) (h1 : heap α) (hR : HeapReach type value_cmp h M)
    (hb : h.size + vs.length ≤ 2 ^ 53) (e : heap_push_list h vs = .ok (h1, true)) :
    HeapReach type value_cmp h1 (vs.reverse ++ M) := by
  obtain ⟨h2, e2, hR2⟩ := heap_push_list_spec hP vs h M hR hb
  rw [e2] at e
  cases e
  exact hR2

theorem heap_pop_n_spec [DecidableEq α] (hP : CmpPreorder value_cmp) {type : heap_type} (n : Nat) :
    ∀ (h : heap α) (M : List α), HeapInv type value_cmp h →
      (heap_values h).Perm (M.map some) → M.length = n →
      ∃ (h2 : heap α) (out : List α), heap_pop_n n h = .ok (h2, out.map some) ∧ out.Perm M ∧
        out.Pairwise (fun a b => heap_le type value_cmp (some a) (some b)) ∧ h2.size = 0 := by
  induction n with
  | zero =>
    intro h M hI hM hn
    refine ⟨h, [], rfl, ?_, List.Pairwise.nil, ?_⟩
    · rw [List.length_eq_zero.mp hn]
    · rw [heap_size_of_perm hM, hn]
  | succ n ih =>
    intro h M hI hM hn
    have hne : M ≠ [] := by
      intro e
      rw [e] at hn
      cases hn
    obtain ⟨x, h1, hxM, hmin, _, e, hI1, _, hv⟩ := heap_pop_step hP hI hM hne
    obtain ⟨h2, out, e2, hp, hpw, hs⟩ := ih h1 (M.erase x) hI1 hv
      (by rw [List.length_erase_of_mem hxM, hn]; rfl)
    refine ⟨h2, x :: out, ?_, ?_, ?_, hs⟩
    · simp only [heap_pop_n, e, e2, List.map_cons]
    · exact (List.Perm.cons x hp).trans (List.perm_cons_erase hxM).symm
    · refine List.Pairwise.cons ?_ hpw
      intro y hy
      exact hmin y (List.mem_of_mem_erase (hp.subset hy))

theorem heap_reach_spec [DecidableEq α] (hP : CmpPreorder value_cmp) (type : heap_type) (h : heap α)
    (M : List α) (hR : HeapReach type value_cmp h M) :
    h.size = M.length ∧ (heap_values h).Perm (M.map some) ∧
    (∀ v : α, h.size < 2 ^ 53 → ∃ h1, heap_push h (some v) = .ok (h1, true) ∧
      h1.size = h.size + 1 ∧ (heap_values h1).Perm ((v :: M).map some)) ∧
    (M = [] → heap_peek h = .ok none ∧ heap_pop h = .ok (h, none)) ∧
    (M ≠ [] → ∃ x h1, x ∈ M ∧ (∀ y ∈ M, heap_le type value_cmp (some x) (some y)) ∧
      heap_peek h = .ok (some x) ∧ heap_pop h = .ok (h1, some x) ∧ h1.size + 1 = h.size ∧
      (heap_values h1).Perm ((M.erase x).map some)) ∧
    (∀ vs : List α, M.length + vs.length ≤ 2 ^ 53 →
      ∃ (h1 h2 : heap α) (out : List α), heap_push_list h vs = .ok (h1, true) ∧
      heap_pop_n (M.length + vs.length) h1 = .ok (h2, out.map some) ∧ out.Perm (vs ++ M) ∧
      out.Pairwise (fun a b => heap_le type value_cmp (some a) (some b)) ∧ h2.size = 0) := by
  obtain ⟨hI, hM⟩ := heapReach_inv hP hR
  refine ⟨heap_size_of_perm hM, hM, ?_, ?_, ?_, ?_⟩
  · intro v hb
    obtain ⟨h1, e1, _, hs, hv⟩ := heap_push_step hP hI hM hb v
    exact ⟨h1, e1, hs, hv⟩
  · intro hnil
    subst hnil
    exact heap_pop_empty h (heap_size_of_perm hM)
  · intro hne
    obtain ⟨x, h1, hx, hmin, e1, e2, _, hs, hv⟩ := heap_pop_step hP hI hM hne
    exact ⟨x, h1, hx, hmin, e1, e2, hs, hv⟩
  · intro vs hb
    obtain ⟨h1, e1, hR1⟩ := heap_push_list_spec hP vs h M hR
      (by rw [heap_size_of_perm hM]; exact hb)
    obtain ⟨hI1, hM1⟩ := heapReach_inv hP hR1
    obtain ⟨h2, out, e2, hp, hpw, hs⟩ := heap_pop_n_spec hP (M.length + vs.length) h1
      (vs.reverse ++ M) hI1 hM1 (by simp; omega)
    refine ⟨h1, h2, out, e1, e2, ?_, hpw, hs⟩
    exact hp.trans ((List.reverse_perm vs).append_right M)

theorem cmpPreorder_value_cmp_int : CmpPreorder value_cmp_int := by
  refine ⟨?_, ?_⟩
  · intro a b
    simp only [value_cmp_int]
    split_ifs <;> omega
  · intro a b c
    simp only [value_cmp_int]
    split_ifs <;> omega

end Heap

/-! ## The array list: writes, insertion at the end and deletion -/

section ArrayList

variable {α : Type}

theorem array_list_get_at_eq (s c : Nat) (a : List (Option α)) (i : Nat) (h : s ≤ a.length) :
    array_list_get_at ⟨s, c, some a⟩ i = .ok (if i < s then cell a i else none) := by
  by_cases hi : i < s
  · rw [array_list_get_at_lt s c a i hi h, if_pos hi]
  · simp [array_list_get_at, hi, Nat.not_lt.mp hi]

theorem array_store_lt (s c : Nat) (a : List (Option α)) (i : Nat) (v : Option α)
    (h : i < a.length) :
    array_store ⟨s, c, some a⟩ i v = .ok ⟨s, c, some (a.set i v)⟩ := by
  simp [array_store, h]

theorem array_load_lt (s c : Nat) (a : List (Option α)) (i : Nat) (h : i < a.length) :
    array_load ⟨s, c, some a⟩ i = .ok (cell a i) := by
  simp [array_load, cell, List.getElem?_eq_getElem h]

theorem cell_of_length_le (a : List (Option α)) (i : Nat) (h : a.length ≤ i) :
    cell a i = none := by
  simp [cell, List.getElem?_eq_none h]

theorem cell_append_replicate (a : List (Option α)) (n i : Nat) :
    cell (a ++ List.replicate n none) i = cell a i := by
  by_cases h : i < a.length
  · simp [cell, List.getElem?_append_left h]
  · rw [cell_of_length_le a i (by omega)]
    simp only [cell]
    rw [List.getElem?_append_right (by omega)]
    by_cases h2 : i - a.length < n
    · simp [List.getElem?_replicate, h2]
    · simp [List.getElem?_replicate, h2]

theorem fill_null_loop_spec (n : Nat) :
    ∀ (i s c : Nat) (a : List (Option α)), i + n ≤ a.length →
      ∃ a1, fill_null_loop n i ⟨s, c, some a⟩ = .ok ⟨s, c, some a1⟩ ∧ a1.length = a.length ∧
        ∀ j, cell a1 j = if i ≤ j ∧ j < i + n then none else cell a j := by
  induction n with
  | zero =>
    intro i s c a _
    refine ⟨a, rfl, rfl, ?_⟩
    intro j
    have : ¬ (i ≤ j ∧ j < i + 0) := by omega
    rw [if_neg this]
  | succ n ih =>
    intro i s c a h
    obtain ⟨a1, e1, l1, c1⟩ := ih (i + 1) s c (a.set i none) (by simp; omega)
    refine ⟨a1, ?_, by simpa using l1, ?_⟩
    · unfold fill_null_loop
      rw [array_store_lt s c a i none (by omega)]
      exact e1
    · intro j
      rw [c1 j, cell_set a i none (by omega)]
      by_cases hj : j = i
      · subst hj
        have h1 : ¬ (j + 1 ≤ j ∧ j < j + 1 + n) := by omega
        have h2 : j ≤ j ∧ j < j + (n + 1) := by omega
        rw [if_neg h1, if_pos h2, Function.update_same]
      · rw [Function.update_noteq hj]
        by_cases h1 : i + 1 ≤ j ∧ j < i + 1 + n
        · have h2 : i ≤ j ∧ j < i + (n + 1) := by omega
          rw [if_pos h1, if_pos h2]
        · have h2 : ¬ (i ≤ j ∧ j < i + (n + 1)) := by omega
          rw [if_neg h1, if_neg h2]

theorem fill_then_store (s c0 pos : Nat) (v : Option α) (a0 : List (Option α))
    (hs : s ≤ pos) (hp : pos < a0.length) (hm : (pos + 1) % SIZE_MOD = pos + 1) :
    ∃ a1,
      (match fill_null_loop (pos - s) s (⟨s, c0, some a0⟩ : array_list α) with
        | .error f => Except.error f
        | .ok lst2 =>
          match array_store { lst2 with size := (pos + 1) % SIZE_MOD } pos v with
          | .error f => Except.error f
          | .ok lst3 => Except.ok (lst3, true)) =
        .ok (⟨pos + 1, c0, some a1⟩, true) ∧
      a1.length = a0.length ∧
      ∀ j, cell a1 j = if j = pos then v else if s ≤ j ∧ j < pos then none else cell a0 j := by
  obtain ⟨a1, e1, l1, c1⟩ := fill_null_loop_spec (pos - s) s s c0 a0 (by omega)
  refine ⟨a1.set pos v, ?_, by simpa using l1, ?_⟩
  · rw [e1]
    simp only [hm]
    rw [array_store_lt _ _ a1 pos v (by omega)]
  · intro j
    rw [cell_set a1 pos v (by omega)]
    by_cases hj : j = pos
    · subst hj
      rw [Function.update_same, if_pos rfl]
    · rw [Function.update_noteq hj, if_neg hj, c1 j]
      by_cases h1 : s ≤ j ∧ j < pos
      · have h2 : s ≤ j ∧ j < s + (pos - s) := by omega
        rw [if_pos h1, if_pos h2]
      · have h2 : ¬ (s ≤ j ∧ j < s + (pos - s)) := by omega
        rw [if_neg h1, if_neg h2]

theorem array_list_set_at_ge (s c : Nat) (a : List (Option α)) (pos : Nat) (v : Option α)
    (hs : s ≤ pos) (hc : a.length = c) (hb : (pos + 1) * 8 < SIZE_MOD) :
    ∃ a1, array_list_set_at ⟨s, c, some a⟩ pos v =
        .ok (⟨pos + 1, max c (pos + 1), some a1⟩, true) ∧
      a1.length = max c (pos + 1) ∧
      ∀ j, cell a1 j = if j = pos then v else if s ≤ j ∧ j < pos then none else cell a j := by
  have hm : (pos + 1) % SIZE_MOD = pos + 1 := Nat.mod_eq_of_lt (by omega)
  by_cases hpc : pos < c
  · obtain ⟨a1, e1, l1, c1⟩ := fill_then_store s c pos v a hs (by omega) hm
    have hmax : max c (pos + 1) = c := by omega
    refine ⟨a1, ?_, by omega, c1⟩
    rw [hmax]
    unfold array_list_set_at
    have h1 : pos ≥ s := hs
    have h2 : ¬ pos ≥ c := by omega
    simp only [h1, if_true, h2, if_false]
    exact e1
  · have hmax : max c (pos + 1) = pos + 1 := by omega
    obtain ⟨a1, e1, l1, c1⟩ := fill_then_store s (pos + 1) pos v
      (a ++ List.replicate (pos + 1 - a.length) none) hs (by simp; omega) hm
    refine ⟨a1, ?_, by rw [l1]; simp; omega, ?_⟩
    · rw [hmax]
      unfold array_list_set_at
      have h1 : pos ≥ s := hs
      have h2 : pos ≥ c := by omega
      have h3 : ¬ (pos + 1 = c) := by omega
      have h4 : ¬ (pos + 1 < c ∧ pos + 1 < s) := by omega
      have h5 : List.take (pos + 1) a = a := List.take_of_length_le (by omega)
      simp only [h1, if_true, h2, hm, array_list_resize, h3, if_false, h4, alloc_array,
        block_cells_eq (pos + 1) hb, h5]
      simp only [hm] at e1
      exact e1
    · intro j
      rw [c1 j, cell_append_replicate a _ j]

theorem array_list_set_at_null (pos : Nat) (v : Option α) (hb : (pos + 1) * 8 < SIZE_MOD) :
    ∃ a1, array_list_set_at (⟨0, 0, none⟩ : array_list α) pos v =
        .ok (⟨pos + 1, pos + 1, some a1⟩, true) ∧
      a1.length = pos + 1 ∧
      ∀ j, cell a1 j = if j = pos then v else none := by
  have hm : (pos + 1) % SIZE_MOD = pos + 1 := Nat.mod_eq_of_lt (by omega)
  obtain ⟨a1, e1, l1, c1⟩ := fill_then_store 0 (pos + 1) pos v
    (List.replicate (pos + 1) none) (Nat.zero_le _) (by simp) hm
  refine ⟨a1, ?_, by simpa using l1, ?_⟩
  · unfold array_list_set_at
    have h3 : ¬ (pos + 1 = 0) := by omega
    have h4 : ¬ (pos + 1 < 0 ∧ pos + 1 < 0) := by omega
    simp only [ge_iff_le, Nat.zero_le, if_true, hm, array_list_resize, h3, if_false, h4,
      alloc_array, block_cells_eq (pos + 1) hb]
    simp only [hm] at e1
    exact e1
  · intro j
    rw [c1 j]
    by_cases hj : j = pos
    · rw [if_pos hj, if_pos hj]
    · rw [if_neg hj, if_neg hj]
      have : cell (List.replicate (pos + 1) (none : Option α)) j = none := by
        simp [cell]
      rw [this]
      split <;> rfl

theorem shift_left_loop_spec (n : Nat) :
    ∀ (i s c : Nat) (a : List (Option α)), i + n + 1 ≤ a.length →
      ∃ a1, shift_left_loop n i ⟨s, c, some a⟩ = .ok ⟨s, c, some a1⟩ ∧ a1.length = a.length ∧
        ∀ j, cell a1 j = if i ≤ j ∧ j < i + n then cell a (j + 1) else cell a j := by
  induction n with
  | zero =>
    intro i s c a _
    refine ⟨a, rfl, rfl, ?_⟩
    intro j
    have : ¬ (i ≤ j ∧ j < i + 0) := by omega
    rw [if_neg this]
  | succ n ih =>
    intro i s c a h
    obtain ⟨a1, e1, l1, c1⟩ := ih (i + 1) s c (a.set i (cell a (i + 1))) (by simp; omega)
    refine ⟨a1, ?_, by simpa using l1, ?_⟩
    · unfold shift_left_loop
      rw [array_load_lt s c a (i + 1) (by omega)]
      simp only
      rw [array_store_lt s c a i _ (by omega)]
      exact e1
    · intro j
      rw [c1 j, cell_set a i _ (by omega)]
      by_cases hj : j = i
      · subst hj
        have h1 : ¬ (j + 1 ≤ j ∧ j < j + 1 + n) := by omega
        have h2 : j ≤ j ∧ j < j + (n + 1) := by omega
        rw [if_neg h1, if_pos h2, Function.update_same]
      · by_cases h1 : i + 1 ≤ j ∧ j < i + 1 + n
        · have h2 : i ≤ j ∧ j < i + (n + 1) := by omega
          rw [if_pos h1, if_pos h2, Function.update_noteq (by omega)]
        · have h2 : ¬ (i ≤ j ∧ j < i + (n + 1)) := by omega
          rw [if_neg h1, if_neg h2, Function.update_noteq hj]

theorem array_list_del_at_lt (s c : Nat) (a : List (Option α)) (pos : Nat) (hp : pos < s)
    (hsa : s ≤ a.length) :
    ∃ a1, array_list_del_at ⟨s, c, some a⟩ pos = .ok (⟨s - 1, c, some a1⟩, cell a pos) ∧
      a1.length = a.length ∧
      ∀ j, cell a1 j = if pos ≤ j ∧ j + 1 < s then cell a (j + 1) else cell a j := by
  obtain ⟨a1, e1, l1, c1⟩ := shift_left_loop_spec (s - 1 - pos) pos (s - 1) c a (by omega)
  refine ⟨a1, ?_, l1, ?_⟩
  · unfold array_list_del_at
    have h1 : ¬ pos ≥ s := by omega
    simp only [h1, if_false]
    rw [array_list_get_at_lt s c a pos hp hsa]
    simp only [shift_left]
    rw [e1]
  · intro j
    rw [c1 j]
    by_cases h1 : pos ≤ j ∧ j + 1 < s
    · have h2 : pos ≤ j ∧ j < pos + (s - 1 - pos) := by omega
      rw [if_pos h1, if_pos h2]
    · have h2 : ¬ (pos ≤ j ∧ j < pos + (s - 1 - pos)) := by omega
      rw [if_neg h1, if_neg h2]

theorem array_list_push_tail_spec (s c : Nat) (a : List (Option α)) (v : Option α)
    (hsc : s ≤ c) (hc : a.length = c) (h1 : 1 ≤ c) (hb : (s + 1) * 8 < SIZE_MOD) :
    ∃ a1, array_list_push_tail ⟨s, c, some a⟩ v =
        .ok (⟨s + 1, max c (s + 1), some a1⟩, true) ∧
      a1.length = max c (s + 1) ∧
      ∀ j, cell a1 j = if j = s then v else cell a j := by
  unfold array_list_push_tail array_list_insert_at
  have hn : ¬ s > s := by omega
  simp only [hn, if_false]
  by_cases h0 : s = 0
  · subst h0
    have hmax : max c (0 + 1) = c := by omega
    refine ⟨a.set 0 v, ?_, by simp; omega, ?_⟩
    · rw [hmax]
      simp only [and_self, if_true]
      rw [array_store_lt 0 c a 0 v (by omega)]
    · intro j
      rw [cell_set a 0 v (by omega)]
      by_cases hj : j = 0
      · subst hj
        rw [Function.update_same, if_pos rfl]
      · rw [Function.update_noteq hj, if_neg hj]
  · have h2 : ¬ (s = 0 ∧ s = 0) := by omega
    simp only [h2, if_false]
    obtain ⟨s0, rfl⟩ : ∃ s0, s = s0 + 1 := ⟨s - 1, by omega⟩
    have hloop : ∀ lst : array_list α, shift_right_loop (s0 + 1) (s0 + 1) lst = .ok lst := by
      intro lst
      unfold shift_right_loop
      have : ¬ s0 + 1 > s0 + 1 := by omega
      simp only [this, if_false]
    by_cases hfull : s0 + 1 < c
    · have hmax : max c (s0 + 1 + 1) = c := by omega
      refine ⟨a.set (s0 + 1) v, ?_, by simp; omega, ?_⟩
      · rw [hmax]
        unfold shift_right
        by_cases he : s0 + 1 + 1 = c
        · subst he
          simp only [ge_iff_le, le_refl, if_true, array_list_resize, hloop]
          rw [array_store_lt _ _ a (s0 + 1) v (by omega)]
        · have h3 : ¬ s0 + 1 + 1 ≥ c := by omega
          simp only [h3, if_false, hloop]
          rw [array_store_lt _ _ a (s0 + 1) v (by omega)]
      · intro j
        rw [cell_set a (s0 + 1) v (by omega)]
        by_cases hj : j = s0 + 1
        · subst hj
          rw [Function.update_same, if_pos rfl]
        · rw [Function.update_noteq hj, if_neg hj]
    · have hcs : c = s0 + 1 := by omega
      have hmax : max c (s0 + 1 + 1) = s0 + 1 + 1 := by omega
      refine ⟨(a ++ [none]).set (s0 + 1) v, ?_, by simp; omega, ?_⟩
      · rw [hmax]
        unfold shift_right
        have h3 : s0 + 1 + 1 ≥ c := by omega
        have h4 : ¬ (s0 + 1 + 1 = c) := by omega
        have h5 : ¬ (s0 + 1 + 1 < c ∧ s0 + 1 + 1 < s0 + 1) := by omega
        have h6 : List.take (s0 + 1 + 1) a = a := List.take_of_length_le (by omega)
        have h7 : List.replicate (s0 + 1 + 1 - a.length) (none : Option α) = [none] := by
          rw [hc, hcs]
          simp
        simp only [h3, if_true, array_list_resize, h4, if_false, h5, alloc_array,
          block_cells_eq (s0 + 1 + 1) hb, h6, h7, hloop]
        rw [array_store_lt _ _ (a ++ [none]) (s0 + 1) v (by simp; omega)]
      · intro j
        rw [cell_set _ (s0 + 1) v (by simp; omega)]
        by_cases hj : j = s0 + 1
        · subst hj
          rw [Function.update_same, if_pos rfl]
        · rw [Function.update_noteq hj, if_neg hj]
          exact cell_append_replicate a 1 j

end ArrayList

/-! ## The doubly-linked list: appending and deleting keep the list well formed -/

section LinkedList

variable {α : Type}

theorem node_at_of_get (mem : List (Mem.list_node α)) (p : Nat) (n : Mem.list_node α)
    (h : mem[p]? = some n) : Mem.node_at mem p = .ok n := by
  simp [Mem.node_at, h]

theorem node_update_of_get (mem : List (Mem.list_node α)) (p : Nat) (n : Mem.list_node α)
    (f : Mem.list_node α → Mem.list_node α) (h : mem[p]? = some n) :
    Mem.node_update mem p f = .ok (mem.set p (f n)) := by
  simp [Mem.node_update, h]

theorem lt_length_of_get {β : Type} (l : List β) (i : Nat) (x : β) (h : l[i]? = some x) :
    i < l.length := by
  by_contra hn
  rw [List.getElem?_eq_none (by omega)] at h
  cases h

theorem get_congr_idx {β : Type} (l : List β) {a b : Nat} (h : a = b) : l[a]? = l[b]? := by
  rw [h]

theorem wf_get_eq_iff {lst : Mem.linked_list α} {ps : List Nat} (hW : Mem.WellFormed lst ps)
    {i r : Nat} (hi : ps[i]? = some r) (k : Nat) : ps[k]? = some r ↔ k = i := by
  constructor
  · intro hk
    exact List.getElem?_inj (lt_length_of_get ps k r hk) hW.1 (hk.trans hi.symm)
  · intro e
    rw [e]
    exact hi

theorem linked_list_push_tail_eq (lst : Mem.linked_list α) (v : α)
    (ht : ∀ t, lst.tail = some t → ∃ nt, lst.mem[t]? = some nt) :
    ∃ mem1, Mem.linked_list_push_tail lst v =
        .ok ({ head := if lst.tail = none then some lst.mem.length else lst.head,
               tail := some lst.mem.length,
               size := (lst.size + 1) % SIZE_MOD,
               mem := mem1 }, true) ∧
      mem1.length = lst.mem.length + 1 ∧
      mem1[lst.mem.length]? =
        some { value := v, prev := lst.tail, next := none, freed := false } ∧
      ∀ r nr, lst.mem[r]? = some nr →
        mem1[r]? = some (if some r = lst.tail then { nr with next := some lst.mem.length }
          else nr) := by
  obtain ⟨head, tail, size, mem⟩ := lst
  simp only at ht ⊢
  unfold Mem.linked_list_push_tail
  simp only [Mem.make_node]
  cases htl : tail with
  | none =>
    refine ⟨_, rfl, by simp, by simp, ?_⟩
    intro r nr hr
    have hrl := lt_length_of_get mem r nr hr
    rw [List.getElem?_append_left hrl, hr]
    simp
  | some t =>
    obtain ⟨nt, hnt⟩ := ht t htl
    have htlen := lt_length_of_get mem t nt hnt
    have h1 : (mem ++ [({ value := v, prev := none, next := none, freed := false } :
        Mem.list_node α)])[t]? = some nt := by
      rw [List.getElem?_append_left htlen, hnt]
    simp only [node_update_of_get _ t nt _ h1]
    have hq : t ≠ mem.length := by omega
    have h2 : ((mem ++ [({ value := v, prev := none, next := none, freed := false } :
        Mem.list_node α)]).set t { nt with next := some mem.length })[mem.length]? =
        some { value := v, prev := none, next := none, freed := false } := by
      rw [List.getElem?_set_ne hq, List.getElem?_append_right (le_refl _)]
      simp
    simp only [node_update_of_get _ mem.length _ _ h2]
    refine ⟨_, rfl, by simp, ?_, ?_⟩
    · rw [List.getElem?_set_self (by simp)]
    · intro r nr hr
      have hrl := lt_length_of_get mem r nr hr
      have hrq : mem.length ≠ r := by omega
      rw [List.getElem?_set_ne hrq]
      by_cases hrt : r = t
      · subst hrt
        rw [hnt] at hr
        cases hr
        rw [List.getElem?_set_self (by simp; omega)]
        simp
      · have htr : t ≠ r := fun e => hrt e.symm
        rw [List.getElem?_set_ne htr, List.getElem?_append_left hrl, hr]
        have : ¬ (some r = some t) := fun e => hrt (Option.some.inj e)
        rw [if_neg this]

theorem dll_push_tail_wf (lst : Mem.linked_list α) (ps : List Nat) (v : α)
    (hW : Mem.WellFormed lst ps) (hb : lst.size + 1 < SIZE_MOD) :
    ∃ lst1, Mem.linked_list_push_tail lst v = .ok (lst1, true) ∧
      Mem.WellFormed lst1 (ps ++ [lst.mem.length]) ∧
      Mem.list_values lst1 (ps ++ [lst.mem.length]) = Mem.list_values lst ps ++ [some v] ∧
      lst1.size = lst.size + 1 ∧ Mem.linked_list_tail lst1 = .ok (some v) ∧
      (ps = [] → lst1.head = lst1.tail ∧ Mem.linked_list_head lst1 = .ok (some v)) := by
  obtain ⟨hN, hhead, htail, hsize, hlt, hnodes⟩ := hW
  have hW : Mem.WellFormed lst ps := ⟨hN, hhead, htail, hsize, hlt, hnodes⟩
  have htail0 : lst.tail = ps[ps.length - 1]? := by rw [htail, List.getLast?_eq_getElem?]
  have hvalid : ∀ (i r : Nat), ps[i]? = some r → r < lst.mem.length := by
    intro i r hi
    obtain ⟨nr, hnr, _⟩ := hnodes i r hi
    exact lt_length_of_get _ r nr hnr
  obtain ⟨mem1, e1, l1, cq, c1⟩ := linked_list_push_tail_eq lst v
    (by
      intro t ht
      rw [htail0] at ht
      obtain ⟨nt, hnt, _⟩ := hnodes _ t ht
      exact ⟨nt, hnt⟩)
  have hsz : (lst.size + 1) % SIZE_MOD = lst.size + 1 := Nat.mod_eq_of_lt hb
  have hnil : lst.tail = none ↔ ps = [] := by
    rw [htail]
    exact List.getLast?_eq_none_iff
  have hget : ∀ j, (ps ++ [lst.mem.length])[j]? =
      if j < ps.length then ps[j]? else if j = ps.length then some lst.mem.length else none := by
    intro j
    by_cases h1 : j < ps.length
    · rw [if_pos h1, List.getElem?_append_left h1]
    · rw [if_neg h1, List.getElem?_append_right (by omega)]
      by_cases h2 : j = ps.length
      · rw [if_pos h2, h2]
        simp
      · rw [if_neg h2, List.getElem?_eq_none (by simp; omega)]
  refine ⟨_, e1, ⟨?_, ?_, ?_, ?_, ?_, ?_⟩, ?_, ?_, ?_, ?_⟩
  · -- nodup
    rw [List.nodup_append]
    refine ⟨hN, List.nodup_singleton _, ?_⟩
    intro x hx hx1
    rw [List.mem_singleton] at hx1
    obtain ⟨i, hi⟩ := List.getElem?_of_mem hx
    have := hvalid i x hi
    omega
  · -- head
    simp only
    rw [List.head?_eq_getElem?, hget 0]
    by_cases hp : ps = []
    · subst hp
      rw [if_pos (hnil.mpr rfl)]
      simp
    · have hl : 0 < ps.length := List.length_pos.mpr hp
      rw [if_neg (fun e => hp (hnil.mp e)), if_pos hl, hhead, List.head?_eq_getElem?]
  · -- tail
    simp only
    rw [List.getLast?_concat]
  · -- size
    simp only
    rw [hsz, hsize]
    simp
  · simp only
    rw [hsz]
    exact hb
  · -- nodes
    intro j r hj
    simp only
    rw [hget j] at hj
    simp only [hget]
    by_cases hjl : j < ps.length
    · rw [if_pos hjl] at hj
      obtain ⟨nr, hnr, hfr, hpr, hnx⟩ := hnodes j r hj
      refine ⟨_, c1 r nr hnr, ?_, ?_, ?_⟩
      · split <;> exact hfr
      · have : (if some r = lst.tail then { nr with next := some lst.mem.length } else nr).prev =
            nr.prev := by split <;> rfl
        rw [this, hpr]
        by_cases h0 : j = 0
        · rw [if_pos h0, if_pos h0]
        · rw [if_neg h0, if_neg h0, if_pos (by omega)]
      · by_cases hlast : j + 1 = ps.length
        · have h2 : some r = lst.tail := by
            rw [htail0, ← hj]
            exact get_congr_idx ps (by omega)
          rw [if_pos h2, if_neg (by omega), if_pos hlast]
        · have h2 : ¬ (some r = lst.tail) := by
            rw [htail0]
            intro e
            have := (wf_get_eq_iff hW hj (ps.length - 1)).mp e.symm
            omega
          rw [if_neg h2, hnx, if_pos (by omega)]
    · rw [if_neg hjl] at hj
      by_cases hje : j = ps.length
      · rw [if_pos hje] at hj
        cases hj
        refine ⟨_, cq, rfl, ?_, ?_⟩
        · simp only
          rw [htail0, hje]
          by_cases h0 : ps.length = 0
          · rw [if_pos h0, List.getElem?_eq_none (by omega)]
          · rw [if_neg h0, if_pos (by omega)]
        · simp only
          rw [if_neg (by omega), if_neg (by omega)]
      · rw [if_neg hje] at hj
        cases hj
  · -- values
    simp only [Mem.list_values, List.map_append, List.map_cons, List.map_nil]
    congr 1
    · apply List.map_congr_left
      intro r hr
      obtain ⟨i, hi⟩ := List.getElem?_of_mem hr
      obtain ⟨nr, hnr, _⟩ := hnodes i r hi
      simp only [Mem.value_at, c1 r nr hnr, hnr]
      split <;> rfl
    · simp only [Mem.value_at, cq]
      rfl
  · simp only
    rw [hsz]
  · simp only [Mem.linked_list_tail, node_at_of_get _ _ _ cq]
  · intro hp
    have ht : lst.tail = none := hnil.mpr hp
    simp only [ht, if_true, Mem.linked_list_head, true_and]
    rw [ht] at cq
    simp only [node_at_of_get _ _ _ cq]

theorem example_dll_two_wf : Mem.WellFormed example_dll_two [0, 1] := by
  refine ⟨by decide, rfl, rfl, rfl, by decide, ?_⟩
  intro i p h
  match i with
  | 0 =>
    simp only [List.getElem?_cons_zero, Option.some.injEq] at h
    subst h
    exact ⟨_, rfl, rfl, rfl, rfl⟩
  | 1 =>
    simp only [List.getElem?_cons_succ, List.getElem?_cons_zero, Option.some.injEq] at h
    subst h
    exact ⟨_, rfl, rfl, rfl, rfl⟩
  | i + 2 => simp at h

end LinkedList

/-! ## The binary search: the bound on the iterations is enough -/

section BinarySearch

theorem array_binary_search_fuel {β : Type} [DecidableEq β] [LT β]
    [DecidableRel (fun a b : β => a < b)] (haystack : List β) (needle : β) (fuel : Nat) :
    ∀ lo hi, hi - lo < fuel →
      array_binary_search_loop haystack needle fuel lo hi ≠ .error .out_of_fuel := by
  induction fuel with
  | zero => intro lo hi h; omega
  | succ fuel ih =>
    intro lo hi h
    unfold array_binary_search_loop
    simp only
    split
    · simp
    · rename_i elem _
      split
      · simp
      · by_cases hlt : elem < needle
        · simp only [hlt, if_true]
          split
          · exact ih _ _ (by omega)
          · simp
        · simp only [hlt, if_false]
          split
          · exact ih _ _ (by omega)
          · simp

end BinarySearch

/-! ## The bit array and the bloom filter -/

section Bits

theorem and_shl_ne_zero (w t : Nat) : (w &&& 1 <<< t ≠ 0) ↔ w.testBit t = true := by
  rw [Nat.one_shiftLeft, Nat.and_two_pow]
  cases h : w.testBit t
  · simp
  · simp

theorem bit_array_init_eq (size : Nat) (h : size + 31 < SIZE_MOD) :
    bit_array_init size =
      ({ size_bits := (size + 31) / 32 * 32
         bit_array := some (List.replicate ((size + 31) / 32) 0) }, true) := by
  have e1 : (size + 31) % SIZE_MOD = size + 31 := Nat.mod_eq_of_lt h
  have e2 : (size + 31) / 32 * 32 % SIZE_MOD = (size + 31) / 32 * 32 := by
    apply Nat.mod_eq_of_lt
    have := Nat.div_mul_le_self (size + 31) 32
    omega
  have e3 : (size + 31) / 32 * 32 % 32 = 0 := Nat.mul_mod_left _ _
  have e4 : (size + 31) / 32 * 32 / 32 = (size + 31) / 32 := Nat.mul_div_cancel _ (by decide)
  have e5 : (size + 31) / 32 * 4 % SIZE_MOD = (size + 31) / 32 * 4 := by
    apply Nat.mod_eq_of_lt
    have := Nat.div_mul_le_self (size + 31) 32
    unfold SIZE_MOD at h ⊢
    omega
  have e6 : (size + 31) / 32 * 4 / 4 = (size + 31) / 32 := Nat.mul_div_cancel _ (by decide)
  simp only [bit_array_init, Nat.reduceMul, Nat.reduceSub, e1, e2, e3, e4, e5, e6,
    gt_iff_lt, Nat.lt_irrefl, if_false]

theorem bit_array_test_word0 (n : Nat) (w : Nat) (rest : List Nat) (k : Nat) (hk : k < 32)
    (hn : 32 ≤ n) :
    bit_array_test { size_bits := n, bit_array := some (w :: rest) } k =
      .ok (w.testBit k) := by
  have h0 : n ≠ 0 := by omega
  have hm : k % n = k := Nat.mod_eq_of_lt (by omega)
  have hd : k / n = 0 := Nat.div_eq_of_lt (by omega)
  simp only [bit_array_test, h0, if_false, hm, hd, shl_one, hk, if_true,
    List.getElem?_cons_zero]
  congr 1
  cases h : w.testBit k
  · simpa using (and_shl_ne_zero w k).not.2 (by simp [h])
  · simpa using (and_shl_ne_zero w k).2 h

theorem bit_array_set_word0 (n : Nat) (w : Nat) (rest : List Nat) (k : Nat) (hk : k < 32)
    (hn : 32 ≤ n) :
    bit_array_set { size_bits := n, bit_array := some (w :: rest) } k =
      .ok { size_bits := n, bit_array := some ((w ||| 1 <<< k) :: rest) } := by
  have h0 : n ≠ 0 := by omega
  have hm : k % n = k := Nat.mod_eq_of_lt (by omega)
  have hd : k / n = 0 := Nat.div_eq_of_lt (by omega)
  simp only [bit_array_set, h0, if_false, hm, hd, shl_one, hk, if_true,
    List.getElem?_cons_zero, List.set_cons_zero]

theorem bit_array_clear_word0 (n : Nat) (w : Nat) (rest : List Nat) (k : Nat) (hk : k < 32)
    (hn : 32 ≤ n) :
    bit_array_clear { size_bits := n, bit_array := some (w :: rest) } k =
      .ok { size_bits := n, bit_array := some ((w &&& not32 (1 <<< k)) :: rest) } := by
  have h0 : n ≠ 0 := by omega
  have hm : k % n = k := Nat.mod_eq_of_lt (by omega)
  have hd : k / n = 0 := Nat.div_eq_of_lt (by omega)
  simp only [bit_array_clear, h0, if_false, hm, hd, shl_one, hk, if_true,
    List.getElem?_cons_zero, List.set_cons_zero]

theorem testBit_set (w k j : Nat) :
    (w ||| 1 <<< k).testBit j = (w.testBit j || decide (k = j)) := by
  rw [Nat.testBit_or, Nat.one_shiftLeft, Nat.testBit_two_pow]

theorem testBit_clear (w k j : Nat) (hk : k < 32) :
    (w &&& not32 (1 <<< k)).testBit j = (w.testBit j && (decide (j < 32) && !decide (k = j))) := by
  have h : not32 (1 <<< k) = 2 ^ 32 - (2 ^ k + 1) := by
    unfold not32 UINT32_MOD
    rw [Nat.one_shiftLeft]
    omega
  have hlt : 2 ^ k < 2 ^ 32 := Nat.pow_lt_pow_right (by decide) hk
  rw [Nat.testBit_and, h, Nat.testBit_two_pow_sub_succ hlt, Nat.testBit_two_pow]

theorem shl_too_wide (n : Nat) (h : 32 ≤ n) : shl_one n = .error .shift_too_wide := by
  unfold shl_one
  rw [if_neg (by omega)]

/-- The bits below 32 of an array of at least 32 bits: after `bit_array_set` the bit tests
true, after `bit_array_clear` it tests false, and both leave the test of every other bit
below 32 as it was. -/
theorem bit_array_low_bits (n : Nat) (w : Nat) (rest : List Nat) (k j : Nat) (hk : k < 32)
    (hj : j < 32) (hn : 32 ≤ n) :
    ∃ ba1 ba2,
      bit_array_set { size_bits := n, bit_array := some (w :: rest) } k = .ok ba1 ∧
      bit_array_clear { size_bits := n, bit_array := some (w :: rest) } k = .ok ba2 ∧
      bit_array_test ba1 k = .ok true ∧ bit_array_test ba2 k = .ok false ∧
      (j ≠ k →
        bit_array_test ba1 j =
          bit_array_test { size_bits := n, bit_array := some (w :: rest) } j ∧
        bit_array_test ba2 j =
          bit_array_test { size_bits := n, bit_array := some (w :: rest) } j) := by
  refine ⟨_, _, bit_array_set_word0 n w rest k hk hn, bit_array_clear_word0 n w rest k hk hn,
    ?_, ?_, ?_⟩
  · rw [bit_array_test_word0 n _ rest k hk hn, testBit_set]
    simp
  · rw [bit_array_test_word0 n _ rest k hk hn, testBit_clear w k k hk]
    simp
  · intro hne
    have hkj : ¬ k = j := fun h => hne h.symm
    rw [bit_array_test_word0 n _ rest j hj hn, bit_array_test_word0 n _ rest j hj hn,
      bit_array_test_word0 n _ rest j hj hn, testBit_set, testBit_clear w k j hk]
    simp [hkj, hj]

end Bits
section Bloom

variable (murmur3 : List Nat → Nat → Nat)

theorem bloom_index_lt (key : List Nat) (i : Nat) : bloom_index murmur3 key 32 i < 32 :=
  Nat.mod_lt _ (by decide)

theorem bloom_hashes_32 (key : List Nat) :
    bloom_hashes murmur3 key (2 % UINT32_MOD) (32 % UINT32_MOD) (List.replicate 2 0) =
      .ok [bloom_index murmur3 key 32 0, bloom_index murmur3 key 32 1] := by
  have e2 : 2 % UINT32_MOD = 2 := by decide
  have e32 : 32 % UINT32_MOD = 32 := by decide
  have er : List.range 2 = [0, 1] := by decide
  rw [e2, e32]
  simp only [bloom_hashes, er, bloom_hashes_loop, bloom_index, List.replicate, List.length_cons,
    List.length_nil, List.set_cons_zero, List.set_cons_succ, List.length_set]
  simp

theorem bloom_filter_add_32 (w : Nat) (key : List Nat) :
    bloom_filter_add murmur3 (bloom_32 w) key =
      .ok (bloom_32 (w ||| 1 <<< bloom_index murmur3 key 32 0
        ||| 1 <<< bloom_index murmur3 key 32 1), true) := by
  have er : List.range 2 = [0, 1] := by decide
  simp only [bloom_filter_add, bloom_32, bloom_hashes_32, er, bloom_filter_add_loop,
    List.getElem?_cons_zero, List.getElem?_cons_succ,
    bit_array_set_word0 32 _ [] _ (bloom_index_lt murmur3 key _) (Nat.le_refl 32)]

theorem bloom_filter_check_32 (w : Nat) (key : List Nat) :
    bloom_filter_check murmur3 (bloom_32 w) key =
      .ok (w.testBit (bloom_index murmur3 key 32 0) && w.testBit (bloom_index murmur3 key 32 1)) := by
  have er : List.range 2 = [0, 1] := by decide
  simp only [bloom_filter_check, bloom_32, bloom_hashes_32, er, bloom_filter_check_loop,
    List.getElem?_cons_zero, List.getElem?_cons_succ,
    bit_array_test_word0 32 _ [] _ (bloom_index_lt murmur3 key _) (Nat.le_refl 32)]
  cases h0 : w.testBit (bloom_index murmur3 key 32 0)
  · simp
  · cases h1 : w.testBit (bloom_index murmur3 key 32 1) <;> simp

theorem bloom_filter_init_32 (size : Nat) (h1 : 1 ≤ size) (h32 : size ≤ 32) :
    bloom_filter_init size = (bloom_32 0, true) := by
  have hq : (size + 31) / 32 = 1 := by omega
  simp only [bloom_filter_init, bit_array_init_eq size (by unfold SIZE_MOD; omega), hq,
    bloom_32, List.replicate]

theorem bloom_filter_add_list_32 (keys : List (List Nat)) :
    ∀ w, ∃ w1, bloom_filter_add_list murmur3 (bloom_32 w) keys = .ok (bloom_32 w1) ∧
      ∀ t, w.testBit t = true → w1.testBit t = true := by
  induction keys with
  | nil => intro w; exact ⟨w, rfl, fun _ h => h⟩
  | cons key rest ih =>
    intro w
    obtain ⟨w1, e1, hmono⟩ := ih (w ||| 1 <<< bloom_index murmur3 key 32 0
        ||| 1 <<< bloom_index murmur3 key 32 1)
    refine ⟨w1, ?_, ?_⟩
    · simp only [bloom_filter_add_list, bloom_filter_add_32, e1]
    · intro t ht
      apply hmono
      simp [testBit_set, ht]

/-- With one word of 32 bits, which is what `bloom_filter_init` with a size of 1 to 32
allocates, a key that has been added is reported as a member after every later sequence of
`bloom_filter_add` calls, whatever the hash function. -/
theorem bloom_filter_no_false_negative_32 (size : Nat) (h1 : 1 ≤ size) (h32 : size ≤ 32)
    (before after : List (List Nat)) (key : List Nat) :
    ∃ bf, bloom_filter_add_list murmur3 (bloom_filter_init size).1 (before ++ key :: after)
        = .ok bf ∧
      bloom_filter_check murmur3 bf key = .ok true := by
  rw [bloom_filter_init_32 size h1 h32]
  suffices h : ∀ (before : List (List Nat)) (w : Nat), ∃ bf,
      bloom_filter_add_list murmur3 (bloom_32 w) (before ++ key :: after) = .ok bf ∧
        bloom_filter_check murmur3 bf key = .ok true from h before 0
  intro before
  induction before with
  | nil =>
    intro w
    obtain ⟨w1, e1, hmono⟩ := bloom_filter_add_list_32 murmur3 after
      (w ||| 1 <<< bloom_index murmur3 key 32 0 ||| 1 <<< bloom_index murmur3 key 32 1)
    refine ⟨bloom_32 w1, ?_, ?_⟩
    · simp only [List.nil_append, bloom_filter_add_list, bloom_filter_add_32, e1]
    · rw [bloom_filter_check_32]
      have a := hmono (bloom_index murmur3 key 32 0) (by simp [testBit_set])
      have b := hmono (bloom_index murmur3 key 32 1) (by simp [testBit_set])
      rw [a, b]
      rfl
  | cons k0 rest ih =>
    intro w
    obtain ⟨bf, e, hc⟩ := ih (w ||| 1 <<< bloom_index murmur3 k0 32 0
      ||| 1 <<< bloom_index murmur3 k0 32 1)
    refine ⟨bf, ?_, hc⟩
    simp only [List.cons_append, bloom_filter_add_list, bloom_filter_add_32]
    exact e

end Bloom

/-! ## The IPv4 conversions -/

section Net

set_option maxRecDepth 100000 in
theorem octet_digits : ∀ n, n < 256 →
    (snprintf_d 4 n).2 = Nat.toDigits 10 n ∧ 0 ≤ (snprintf_d 4 n).1 ∧
    Nat.toDigits 10 n ≠ [] ∧
    (∀ c ∈ Nat.toDigits 10 n, (c != '.') = true) ∧
    (Int.land (atoi (Nat.toDigits 10 n)) 0xFF).toNat = n := by
  decide

theorem takeWhile_token (tok rest : List Char) (h : ∀ c ∈ tok, (c != '.') = true) :
    (tok ++ '.' :: rest).takeWhile (fun c => c != '.') = tok ∧
    (tok ++ '.' :: rest).dropWhile (fun c => c != '.') = '.' :: rest := by
  induction tok with
  | nil => simp
  | cons c cs ih =>
    have hc := h c (List.mem_cons_self _ _)
    have ih := ih (fun d hd => h d (List.mem_cons_of_mem _ hd))
    simp only [List.cons_append, List.takeWhile_cons, List.dropWhile_cons, hc, if_true, ih,
      and_self]

theorem takeWhile_last (tok : List Char) (h : ∀ c ∈ tok, (c != '.') = true) :
    tok.takeWhile (fun c => c != '.') = tok ∧ tok.dropWhile (fun c => c != '.') = [] := by
  induction tok with
  | nil => simp
  | cons c cs ih =>
    have hc := h c (List.mem_cons_self _ _)
    have ih := ih (fun d hd => h d (List.mem_cons_of_mem _ hd))
    simp only [List.takeWhile_cons, List.dropWhile_cons, hc, if_true, ih, and_self]

theorem strtok_token (tok rest : List Char) (hne : tok ≠ [])
    (h : ∀ c ∈ tok, (c != '.') = true) :
    strtok (tok ++ '.' :: rest) '.' = some (tok, rest) := by
  cases tok with
  | nil => exact absurd rfl hne
  | cons c cs =>
    have hc := h c (List.mem_cons_self _ _)
    have hc1 : (c == '.') = false := by simpa using hc
    have ht := takeWhile_token (c :: cs) rest h
    simp only [List.cons_append] at ht
    simp only [strtok, List.cons_append, List.dropWhile_cons, hc1, Bool.false_eq_true,
      if_false, ht, List.drop_succ_cons, List.drop_zero]

theorem strtok_last (tok : List Char) (hne : tok ≠ []) (h : ∀ c ∈ tok, (c != '.') = true) :
    strtok tok '.' = some (tok, []) := by
  cases tok with
  | nil => exact absurd rfl hne
  | cons c cs =>
    have hc := h c (List.mem_cons_self _ _)
    have hc1 : (c == '.') = false := by simpa using hc
    have ht := takeWhile_last (c :: cs) h
    simp only [strtok, List.dropWhile_cons, hc1, Bool.false_eq_true, if_false, ht,
      List.drop_nil]

theorem strtok_nil : strtok [] '.' = none := rfl

theorem strtok_length (s token rest : List Char) (h : strtok s '.' = some (token, rest)) :
    rest.length < s.length := by
  unfold strtok at h
  have h1 := (List.dropWhile_sublist (fun c => c == '.') (l := s)).length_le
  cases hd : s.dropWhile (fun c => c == '.') with
  | nil => rw [hd] at h; cases h
  | cons c cs =>
    rw [hd] at h h1
    simp only [Option.some.injEq, Prod.mk.injEq] at h
    have h2 := (List.dropWhile_sublist (fun c => c != '.') (l := c :: cs)).length_le
    rw [← h.2, List.length_drop]
    simp only [List.length_cons] at h1 h2 ⊢
    omega

theorem ipv4_to_long_loop_mono (fuel : Nat) :
    ∀ (token rest : List Char) (long_addr v more : Nat),
      ipv4_to_long_loop fuel token rest long_addr = .ok v →
      ipv4_to_long_loop (fuel + more) token rest long_addr = .ok v := by
  induction fuel with
  | zero => intro _ _ _ _ _ h; cases h
  | succ fuel ih =>
    intro token rest long_addr v more h
    rw [Nat.add_right_comm]
    cases hs : strtok rest '.' with
    | none =>
      simp only [ipv4_to_long_loop, hs] at h ⊢
      exact h
    | some p =>
      obtain ⟨token1, rest1⟩ := p
      simp only [ipv4_to_long_loop, hs] at h ⊢
      exact ih _ _ _ _ more h

theorem ipv4_to_long_loop_fuel (fuel : Nat) :
    ∀ (token rest : List Char) (long_addr : Nat), rest.length < fuel →
      ∃ v, ipv4_to_long_loop fuel token rest long_addr = .ok v := by
  induction fuel with
  | zero => intro _ rest _ h; cases h
  | succ fuel ih =>
    intro token rest long_addr h
    cases hs : strtok rest '.' with
    | none =>
      exact ⟨long_addr <<< 8 % UINT32_MOD ||| (Int.land (atoi token) 0xFF).toNat,
        by simp only [ipv4_to_long_loop, hs]⟩
    | some p =>
      obtain ⟨token1, rest1⟩ := p
      have hl := strtok_length rest token1 rest1 hs
      obtain ⟨v, e⟩ := ih token1 rest1
        (long_addr <<< 8 % UINT32_MOD ||| (Int.land (atoi token) 0xFF).toNat) (by omega)
      exact ⟨v, by simp only [ipv4_to_long_loop, hs]; exact e⟩

/-- The loop of `net_utils_ipv4_to_long` ends within the bound the function passes: the
function returns a value for every string. -/
theorem net_utils_ipv4_to_long_returns (ip_addr : List Char) :
    ∃ v, net_utils_ipv4_to_long ip_addr = .ok v := by
  unfold net_utils_ipv4_to_long
  cases hs : strtok ip_addr '.' with
  | none => exact ⟨_, rfl⟩
  | some p =>
    obtain ⟨token, rest⟩ := p
    have hl := strtok_length ip_addr token rest hs
    exact ipv4_to_long_loop_fuel (ip_addr.length + 1) token rest 0 (by omega)

theorem shift_or_octet (v d : Nat) (hv : v < 2 ^ 24) (hd : d < 256) :
    v <<< 8 % UINT32_MOD ||| d = v * 256 + d := by
  have h1 : v <<< 8 = 2 ^ 8 * v := by rw [Nat.shiftLeft_eq, Nat.mul_comm]
  have h2 : 2 ^ 8 * v % UINT32_MOD = 2 ^ 8 * v := by
    apply Nat.mod_eq_of_lt
    unfold UINT32_MOD
    omega
  rw [h1, h2, ← Nat.mul_add_lt_is_or (by omega : d < 2 ^ 8)]
  omega

theorem octet_of_shift (x i : Nat) : (x >>> i) &&& 0xFF = x / 2 ^ i % 256 := by
  have : (0xFF : Nat) = 2 ^ 8 - 1 := by decide
  rw [this, Nat.and_pow_two_sub_one_eq_mod, Nat.shiftRight_eq_div_pow]

theorem net_utils_long_to_ipv4_eq (x : Nat) :
    net_utils_long_to_ipv4 x =
      some (Nat.toDigits 10 (x / 2 ^ 24 % 256) ++ '.' ::
        (Nat.toDigits 10 (x / 2 ^ 16 % 256) ++ '.' ::
          (Nat.toDigits 10 (x / 2 ^ 8 % 256) ++ '.' :: Nat.toDigits 10 (x % 256)))) := by
  have er : List.range 4 = [0, 1, 2, 3] := by decide
  have ha := octet_digits (x / 2 ^ 24 % 256) (Nat.mod_lt _ (by decide))
  have hb := octet_digits (x / 2 ^ 16 % 256) (Nat.mod_lt _ (by decide))
  have hc := octet_digits (x / 2 ^ 8 % 256) (Nat.mod_lt _ (by decide))
  have hd := octet_digits (x / 2 ^ 0 % 256) (Nat.mod_lt _ (by decide))
  have na := Int.not_lt.2 ha.2.1
  have nb := Int.not_lt.2 hb.2.1
  have nc := Int.not_lt.2 hc.2.1
  have nd := Int.not_lt.2 hd.2.1
  simp only [net_utils_long_to_ipv4, er, long_to_ipv4_loop, octet_of_shift, Nat.reduceMul,
    Nat.reduceSub, na, nb, nc, nd, if_false, ha.1, hb.1, hc.1, hd.1, Nat.reduceLT, if_true,
    Nat.lt_irrefl, List.nil_append, List.append_assoc, List.singleton_append,
    List.cons_append]
  simp

theorem net_utils_ipv4_round_trip (x : Nat) (hx : x < UINT32_MOD) :
    net_utils_ipv4_to_long
      (Nat.toDigits 10 (x / 2 ^ 24 % 256) ++ '.' ::
        (Nat.toDigits 10 (x / 2 ^ 16 % 256) ++ '.' ::
          (Nat.toDigits 10 (x / 2 ^ 8 % 256) ++ '.' :: Nat.toDigits 10 (x % 256)))) =
      .ok x := by
  obtain ⟨_, _, ea, pa, va⟩ := octet_digits (x / 2 ^ 24 % 256) (Nat.mod_lt _ (by decide))
  obtain ⟨_, _, eb, pb, vb⟩ := octet_digits (x / 2 ^ 16 % 256) (Nat.mod_lt _ (by decide))
  obtain ⟨_, _, ec, pc, vc⟩ := octet_digits (x / 2 ^ 8 % 256) (Nat.mod_lt _ (by decide))
  obtain ⟨_, _, ed, pd, vd⟩ := octet_digits (x % 256) (Nat.mod_lt _ (by decide))
  have s1 := strtok_token _ (Nat.toDigits 10 (x / 2 ^ 16 % 256) ++ '.' ::
        (Nat.toDigits 10 (x / 2 ^ 8 % 256) ++ '.' :: Nat.toDigits 10 (x % 256))) ea pa
  have s2 := strtok_token _ (Nat.toDigits 10 (x / 2 ^ 8 % 256) ++ '.' ::
        Nat.toDigits 10 (x % 256)) eb pb
  have s3 := strtok_token _ (Nat.toDigits 10 (x % 256)) ec pc
  have s4 := strtok_last _ ed pd
  have hl := strtok_length _ _ _ s1
  have hl2 := strtok_length _ _ _ s2
  have hl3 := strtok_length _ _ _ s3
  have oa : x / 2 ^ 24 % 256 < 256 := Nat.mod_lt _ (by decide)
  have ob : x / 2 ^ 16 % 256 < 256 := Nat.mod_lt _ (by decide)
  have oc : x / 2 ^ 8 % 256 < 256 := Nat.mod_lt _ (by decide)
  have od : x % 256 < 256 := Nat.mod_lt _ (by decide)
  have hx : x < 2 ^ 32 := hx
  have e4 : ipv4_to_long_loop 4 (Nat.toDigits 10 (x / 2 ^ 24 % 256))
      (Nat.toDigits 10 (x / 2 ^ 16 % 256) ++ '.' ::
        (Nat.toDigits 10 (x / 2 ^ 8 % 256) ++ '.' :: Nat.toDigits 10 (x % 256))) 0 = .ok x := by
    simp only [ipv4_to_long_loop, s2, s3, s4, strtok_nil, va, vb, vc, vd]
    rw [shift_or_octet 0 _ (by decide) oa, shift_or_octet _ _ (by omega) ob,
      shift_or_octet _ _ (by omega) oc, shift_or_octet _ _ (by omega) od]
    congr 1
    omega
  unfold net_utils_ipv4_to_long
  rw [s1]
  simp only []
  have hf : (Nat.toDigits 10 (x / 2 ^ 24 % 256) ++ '.' ::
        (Nat.toDigits 10 (x / 2 ^ 16 % 256) ++ '.' ::
          (Nat.toDigits 10 (x / 2 ^ 8 % 256) ++ '.' :: Nat.toDigits 10 (x % 256)))).length + 1
      = 4 + ((Nat.toDigits 10 (x / 2 ^ 24 % 256) ++ '.' ::
        (Nat.toDigits 10 (x / 2 ^ 16 % 256) ++ '.' ::
          (Nat.toDigits 10 (x / 2 ^ 8 % 256) ++ '.' :: Nat.toDigits 10 (x % 256)))).length - 3) := by
    omega
  rw [hf]
  exact ipv4_to_long_loop_mono 4 _ _ _ _ _ e4

end Net

/-! ## The placement of the entries, for every comparator and hash function -/

section Placed

variable {K V : Type}

theorem slot_of_lt_pred (ht : hash_table K V) (key : K) (h : 2 ≤ ht.index_size) :
    slot_of ht key < ht.index_size - 1 :=
  Nat.mod_lt _ (by omega)

theorem placement_of_set (key_cmp : K → K → Int) (key_hash : K → Nat → Nat)
    (ht ht' : hash_table K V) (hP : Placement key_cmp key_hash ht)
    (idx : List (Option (linked_list (hash_table_entry K V)))) (key : K)
    (c' : linked_list (hash_table_entry K V))
    (h : ht.index = some idx) (h' : ht'.index = some (idx.set (slot_of ht key) (some c')))
    (hsz : ht'.index_size = ht.index_size) (hcmp : ht'.key_cmp = ht.key_cmp)
    (hhash : ht'.key_hash = ht.key_hash) (hsize : c'.size = c'.nodes.length)
    (hplaced : ∀ e ∈ c'.nodes, slot_of ht e.key = slot_of ht key) :
    Placement key_cmp key_hash ht' := by
  have hslot : ∀ k, slot_of ht' k = slot_of ht k := by
    intro k; unfold slot_of; rw [hsz, hhash]
  obtain ⟨idx0, hidx0, hlen0⟩ := hP.has_index
  have hidx : idx0 = idx := by rw [h] at hidx0; exact (Option.some.inj hidx0).symm
  subst hidx
  have hj1 := slot_of_lt_pred ht key hP.two_le
  have hj : slot_of ht key < idx0.length := by omega
  refine ⟨hcmp.trans hP.cmp_eq, hhash.trans hP.hash_eq, hsz ▸ hP.two_le,
    ⟨_, h', by simp [hlen0, hsz]⟩, ?_, ?_, ?_⟩
  · intro idx1 i p_list hidx1 hp
    rw [h'] at hidx1
    have hidx1 := (Option.some.inj hidx1).symm
    subst hidx1
    by_cases hij : slot_of ht key = i
    · rw [← hij] at hp
      simp [hj] at hp
      subst hp
      exact hsize
    · rw [List.getElem?_set_ne hij] at hp
      exact hP.size_eq idx0 i p_list h hp
  · intro i e he
    rw [chain_at_of_set ht ht' idx0 _ c' h' h hj i] at he
    rw [hslot]
    by_cases hij : i = slot_of ht key
    · simp only [hij, if_true] at he
      rw [hij]; exact hplaced e he
    · simp only [hij, if_false] at he
      exact hP.placed i e he
  · intro idx1 hidx1
    rw [h'] at hidx1
    have hidx1 := (Option.some.inj hidx1).symm
    subst hidx1
    rw [hsz, List.getElem?_set_ne (by omega)]
    exact hP.last_null idx0 h

theorem placement_init (size : Nat) (key_cmp : K → K → Int) (key_hash : K → Nat → Nat)
    (h : 2 ≤ size) :
    Placement key_cmp key_hash (hash_table_init (V := V) size key_cmp key_hash).1 := by
  refine ⟨rfl, rfl, h, ⟨_, rfl, by simp [hash_table_init]⟩, ?_, ?_, ?_⟩
  · intro idx i p_list hidx hp
    simp only [hash_table_init, Option.some.injEq] at hidx
    subst hidx
    rw [List.getElem?_replicate] at hp
    split at hp <;> simp at hp
  · intro i e he
    rw [chain_at_init] at he
    simp at he
  · intro idx hidx
    simp only [hash_table_init, Option.some.injEq] at hidx
    subst hidx
    simp only [hash_table_init]
    rw [List.getElem?_replicate, if_pos (by omega)]

theorem placement_set_entry (key_cmp : K → K → Int) (key_hash : K → Nat → Nat)
    (ht ht' : hash_table K V) (hP : Placement key_cmp key_hash ht)
    (entry : hash_table_entry K V) (r : Bool)
    (h : hash_table_set_entry ht entry = .ok (ht', r)) :
    Placement key_cmp key_hash ht' ∧ ht'.index_size = ht.index_size := by
  obtain ⟨idx, hidx, hlen⟩ := hP.has_index
  have hlt : slot_of ht entry.key < idx.length := hlen ▸ slot_of_lt ht entry.key hP.two_le
  unfold hash_table_set_entry at h
  simp only [hidx, find_index_ok ht entry.key hP.two_le] at h
  cases hs : idx[slot_of ht entry.key]? with
  | none =>
    rw [List.getElem?_eq_none_iff] at hs
    omega
  | some s =>
    rw [hs] at h
    cases s with
    | none =>
      simp only [linked_list_init, linked_list_push_tail, List.nil_append, Except.ok.injEq,
        Prod.mk.injEq] at h
      obtain ⟨h1, _⟩ := h
      subst h1
      refine ⟨placement_of_set key_cmp key_hash ht _ hP idx entry.key
          { nodes := [entry], size := 0 + 1 } hidx rfl rfl rfl rfl (by simp) ?_, rfl⟩
      intro e he
      simp at he
      rw [he]
    | some p_list =>
      have hnodes := chain_at_eq_nodes ht idx _ p_list hidx hs
      have hsz := hP.size_eq idx _ p_list hidx hs
      have hpl := hP.placed (slot_of ht entry.key)
      rw [hnodes] at hpl
      cases hn : p_list.nodes with
      | nil => simp [hn] at h
      | cons a l =>
        simp only [hn] at h
        cases hl : set_entry_loop ht.key_cmp entry (a :: l) with
        | none =>
          simp only [hl, linked_list_push_tail, Except.ok.injEq, Prod.mk.injEq] at h
          obtain ⟨h1, _⟩ := h
          subst h1
          refine ⟨placement_of_set key_cmp key_hash ht _ hP idx entry.key
              { nodes := p_list.nodes ++ [entry], size := p_list.size + 1 } hidx rfl rfl
              rfl rfl (by simp [hsz]) ?_, rfl⟩
          intro e he
          simp only [List.mem_append, List.mem_singleton] at he
          rcases he with he | he
          · exact hpl e he
          · rw [he]
        | some nodes' =>
          obtain ⟨pre, e0, post, hp1, hp2, _, _⟩ :=
            set_entry_loop_some ht.key_cmp entry (a :: l) nodes' hl
          simp only [hl, Except.ok.injEq, Prod.mk.injEq] at h
          obtain ⟨h1, _⟩ := h
          subst h1
          rw [hn, hp1] at hpl
          refine ⟨placement_of_set key_cmp key_hash ht _ hP idx entry.key
              { p_list with nodes := nodes' } hidx rfl rfl rfl rfl ?_ ?_, rfl⟩
          · simp [hsz, hn, hp1, hp2]
          · intro e he
            simp only [hp2, List.mem_append, List.mem_cons] at he
            rcases he with he | he | he
            · exact hpl e (by simp [he])
            · rw [he]; exact hpl e0 (by simp)
            · exact hpl e (by simp [he])

theorem placement_get_entry (key_cmp : K → K → Int) (key_hash : K → Nat → Nat)
    (ht : hash_table K V) (hP : Placement key_cmp key_hash ht) (key : K) :
    (hash_table_get_entry ht key = .ok none ∧
      ∀ x ∈ chain_at ht (slot_of ht key), key_cmp x.key key ≠ 0) ∨
    (∃ idx p_list pre e0 post, ht.index = some idx ∧
      idx[slot_of ht key]? = some (some p_list) ∧ p_list.nodes = pre ++ e0 :: post ∧
      key_cmp e0.key key = 0 ∧ (∀ x ∈ pre, key_cmp x.key key ≠ 0) ∧
      hash_table_get_entry ht key =
        .ok (some { slot := slot_of ht key, pos := pre.length, entry := e0 })) := by
  obtain ⟨idx, hidx, hlen⟩ := hP.has_index
  have hlt : slot_of ht key < idx.length := hlen ▸ slot_of_lt ht key hP.two_le
  unfold hash_table_get_entry
  simp only [hidx, find_index_ok ht key hP.two_le]
  cases hs : idx[slot_of ht key]? with
  | none =>
    rw [List.getElem?_eq_none_iff] at hs
    omega
  | some s =>
    cases s with
    | none => left; simp [chain_at_eq_nil ht idx _ hidx hs]
    | some p_list =>
      have hsz := hP.size_eq idx _ p_list hidx hs
      have hnodes := chain_at_eq_nodes ht idx _ p_list hidx hs
      cases hn : p_list.nodes with
      | nil => left; simp [hsz, hn, hnodes]
      | cons a l =>
        have hne : p_list.size ≠ 0 := by simp [hsz, hn]
        simp only [hne, if_false, hP.cmp_eq, hn]
        cases hg : get_entry_loop key_cmp key (a :: l) 0 with
        | none =>
          left
          refine ⟨rfl, ?_⟩
          rw [hnodes, hn]
          exact (get_entry_loop_none key_cmp key (a :: l) 0).1 hg
        | some pe =>
          obtain ⟨pos, e⟩ := pe
          obtain ⟨pre, post, h1, h2, h3, h4⟩ := get_entry_loop_some key_cmp key (a :: l) 0 pos e hg
          right
          refine ⟨idx, p_list, pre, e, post, rfl, hs, by rw [hn, ← h1], h3, h4, ?_⟩
          simp [h2]

theorem placement_set (key_cmp : K → K → Int) (key_hash : K → Nat → Nat)
    (ht ht' : hash_table K V) (hP : Placement key_cmp key_hash ht)
    (key : K) (value : Option V) (r : Bool)
    (h : hash_table_set ht key value = .ok (ht', r)) :
    Placement key_cmp key_hash ht' ∧ ht'.index_size = ht.index_size := by
  unfold hash_table_set at h
  rcases placement_get_entry key_cmp key_hash ht hP key with
    ⟨hg, _⟩ | ⟨idx, p_list, pre, e0, post, hidx, hs, hn, h0, hpre, hg⟩
  · rw [hg] at h
    exact placement_set_entry key_cmp key_hash ht ht' hP _ r h
  · rw [hg] at h
    have hnodes := chain_at_eq_nodes ht idx _ p_list hidx hs
    have hsz := hP.size_eq idx _ p_list hidx hs
    have hset : List.set (pre ++ e0 :: post) pre.length { e0 with value := value } =
        pre ++ { e0 with value := value } :: post := by
      simp
    simp only [entry_ptr_set_value, hidx, hs, hn, hset, Except.ok.injEq, Prod.mk.injEq] at h
    obtain ⟨h1, _⟩ := h
    subst h1
    have hpl := hP.placed (slot_of ht key)
    rw [hnodes, hn] at hpl
    refine ⟨placement_of_set key_cmp key_hash ht _ hP idx key
        { p_list with nodes := pre ++ { e0 with value := value } :: post } hidx rfl rfl rfl rfl
        ?_ ?_, rfl⟩
    · simp [hsz, hn]
    · intro e he
      simp only [List.mem_append, List.mem_cons] at he
      rcases he with he | he | he
      · exact hpl e (by simp [he])
      · rw [he]; exact hpl e0 (by simp)
      · exact hpl e (by simp [he])

theorem placement_del (key_cmp : K → K → Int) (key_hash : K → Nat → Nat)
    (ht ht' : hash_table K V) (hP : Placement key_cmp key_hash ht) (key : K) (r : Bool)
    (h : hash_table_del_stale ht key = .ok (ht', r)) :
    Placement key_cmp key_hash ht' ∧ ht'.index_size = ht.index_size := by
  obtain ⟨idx, hidx, hlen⟩ := hP.has_index
  have hlt : slot_of ht key < idx.length := hlen ▸ slot_of_lt ht key hP.two_le
  unfold hash_table_del_stale at h
  simp only [hidx, find_index_ok ht key hP.two_le] at h
  cases hs : idx[slot_of ht key]? with
  | none =>
    rw [List.getElem?_eq_none_iff] at hs
    omega
  | some s =>
    rw [hs] at h
    cases s with
    | none =>
      simp only [Except.ok.injEq, Prod.mk.injEq] at h
      rw [← h.1]
      exact ⟨hP, rfl⟩
    | some p_list =>
      have hsz := hP.size_eq idx _ p_list hidx hs
      have hnodes := chain_at_eq_nodes ht idx _ p_list hidx hs
      simp only [] at h
      by_cases hz : p_list.size = 0
      · simp only [hz, if_true, Except.ok.injEq, Prod.mk.injEq] at h
        rw [← h.1]
        exact ⟨hP, rfl⟩
      · simp only [hz, if_false] at h
        cases hg : get_entry_loop ht.key_cmp key p_list.nodes 0 with
        | none =>
          have hno := (get_entry_loop_none ht.key_cmp key p_list.nodes 0).1 hg
          rw [hash_table_del_stale_loop_no_match ht.key_cmp key p_list p_list.nodes 0 0 hno] at h
          simp only [Nat.sub_zero, Except.ok.injEq, Prod.mk.injEq] at h
          rw [set_eq_self_of_getElem? idx _ _ hs, ← hidx] at h
          rw [← h.1]
          exact ⟨hP, rfl⟩
        | some pe =>
          obtain ⟨pos, e0⟩ := pe
          obtain ⟨pre, post, h1, _, h3, h4⟩ :=
            get_entry_loop_some ht.key_cmp key p_list.nodes 0 pos e0 hg
          have hl := hash_table_del_stale_loop_match ht.key_cmp key p_list [] pre post e0 0
            (by simpa using h1) h3 h4
          rw [h1] at h
          simp only [List.length_nil, List.nil_append, Nat.zero_add] at hl
          rw [hl] at h
          simp only [Except.ok.injEq, Prod.mk.injEq] at h
          obtain ⟨e1, _⟩ := h
          subst e1
          have hpl := hP.placed (slot_of ht key)
          rw [hnodes, h1] at hpl
          refine ⟨placement_of_set key_cmp key_hash ht _ hP idx key
              { nodes := pre ++ post, size := p_list.size - 1 } hidx rfl rfl rfl rfl ?_ ?_, rfl⟩
          · simp [hsz, h1]
          · intro e he
            simp only [List.mem_append] at he
            rcases he with he | he
            · exact hpl e (by simp [he])
            · exact hpl e (by simp [he])

theorem placement_rehash_chain (key_cmp : K → K → Int) (key_hash : K → Nat → Nat)
    (L : List (hash_table_entry K V)) :
    ∀ (T T' : hash_table K V) (r : Bool), Placement key_cmp key_hash T →
      hash_table_rehash_chain T L = .ok (T', r) →
      Placement key_cmp key_hash T' ∧ T'.index_size = T.index_size := by
  induction L with
  | nil =>
    intro T T' r hP h
    simp only [hash_table_rehash_chain, Except.ok.injEq, Prod.mk.injEq] at h
    rw [← h.1]
    exact ⟨hP, rfl⟩
  | cons e rest ih =>
    intro T T' r hP h
    simp only [hash_table_rehash_chain] at h
    cases hs : hash_table_set_entry T e with
    | error f => rw [hs] at h; cases h
    | ok p =>
      obtain ⟨T1, r1⟩ := p
      obtain ⟨hP1, hsz1⟩ := placement_set_entry key_cmp key_hash T T1 hP e r1 hs
      rw [hs] at h
      cases r1 with
      | false =>
        simp only [Except.ok.injEq, Prod.mk.injEq] at h
        rw [← h.1]
        exact ⟨hP1, hsz1⟩
      | true =>
        simp only [] at h
        obtain ⟨hP2, hsz2⟩ := ih T1 T' r hP1 h
        exact ⟨hP2, hsz2.trans hsz1⟩

theorem placement_rehash (key_cmp : K → K → Int) (key_hash : K → Nat → Nat)
    (ht ht' : hash_table K V) (hP : Placement key_cmp key_hash ht) (new_size : Nat)
    (hn : 2 ≤ new_size) (r : Bool) (h : hash_table_rehash ht new_size = .ok (ht', r)) :
    Placement key_cmp key_hash ht' ∧ ht'.index_size = new_size := by
  obtain ⟨idx, hidx, hlen⟩ := hP.has_index
  have hT : Placement key_cmp key_hash
      ({ ht with index := some (List.replicate new_size none), index_size := new_size } :
        hash_table K V) := by
    have := placement_init (V := V) new_size ht.key_cmp ht.key_hash hn
    exact ⟨hP.cmp_eq, hP.hash_eq, hn, this.has_index, this.size_eq, this.placed,
      this.last_null⟩
  unfold hash_table_rehash at h
  simp only [hidx, hlen, Nat.lt_irrefl, if_false] at h
  rw [hash_table_rehash_index_eq] at h
  exact placement_rehash_chain key_cmp key_hash _ _ ht' r hT h

theorem reachable_placement (key_cmp : K → K → Int) (key_hash : K → Nat → Nat)
    (ht : hash_table K V) (h : Reachable key_cmp key_hash ht) :
    Placement key_cmp key_hash ht := by
  induction h with
  | init size h => exact placement_init size key_cmp key_hash h
  | set key value _ hs ih => exact (placement_set key_cmp key_hash _ _ ih key value _ hs).1
  | set_entry entry _ hs ih => exact (placement_set_entry key_cmp key_hash _ _ ih entry _ hs).1
  | del key _ hs ih => exact (placement_del key_cmp key_hash _ _ ih key _ hs).1
  | rehash new_size h _ hs ih =>
    exact (placement_rehash key_cmp key_hash _ _ ih new_size h _ hs).1

end Placed

/-! ## The heap order in the terms of the parent index, and the slot left by a pop -/

section HeapOrder

variable {α : Type} {value_cmp : Option α → Option α → Int}

theorem parentOrder_of_inv {type : heap_type} {h : heap α} (hI : HeapInv type value_cmp h) :
    ParentOrder type value_cmp h := by
  obtain ⟨n, s, c, a, rfl, _, _, _, _, hord⟩ := heapInv_cases hI
  intro i hi hin
  exact hord i hi hin

theorem heap_pop_stale (hP : CmpPreorder value_cmp) {type : heap_type} {h : heap α}
    (hI : HeapInv type value_cmp h) (h2 : 2 ≤ h.size) :
    ∃ x h1 t, heap_pop h = .ok (h1, some x) ∧ h1.size + 1 = h.size ∧
      heap_cell h (h.size - 1) = some t ∧ heap_cell h1 h1.size = some t := by
  obtain ⟨n0, s, c, a, rfl, hns, hsa, hc, hlive, hord⟩ := heapInv_cases hI
  simp only at h2
  obtain ⟨n, rfl⟩ : ∃ n, n0 = n + 1 := ⟨n0 - 1, by omega⟩
  obtain ⟨x, hx⟩ := hlive 0 (by omega)
  have hs0 : s ≠ 0 := by omega
  have hn : n ≠ 0 := by omega
  have hhead : array_list_head (⟨s, c, some a⟩ : array_list α) = .ok (some x) := by
    have h0 : 0 < a.length := by omega
    simp only [array_list_head, hs0, if_false, array_load, List.getElem?_eq_getElem h0]
    simp only [cell, List.getElem?_eq_getElem h0, Option.getD_some] at hx
    rw [hx]
  obtain ⟨T, hT⟩ := hlive n (by omega)
  have e2 : cell (a.set 0 (some T)) = Function.update (cell a) 0 (some T) :=
    cell_set _ _ _ (by omega)
  obtain ⟨a1, e1, p1, p2, p3, p4, p5⟩ := heapify_down_spec hP type n s c (by omega) T
    (n + 1) 0 (a.set 0 (some T)) (by omega) (by omega) (by simpa using hsa)
    (by
      intro i hi
      rw [e2]
      by_cases h0 : i = 0
      · exact ⟨T, by rw [h0, Function.update_same]⟩
      · rw [Function.update_noteq h0]
        exact hlive i (by omega))
    (by rw [e2, Function.update_noteq hn, hT])
    (by rw [e2, Function.update_same])
    (by
      refine ⟨?_, ?_⟩
      · intro i hi hin hp
        rw [e2, Function.update_noteq hp, Function.update_noteq (by omega)]
        exact hord i hi (by omega)
      · intro i _ _ _ h0
        omega)
  refine ⟨x, ⟨type, n, ⟨s, c, some a1⟩, value_cmp⟩, T, ?_, rfl, ?_, ?_⟩
  · unfold heap_pop
    simp only [Nat.succ_ne_zero, if_false, hhead, Nat.add_sub_cancel, hn]
    rw [array_list_get_at_lt s c a n (by omega) hsa, hT]
    simp only
    rw [array_list_set_at_lt s c a 0 (some T) (by omega) hsa]
    simp only
    rw [e1]
  · show cell a (n + 1 - 1) = some T
    rw [Nat.add_sub_cancel, hT]
  · show cell a1 n = some T
    rw [p5 n (Nat.le_refl n), e2, Function.update_noteq hn, hT]

end HeapOrder

/-! ## The delete and the released node -/

section Del

variable {K V : Type}

theorem hash_table_del_loop_eq (key_cmp : K → K → Int) (key : K)
    (p_list : linked_list (hash_table_entry K V)) (rest : List (hash_table_entry K V)) :
    ∀ i d, hash_table_del_loop key_cmp key p_list rest i d =
      match hash_table_del_stale_loop key_cmp key p_list rest i d with
      | none => .ok none
      | some (p_list', d') =>
        if d' = d then .ok (some (p_list', d')) else .error .use_after_free := by
  induction rest with
  | nil =>
    intro i d
    simp [hash_table_del_loop, hash_table_del_stale_loop]
  | cons a l ih =>
    intro i d
    by_cases ha : key_cmp a.key key = 0
    · simp only [hash_table_del_loop, hash_table_del_stale_loop, ha, if_true]
      cases hd : linked_list_del_at p_list i with
      | mk p' r => cases r <;> simp
    · simp only [hash_table_del_loop, hash_table_del_stale_loop, ha, if_false]
      exact ih (i + 1) d

/-- The function `hash_table_del` and the run with the stale read agree on every call that
releases no node; a call that releases a node is the fault `use_after_free`. -/
theorem hash_table_del_eq (ht : hash_table K V) (key : K) :
    hash_table_del ht key =
      match hash_table_del_stale ht key with
      | .error f => .error f
      | .ok (ht', false) => .ok (ht', false)
      | .ok (_, true) => .error .use_after_free := by
  unfold hash_table_del hash_table_del_stale
  cases hidx : ht.index with
  | none => rfl
  | some idx =>
    simp only []
    cases hf : find_index ht key with
    | error f => rfl
    | ok index =>
      simp only []
      cases hs : idx[index]? with
      | none => rfl
      | some sl =>
        cases sl with
        | none => rfl
        | some p_list =>
          simp only []
          by_cases hz : p_list.size = 0
          · simp only [hz, if_true]
          · simp only [hz, if_false]
            rw [hash_table_del_loop_eq]
            cases hl : hash_table_del_stale_loop ht.key_cmp key p_list p_list.nodes 0 0 with
            | none => rfl
            | some pd =>
              obtain ⟨p', d'⟩ := pd
              by_cases hd : d' = 0
              · subst hd
                simp
              · have hpos : d' > 0 := Nat.pos_of_ne_zero hd
                simp [hd, hpos]

/-- In a state with the invariant, `hash_table_del` of a key that an entry of its chain
compares equal to releases the node of the first such entry and then reads the released
node. -/
theorem hash_table_del_stored (key_cmp : K → K → Int) (key_hash : K → Nat → Nat)
    (ht : hash_table K V) (hI : Inv key_cmp key_hash ht) (key : K)
    (x : hash_table_entry K V) (hx : x ∈ chain_at ht (slot_of ht key))
    (h0 : key_cmp x.key key = 0) :
    hash_table_del ht key = .error .use_after_free := by
  obtain ⟨ht2, r2, h2, hcase⟩ := hash_table_del_stale_spec key_cmp key_hash ht hI key
  rw [hash_table_del_eq, h2]
  rcases hcase with ⟨_, _, hno⟩ | ⟨hr, _⟩
  · exact absurd h0 (hno x hx)
  · rw [hr]

end Del

/-! ## The list that `array_list_init` makes -/

section ArrayListInit

theorem array_list_init_wf {α : Type} (capacity : Nat) (h : capacity * 8 < SIZE_MOD) :
    ∃ lst0 : array_list α, array_list_init capacity = (lst0, true) ∧ ArrayListWF lst0 ∧
      lst0.capacity = capacity ∧ lst0.size = 0 := by
  refine ⟨_, array_list_init_eq capacity h, ⟨Nat.zero_le _, ?_⟩, rfl, rfl⟩
  simp

end ArrayListInit

/-! ## The claims -/

section Claims

variable {K V : Type}

theorem value_cmp_int_eq_zero (a b : Option Int) : value_cmp_int a b = 0 ↔ a = b := by
  cases a with
  | none => cases b <;> simp [value_cmp_int]
  | some x =>
    cases b with
    | none => simp [value_cmp_int]
    | some y =>
      by_cases hxy : x = y
      · simp [value_cmp_int, hxy]
      · by_cases hlt : x > y
        · simp [value_cmp_int, hxy, hlt]
        · simp [value_cmp_int, hxy, hlt]

theorem consistent_value_cmp_int : ConsistentKeys value_cmp_int int_key_hash := by
  refine ⟨?_, ?_, ?_, ?_⟩
  · intro a
    exact (value_cmp_int_eq_zero a a).2 rfl
  · intro a b h
    exact (value_cmp_int_eq_zero b a).2 ((value_cmp_int_eq_zero a b).1 h).symm
  · intro a b c h1 h2
    exact (value_cmp_int_eq_zero a c).2
      (((value_cmp_int_eq_zero a b).1 h1).trans ((value_cmp_int_eq_zero b c).1 h2))
  · intro a b n h
    rw [(value_cmp_int_eq_zero a b).1 h]

theorem example_table_one_reachable :
    Reachable value_cmp_int int_key_hash example_table_one :=
  Reachable.set (some 1) (some 10) (Reachable.init 2 (by decide))
    (rfl : hash_table_set (hash_table_init 2 value_cmp_int int_key_hash).1 (some 1) (some 10) =
      .ok (example_table_one, true))

theorem example_table_reachable : Reachable value_cmp_int int_key_hash example_table :=
  Reachable.set (some 4) (some 40) example_table_one_reachable
    (rfl : hash_table_set example_table_one (some 4) (some 40) = .ok (example_table, true))

/-- C1: on a table freshly built by `hash_table_init` with `size >= 2`, for a comparator that
is an equivalence and a hash function that agrees on keys comparing equal, every call of a
finite sequence of `hash_table_set` calls returns `true`, and afterwards `hash_table_get`
of a key is the value passed to the last call whose key compares equal to it, and `NULL`
when no call of the sequence had such a key. -/
theorem C1_get_after_sets (key_cmp : K → K → Int) (key_hash : K → Nat → Nat)
    (hK : ConsistentKeys key_cmp key_hash) (size : Nat) (hsize : 2 ≤ size)
    (sets : List (K × Option V)) :
    ∃ ht', hash_table_set_seq (hash_table_init size key_cmp key_hash).1 sets =
        .ok (ht', List.replicate sets.length true) ∧
      (∀ key pre k0 v post, sets = pre ++ (k0, v) :: post → key_cmp k0 key = 0 →
        (∀ p ∈ post, key_cmp p.1 key ≠ 0) → hash_table_get ht' key = .ok v) ∧
      (∀ key, (∀ p ∈ sets, key_cmp p.1 key ≠ 0) → hash_table_get ht' key = .ok none) := by
  obtain ⟨ht', hrun, hI', _, _, hA, hB⟩ :=
    hash_table_set_seq_spec key_cmp key_hash hK sets
      (hash_table_init size key_cmp key_hash).1 (Inv_init size key_cmp key_hash hsize)
      (NoEmptyChain_init size key_cmp key_hash)
  refine ⟨ht', hrun, hA, ?_⟩
  intro key hall
  rw [hB key hall]
  apply hash_table_get_of_not_mem key_cmp key_hash _ (Inv_init size key_cmp key_hash hsize)
  intro e he
  rw [chain_at_init] at he
  simp at he

/-- Witness of C1: three `hash_table_set` calls with `int` keys on a fresh table of 4 slots,
the key 1 being set twice. -/
theorem C1_get_after_sets_witness :
    ConsistentKeys value_cmp_int int_key_hash ∧ 2 ≤ 4 ∧
    ∃ ht' : hash_table (Option Int) Nat,
      hash_table_set_seq (hash_table_init 4 value_cmp_int int_key_hash).1
          [(some 1, some 10), (some 4, some 40), (some 1, some 11)] =
        .ok (ht', List.replicate 3 true) ∧
      (∀ key pre k0 v post,
        [(some 1, some 10), (some 4, some 40), (some 1, some 11)] = pre ++ (k0, v) :: post →
        value_cmp_int k0 key = 0 →
        (∀ p ∈ post, value_cmp_int p.1 key ≠ 0) → hash_table_get ht' key = .ok v) ∧
      (∀ key, (∀ p ∈ [((some 1 : Option Int), some 10), (some 4, some 40), (some 1, some 11)],
        value_cmp_int p.1 key ≠ 0) → hash_table_get ht' key = .ok none) :=
  ⟨consistent_value_cmp_int, by decide,
    C1_get_after_sets value_cmp_int int_key_hash consistent_value_cmp_int 4 (by decide)
      [(some 1, some 10), (some 4, some 40), (some 1, some 11)]⟩

/-- C2: on a table freshly built by `hash_table_init` with `size >= 2` (comparator an
equivalence, hash function consistent with it), after every finite sequence of
`hash_table_set` calls, the empty one included, `hash_table_size` is the number of distinct
keys of the sequence, however often each key was set. -/
theorem C2_size_after_sets (key_cmp : K → K → Int) (key_hash : K → Nat → Nat)
    (hK : ConsistentKeys key_cmp key_hash) (size : Nat) (hsize : 2 ≤ size)
    (sets : List (K × Option V)) :
    ∃ ht', hash_table_set_seq (hash_table_init size key_cmp key_hash).1 sets =
        .ok (ht', List.replicate sets.length true) ∧
      hash_table_size ht' = distinct_keys key_cmp (sets.map Prod.fst) := by
  obtain ⟨ht', hrun, hes⟩ :=
    hash_table_set_seq_size key_cmp key_hash hK sets
      (hash_table_init size key_cmp key_hash).1 [] (Inv_init size key_cmp key_hash hsize)
      (NoEmptyChain_init size key_cmp key_hash)
      ⟨fun x hx => absurd hx (stored_init size key_cmp key_hash x), by simp⟩
  refine ⟨ht', hrun, ?_⟩
  unfold hash_table_size
  rw [hes]
  simp only [hash_table_init, Nat.zero_add]
  rfl

/-- Witness of C2: four `hash_table_set` calls on three distinct `int` keys. -/
theorem C2_size_after_sets_witness :
    ConsistentKeys value_cmp_int int_key_hash ∧ 2 ≤ 4 ∧
    ∃ ht' : hash_table (Option Int) Nat,
      hash_table_set_seq (hash_table_init 4 value_cmp_int int_key_hash).1
          [(some 1, some 10), (some 4, some 40), (some 1, some 11), (some 2, none)] =
        .ok (ht', List.replicate 4 true) ∧
      hash_table_size ht' = 3 :=
  ⟨consistent_value_cmp_int, by decide,
    C2_size_after_sets value_cmp_int int_key_hash consistent_value_cmp_int 4 (by decide)
      [(some 1, some 10), (some 4, some 40), (some 1, some 11), (some 2, none)]⟩

/-- C4, evaluated on the scenario of `test_hash_table_rehash`: after `hash_table_init` with
size 2 and one `hash_table_set`, `hash_table_size` is 1; `hash_table_rehash` to size 3
returns `true` and `hash_table_size` is then 2, while one entry is stored. -/
theorem C4_rehash_changes_size :
    ∃ ht1 ht2 : hash_table (Option Int) Nat,
      hash_table_set (hash_table_init 2 value_cmp_int int_key_hash).1 (some 1) (some 10) =
        .ok (ht1, true) ∧
      hash_table_rehash ht1 3 = .ok (ht2, true) ∧
      hash_table_size ht1 = 1 ∧ hash_table_size ht2 = 2 ∧ (entries ht2).length = 1 :=
  ⟨_, _, rfl, rfl, rfl, rfl, rfl⟩

/-- C5, on the code: in every state reachable from `hash_table_init` (size at least 2,
consistent comparator and hash function) by set, delete and rehash calls, `hash_table_del`
of a key that a stored entry's key compares equal to unlinks and releases the node of the
entry and then reads `p_curr->next` of the released node: no call of `hash_table_del` that
removes an entry returns without a read of released memory. -/
theorem C5_del_reads_released_node (key_cmp : K → K → Int) (key_hash : K → Nat → Nat)
    (hK : ConsistentKeys key_cmp key_hash) (ht : hash_table K V)
    (hR : Reachable key_cmp key_hash ht) (key : K) (x : hash_table_entry K V)
    (hx : x ∈ entries ht) (h0 : key_cmp x.key key = 0) :
    hash_table_del ht key = .error .use_after_free := by
  have hI := Reachable.inv key_cmp key_hash hK ht hR
  obtain ⟨i, hi⟩ := (mem_entries ht x).1 hx
  have hslot : slot_of ht key = i := by
    rw [← hI.placed i x hi]
    unfold slot_of
    rw [hI.hash_eq, hK.hash_eq x.key key ht.index_size h0]
  exact hash_table_del_stored key_cmp key_hash ht hI key x (hslot ▸ hi) h0

/-- Witness of C5: `hash_table_del` of the key 1 in a reachable table that holds the keys 1
and 4. -/
theorem C5_del_reads_released_node_witness :
    ConsistentKeys value_cmp_int int_key_hash ∧
    Reachable value_cmp_int int_key_hash example_table ∧
    ({ key := some 1, value := some 10, must_destroy := 0 } :
      hash_table_entry (Option Int) Nat) ∈ entries example_table ∧
    value_cmp_int (some 1) (some 1) = 0 ∧
    hash_table_del example_table (some 1) = .error .use_after_free :=
  have hx : ({ key := some 1, value := some 10, must_destroy := 0 } :
      hash_table_entry (Option Int) Nat) ∈ entries example_table := by
    simp [entries, example_table, slot_nodes]
  ⟨consistent_value_cmp_int, example_table_reachable, hx, rfl,
    C5_del_reads_released_node value_cmp_int int_key_hash consistent_value_cmp_int
      example_table example_table_reachable (some 1) _ hx rfl⟩

/-- Where the read of the released node yields the `nullptr` last written to it, a call of
`hash_table_del` that returns `true` in a reachable state leaves a table in which
`hash_table_get` of the key returns `NULL` and `hash_table_size` is one less. -/
theorem del_stale_removes_one (key_cmp : K → K → Int) (key_hash : K → Nat → Nat)
    (hK : ConsistentKeys key_cmp key_hash) (ht ht' : hash_table K V)
    (hR : Reachable key_cmp key_hash ht) (key : K)
    (hdel : hash_table_del_stale ht key = .ok (ht', true)) :
    hash_table_get ht' key = .ok none ∧ hash_table_size ht' + 1 = hash_table_size ht ∧
      (entries ht').length + 1 = (entries ht).length := by
  have hI := Reachable.inv key_cmp key_hash hK ht hR
  have hcount := Reachable.count key_cmp key_hash hK ht hR
  obtain ⟨ht2, r2, h2, hcase⟩ := hash_table_del_stale_spec key_cmp key_hash ht hI key
  rw [hdel] at h2
  simp only [Except.ok.injEq, Prod.mk.injEq] at h2
  obtain ⟨rfl, rfl⟩ := h2
  rcases hcase with ⟨hr, _⟩ | ⟨_, hI', hsz, pre, e0, post, h1, h0, hpre, hch, hes⟩
  · cases hr
  · have hlen := entries_length_of_update key_cmp key_hash ht ht' hI hI' hsz _
      (slot_of_lt ht key hI.two_le) _ hch
    rw [h1] at hlen
    simp only [List.length_append, List.length_cons] at hlen
    refine ⟨get_del_same key_cmp key_hash hK ht ht' hI hI' hsz key pre post e0 h1 h0 hpre hch,
      ?_, by omega⟩
    unfold hash_table_size
    rw [hes]
    omega

/-- C6, evaluated: on a fresh table of 2 slots, `hash_table_set` of a key returns `true`;
`hash_table_del` of that key releases the node and reads it; where that read yields the
`nullptr` last written the call returns `true` and leaves the chain allocated and empty, and
the next `hash_table_set` of the key reads `p_curr->value` with `p_curr == NULL`, the head
of the emptied chain. -/
theorem C6_set_after_del_null_deref :
    ∃ ht1 ht2 : hash_table (Option Int) Nat,
      hash_table_set (hash_table_init 2 value_cmp_int int_key_hash).1 (some 1) (some 10) =
        .ok (ht1, true) ∧
      hash_table_del ht1 (some 1) = .error .use_after_free ∧
      hash_table_del_stale ht1 (some 1) = .ok (ht2, true) ∧
      hash_table_set ht2 (some 1) (some 11) = .error .null_deref :=
  ⟨_, _, rfl, rfl, rfl, rfl⟩

/-- C7, evaluated: after `hash_table_init` with size 2, one `hash_table_set` and a
`hash_table_rehash` to size 3, all returning `true`, `entry_size` is 2 while the chains hold
one entry in total and `hash_table_keys` and `hash_table_values` produce and return one
item. -/
theorem C7_entry_size_after_rehash :
    ∃ ht1 ht2 : hash_table (Option Int) Nat,
      hash_table_set (hash_table_init 2 value_cmp_int int_key_hash).1 (some 1) (some 10) =
        .ok (ht1, true) ∧
      hash_table_rehash ht1 3 = .ok (ht2, true) ∧
      hash_table_size ht2 = 2 ∧ (entries ht2).length = 1 ∧
      (hash_table_keys ht2 (fun _ => none)).map Prod.snd = .ok 1 ∧
      (hash_table_values ht2 (fun _ => none)).map Prod.snd = .ok 1 :=
  ⟨_, _, rfl, rfl, rfl, rfl, rfl, rfl⟩

/-- C8: in every state reachable from `hash_table_init` (size at least 2, comparator an
equivalence, hash function equal on keys that compare equal for every index size) by
`hash_table_set`, `hash_table_set_entry`, `hash_table_del` and `hash_table_rehash` calls, no
two stored entries have keys that compare equal. -/
theorem C8_unique_keys (key_cmp : K → K → Int) (key_hash : K → Nat → Nat)
    (hK : ConsistentKeys key_cmp key_hash) (ht : hash_table K V)
    (hR : Reachable key_cmp key_hash ht) :
    (entries ht).Pairwise (fun a b => key_cmp a.key b.key ≠ 0) :=
  entries_pairwise key_cmp key_hash hK ht (Reachable.inv key_cmp key_hash hK ht hR)

/-- Witness of C8: a reachable table that holds two entries. -/
theorem C8_unique_keys_witness :
    ConsistentKeys value_cmp_int int_key_hash ∧
    Reachable value_cmp_int int_key_hash example_table ∧
    (entries example_table).Pairwise (fun a b => value_cmp_int a.key b.key ≠ 0) :=
  ⟨consistent_value_cmp_int, example_table_reachable,
    C8_unique_keys value_cmp_int int_key_hash consistent_value_cmp_int example_table
      example_table_reachable⟩

/-- C10, on the code: in the reachable table whose chain holds the keys 1 and 4, with
`hash_table_get` of both defined, `hash_table_del` of the key 1, the head of the chain, and
`hash_table_del` of the key 4, its tail, each release the node and then read
`p_curr->next` of the released node: there is no defined state after the call in which the
other key could be looked up. -/
theorem C10_del_no_state_after :
    Reachable value_cmp_int int_key_hash example_table ∧
    hash_table_get example_table (some 1) = .ok (some 10) ∧
    hash_table_get example_table (some 4) = .ok (some 40) ∧
    hash_table_del example_table (some 1) = .error .use_after_free ∧
    hash_table_del example_table (some 4) = .error .use_after_free :=
  ⟨example_table_reachable, rfl, rfl, rfl, rfl⟩

/-- Where the read of the released node yields the `nullptr` last written to it, a call of
`hash_table_del` in a reachable state leaves `hash_table_get` of every key that does not
compare equal to the deleted key unchanged. -/
theorem del_stale_frame (key_cmp : K → K → Int) (key_hash : K → Nat → Nat)
    (hK : ConsistentKeys key_cmp key_hash) (ht ht' : hash_table K V)
    (hR : Reachable key_cmp key_hash ht) (key key' : K) (r : Bool)
    (hdel : hash_table_del_stale ht key = .ok (ht', r))
    (hne : key_cmp key' key ≠ 0) :
    hash_table_get ht' key' = hash_table_get ht key' := by
  have hI := Reachable.inv key_cmp key_hash hK ht hR
  obtain ⟨ht2, r2, h2, hcase⟩ := hash_table_del_stale_spec key_cmp key_hash ht hI key
  rw [hdel] at h2
  simp only [Except.ok.injEq, Prod.mk.injEq] at h2
  obtain ⟨rfl, rfl⟩ := h2
  rcases hcase with ⟨_, he, _⟩ | ⟨_, hI', hsz, pre, e0, post, h1, h0, _, hch, _⟩
  · rw [he]
  · exact get_del_other key_cmp key_hash hK ht ht' hI hI' hsz key key' pre post e0 h1 h0 hch hne

theorem destroyed_operations (ht : hash_table K V) (hnull : ht.index = none) :
    (∀ key value, hash_table_set ht key value = .ok (ht, false)) ∧
    (∀ entry, hash_table_set_entry ht entry = .ok (ht, false)) ∧
    (∀ key, hash_table_del ht key = .ok (ht, false)) ∧
    (∀ (σ : Type) (iter_func : hash_table_entry K V → Nat → σ → σ) (arg : σ),
      hash_table_iter ht iter_func arg = .ok (arg, false)) ∧
    hash_table_destroy ht = .ok (ht, false) ∧
    (∀ keys, hash_table_keys ht keys = .ok (keys, SIZE_MOD - 1)) ∧
    (∀ values, hash_table_values ht values = .ok (values, SIZE_MOD - 1)) ∧
    (∀ new_size, ht.index_size ≠ 0 → hash_table_rehash ht new_size = .error .null_deref) := by
  refine ⟨?_, ?_, ?_, ?_, ?_, ?_, ?_, ?_⟩
  · intro key value
    simp [hash_table_set, hash_table_get_entry, hash_table_set_entry, hnull]
  · intro entry
    simp [hash_table_set_entry, hnull]
  · intro key
    simp [hash_table_del, hnull]
  · intro σ iter_func arg
    simp [hash_table_iter, hnull]
  · simp [hash_table_destroy, hnull]
  · intro keys
    simp [hash_table_keys, hash_table_iter, hnull]
  · intro values
    simp [hash_table_values, hash_table_iter, hnull]
  · intro new_size hsz
    simp [hash_table_rehash, hnull, hsz]

/-- C16, evaluated: after `hash_table_init` with size 2 and `hash_table_destroy`, which
returns `true`, `hash_table_rehash` to size 3 reads `old_index[0]` with `old_index == NULL`,
where the other operations return `false` or `-1`. -/
theorem C16_rehash_destroyed_null_deref :
    ∃ ht : hash_table (Option Int) Nat,
      hash_table_destroy (hash_table_init 2 value_cmp_int int_key_hash).1 = .ok (ht, true) ∧
      hash_table_rehash ht 3 = .error .null_deref ∧
      hash_table_set ht (some 1) (some 10) = .ok (ht, false) ∧
      hash_table_del ht (some 1) = .ok (ht, false) ∧
      hash_table_destroy ht = .ok (ht, false) :=
  ⟨_, rfl, rfl, rfl, rfl, rfl⟩

/-- Counterexample to C17: `hash_table_init` with size 1 and with size 0 returns `true`. -/
theorem C17_init_accepts_small :
    (hash_table_init 1 value_cmp_int int_key_hash : hash_table (Option Int) Nat × Bool).2 = true ∧
    (hash_table_init 0 value_cmp_int int_key_hash : hash_table (Option Int) Nat × Bool).2 = true :=
  ⟨rfl, rfl⟩

/-- C17 as amended: `hash_table_init` makes no check of the bucket count.  For every size,
0 and 1 included, it returns `true` and builds a table of `size` empty slots with
`index_size = size`; a size of at least 2 is a precondition of the operations that follow:
on the table built with size 1, `find_index` divides by zero, for `hash_table_set`,
`hash_table_get` and `hash_table_del` of every key. -/
theorem C17_init_no_check (key_cmp : K → K → Int) (key_hash : K → Nat → Nat) :
    (∀ size, (hash_table_init size key_cmp key_hash : hash_table K V × Bool).2 = true ∧
      (hash_table_init size key_cmp key_hash : hash_table K V × Bool).1.index_size = size ∧
      (hash_table_init size key_cmp key_hash : hash_table K V × Bool).1.entry_size = 0 ∧
      (hash_table_init size key_cmp key_hash : hash_table K V × Bool).1.index =
        some (List.replicate size none)) ∧
    (∀ key, find_index (hash_table_init 1 key_cmp key_hash : hash_table K V × Bool).1 key =
      .error .div_by_zero) ∧
    (∀ key value,
      hash_table_set (hash_table_init 1 key_cmp key_hash : hash_table K V × Bool).1 key value =
        .error .div_by_zero) ∧
    (∀ key, hash_table_get (hash_table_init 1 key_cmp key_hash : hash_table K V × Bool).1 key =
      .error .div_by_zero) ∧
    (∀ key, hash_table_del (hash_table_init 1 key_cmp key_hash : hash_table K V × Bool).1 key =
      .error .div_by_zero) := by
  refine ⟨fun size => ⟨rfl, rfl, rfl, rfl⟩, ?_, ?_, ?_, ?_⟩
  · intro key
    simp [find_index, hash_table_init]
  · intro key value
    simp [hash_table_set, hash_table_get_entry, find_index, hash_table_init]
  · intro key
    simp [hash_table_get, hash_table_get_entry, find_index, hash_table_init]
  · intro key
    simp [hash_table_del, find_index, hash_table_init]

/-- C20 (code): on a full list `array_list_insert_at` below the end writes outside the
array.  After `array_list_init(&lst, 2)` and two `array_list_push_tail` calls the list has
size 2 and capacity 2; `array_list_insert_at(&lst, v, 0)` then enters `shift_right`, whose
test `(pos + 1) >= lst->capacity` is false, so nothing is resized and the first iteration of
the loop stores `array[2] = array[1]`, one cell past the end of the block. -/
theorem C20_insert_full_out_of_bounds :
    (array_list_init 2 : array_list Int × Bool) = (example_list_init, true) ∧
    array_list_push_tail example_list_init (some 5) = .ok (example_list_one, true) ∧
    array_list_push_tail example_list_one (some 7) = .ok (example_list_full, true) ∧
    example_list_full.size ≤ example_list_full.capacity ∧
    array_list_insert_at example_list_full (some 9) 0 = .error .out_of_bounds ∧
    array_list_insert_at example_list_full (some 9) 1 = .error .out_of_bounds :=
  ⟨rfl, rfl, rfl, by decide, rfl, rfl⟩

theorem example_min_heap_reach :
    HeapReach .MIN_HEAP value_cmp_int example_min_heap [8, 3, 5] :=
  heap_push_list_reach cmpPreorder_value_cmp_int [5, 3, 8] _ [] example_min_heap
    (HeapReach.init 7 (by decide)) (by decide) rfl

theorem example_max_heap_reach :
    HeapReach .MAX_HEAP value_cmp_int example_max_heap [8, 3, 5] :=
  heap_push_list_reach cmpPreorder_value_cmp_int [5, 3, 8] _ [] example_max_heap
    (HeapReach.init 9 (by decide)) (by decide) rfl

/-- C18 (counterexample): `heap_init(&h, MIN_HEAP, value_cmp_int, 2 ^ 61)` returns true
with an array of capacity `2 ^ 61` whose block holds no cell, the byte size having wrapped to
0, and the first `heap_push` writes `array[0]` outside the block. -/
theorem C18_init_wrapped_capacity :
    heap_init .MIN_HEAP value_cmp_int (2 ^ 61) = (example_heap_wrapped_min, true) ∧
    heap_push example_heap_wrapped_min (some 5) = .error .out_of_bounds :=
  ⟨rfl, rfl⟩

/-- C18 (amended): a `MIN_HEAP` whose comparator is that of a total preorder, in a state
reached from `heap_init`, with a capacity for which `(capacity + 1) * sizeof(void*)` does not
wrap, by `heap_push` and `heap_pop` calls with `M` the values pushed and not yet popped:
the cells below `size` hold exactly the values of `M`; `heap_push` on fewer than `2 ^ 53`
values returns true and adds its value; on the empty heap `heap_peek` and `heap_pop` return
`NULL`; otherwise `heap_peek` returns a least element `x` of `M`, and `heap_pop` returns it,
decrements `size` by one and leaves the values of `M` less one occurrence of `x`; and pushing
any values `vs` (up to `2 ^ 53` values in the heap) and then popping `size` times returns all
the values in non-decreasing order and leaves size 0. -/
theorem C18_min_heap {α : Type} [DecidableEq α] (value_cmp : Option α → Option α → Int)
    (hP : CmpPreorder value_cmp) (h : heap α) (M : List α)
    (hR : HeapReach .MIN_HEAP value_cmp h M) :
    h.size = M.length ∧ (heap_values h).Perm (M.map some) ∧
    (∀ v : α, h.size < 2 ^ 53 → ∃ h1, heap_push h (some v) = .ok (h1, true) ∧
      h1.size = h.size + 1 ∧ (heap_values h1).Perm ((v :: M).map some)) ∧
    (M = [] → heap_peek h = .ok none ∧ heap_pop h = .ok (h, none)) ∧
    (M ≠ [] → ∃ x h1, x ∈ M ∧ (∀ y ∈ M, value_cmp (some x) (some y) ≤ 0) ∧
      heap_peek h = .ok (some x) ∧ heap_pop h = .ok (h1, some x) ∧ h1.size + 1 = h.size ∧
      (heap_values h1).Perm ((M.erase x).map some)) ∧
    (∀ vs : List α, M.length + vs.length ≤ 2 ^ 53 →
      ∃ (h1 h2 : heap α) (out : List α), heap_push_list h vs = .ok (h1, true) ∧
      heap_pop_n (M.length + vs.length) h1 = .ok (h2, out.map some) ∧ out.Perm (vs ++ M) ∧
      out.Pairwise (fun a b => value_cmp (some a) (some b) ≤ 0) ∧ h2.size = 0) :=
  heap_reach_spec hP .MIN_HEAP h M hR

/-- Witness of C18: the `MIN_HEAP` of the `int` comparator after the pushes of 5, 3 and 8. -/
theorem C18_min_heap_witness :
    CmpPreorder value_cmp_int ∧
    HeapReach .MIN_HEAP value_cmp_int example_min_heap [8, 3, 5] ∧
    (example_min_heap.size = ([8, 3, 5] : List Int).length ∧
    (heap_values example_min_heap).Perm (([8, 3, 5] : List Int).map some) ∧
    (∀ v : Int, example_min_heap.size < 2 ^ 53 →
      ∃ h1, heap_push example_min_heap (some v) = .ok (h1, true) ∧ h1.size = example_min_heap.size + 1 ∧
      (heap_values h1).Perm ((v :: [8, 3, 5]).map some)) ∧
    (([8, 3, 5] : List Int) = [] →
      heap_peek example_min_heap = .ok none ∧
      heap_pop example_min_heap = .ok (example_min_heap, none)) ∧
    (([8, 3, 5] : List Int) ≠ [] → ∃ x h1, x ∈ ([8, 3, 5] : List Int) ∧
      (∀ y ∈ ([8, 3, 5] : List Int), value_cmp_int (some x) (some y) ≤ 0) ∧
      heap_peek example_min_heap = .ok (some x) ∧
      heap_pop example_min_heap = .ok (h1, some x) ∧ h1.size + 1 = example_min_heap.size ∧
      (heap_values h1).Perm ((([8, 3, 5] : List Int).erase x).map some)) ∧
    (∀ vs : List Int, ([8, 3, 5] : List Int).length + vs.length ≤ 2 ^ 53 →
      ∃ (h1 h2 : heap Int) (out : List Int), heap_push_list example_min_heap vs = .ok (h1, true) ∧
      heap_pop_n (([8, 3, 5] : List Int).length + vs.length) h1 = .ok (h2, out.map some) ∧
      out.Perm (vs ++ [8, 3, 5]) ∧
      out.Pairwise (fun a b => value_cmp_int (some a) (some b) ≤ 0) ∧ h2.size = 0)) :=
  ⟨cmpPreorder_value_cmp_int, example_min_heap_reach,
    C18_min_heap value_cmp_int cmpPreorder_value_cmp_int example_min_heap [8, 3, 5]
      example_min_heap_reach⟩

/-- C19 (counterexample): `heap_init(&h, MAX_HEAP, value_cmp_int, 2 ^ 61)` returns true
with an array of capacity `2 ^ 61` whose block holds no cell, the byte size having wrapped to
0, and the first `heap_push` writes `array[0]` outside the block. -/
theorem C19_init_wrapped_capacity :
    heap_init .MAX_HEAP value_cmp_int (2 ^ 61) = (example_heap_wrapped_max, true) ∧
    heap_push example_heap_wrapped_max (some 5) = .error .out_of_bounds :=
  ⟨rfl, rfl⟩

/-- C19 (amended): a `MAX_HEAP` whose comparator is that of a total preorder, in a state
reached from `heap_init`, with a capacity for which `(capacity + 1) * sizeof(void*)` does not
wrap, by `heap_push` and `heap_pop` calls with `M` the values pushed and not yet popped:
the cells below `size` hold exactly the values of `M`; `heap_push` on fewer than `2 ^ 53`
values returns true and adds its value; on the empty heap `heap_peek` and `heap_pop` return
`NULL`; otherwise `heap_peek` returns a greatest element `x` of `M`, and `heap_pop` returns
it, decrements `size` by one and leaves the values of `M` less one occurrence of `x`; and
pushing any values `vs` (duplicates allowed, up to `2 ^ 53` values in the heap) and then
popping `size` times returns all the values in non-increasing order. -/
theorem C19_max_heap {α : Type} [DecidableEq α] (value_cmp : Option α → Option α → Int)
    (hP : CmpPreorder value_cmp) (h : heap α) (M : List α)
    (hR : HeapReach .MAX_HEAP value_cmp h M) :
    h.size = M.length ∧ (heap_values h).Perm (M.map some) ∧
    (∀ v : α, h.size < 2 ^ 53 → ∃ h1, heap_push h (some v) = .ok (h1, true) ∧
      h1.size = h.size + 1 ∧ (heap_values h1).Perm ((v :: M).map some)) ∧
    (M = [] → heap_peek h = .ok none ∧ heap_pop h = .ok (h, none)) ∧
    (M ≠ [] → ∃ x h1, x ∈ M ∧ (∀ y ∈ M, value_cmp (some x) (some y) ≥ 0) ∧
      heap_peek h = .ok (some x) ∧ heap_pop h = .ok (h1, some x) ∧ h1.size + 1 = h.size ∧
      (heap_values h1).Perm ((M.erase x).map some)) ∧
    (∀ vs : List α, M.length + vs.length ≤ 2 ^ 53 →
      ∃ (h1 h2 : heap α) (out : List α), heap_push_list h vs = .ok (h1, true) ∧
      heap_pop_n (M.length + vs.length) h1 = .ok (h2, out.map some) ∧ out.Perm (vs ++ M) ∧
      out.Pairwise (fun a b => value_cmp (some a) (some b) ≥ 0) ∧ h2.size = 0) :=
  heap_reach_spec hP .MAX_HEAP h M hR

/-- Witness of C19: the `MAX_HEAP` of the `int` comparator after the pushes of 5, 3 and 8. -/
theorem C19_max_heap_witness :
    CmpPreorder value_cmp_int ∧
    HeapReach .MAX_HEAP value_cmp_int example_max_heap [8, 3, 5] ∧
    (example_max_heap.size = ([8, 3, 5] : List Int).length ∧
    (heap_values example_max_heap).Perm (([8, 3, 5] : List Int).map some) ∧
    (∀ v : Int, example_max_heap.size < 2 ^ 53 →
      ∃ h1, heap_push example_max_heap (some v) = .ok (h1, true) ∧ h1.size = example_max_heap.size + 1 ∧
      (heap_values h1).Perm ((v :: [8, 3, 5]).map some)) ∧
    (([8, 3, 5] : List Int) = [] →
      heap_peek example_max_heap = .ok none ∧
      heap_pop example_max_heap = .ok (example_max_heap, none)) ∧
    (([8, 3, 5] : List Int) ≠ [] → ∃ x h1, x ∈ ([8, 3, 5] : List Int) ∧
      (∀ y ∈ ([8, 3, 5] : List Int), value_cmp_int (some x) (some y) ≥ 0) ∧
      heap_peek example_max_heap = .ok (some x) ∧
      heap_pop example_max_heap = .ok (h1, some x) ∧ h1.size + 1 = example_max_heap.size ∧
      (heap_values h1).Perm ((([8, 3, 5] : List Int).erase x).map some)) ∧
    (∀ vs : List Int, ([8, 3, 5] : List Int).length + vs.length ≤ 2 ^ 53 →
      ∃ (h1 h2 : heap Int) (out : List Int), heap_push_list example_max_heap vs = .ok (h1, true) ∧
      heap_pop_n (([8, 3, 5] : List Int).length + vs.length) h1 = .ok (h2, out.map some) ∧
      out.Perm (vs ++ [8, 3, 5]) ∧
      out.Pairwise (fun a b => value_cmp_int (some a) (some b) ≥ 0) ∧ h2.size = 0)) :=
  ⟨cmpPreorder_value_cmp_int, example_max_heap_reach,
    C19_max_heap value_cmp_int cmpPreorder_value_cmp_int example_max_heap [8, 3, 5]
      example_max_heap_reach⟩

/-- C24 (code): on the empty array the `do ... while` loop of `array_binary_search` runs once
before `hi > lo` is tested and reads `haystack[0]`, outside the array; when the cell after
the empty array holds the needle, the result is the index 0 and not -1. -/
theorem C24_binary_search_empty_reads :
    array_binary_search ([] : List Int) 0 5 = .error .out_of_bounds ∧
    array_binary_search ([5, 8] : List Int) 0 5 = .ok 0 ∧
    array_binary_search ([1, 2, 3, 4, 5, 6] : List Int) 6 4 = .ok 3 ∧
    array_binary_search ([1, 2, 3, 4, 5, 6] : List Int) 6 10 = .ok NOT_FOUND :=
  ⟨rfl, rfl, rfl, rfl⟩

/-- C25 (code): after `array_list_init(&lst, 3)`, `array_list_push_tail(&lst, p)` and
`array_list_del_at(&lst, 0)` the list is empty and cell 0 still holds `p`; the linear search
for `p` returns -1 and the binary search, which reads cell 0 before it tests `hi > lo`,
returns 0.  On the list just initialised the two differ on `NULL`. -/
theorem C25_searches_differ_on_empty :
    (array_list_init 3 : array_list Nat × Bool) = (example_search_init, true) ∧
    array_list_push_tail example_search_init (some 7) = .ok (example_search_one, true) ∧
    array_list_del_at example_search_one 0 = .ok (example_search_emptied, some 7) ∧
    example_search_emptied.size = 0 ∧
    array_list_index_of example_search_emptied (some 7) = .ok NOT_FOUND ∧
    array_list_binary_search_index_of example_search_emptied (some 7) = .ok 0 ∧
    array_list_index_of example_search_init none = .ok NOT_FOUND ∧
    array_list_binary_search_index_of example_search_init none = .ok 0 :=
  ⟨rfl, rfl, rfl, rfl, rfl, rfl, rfl, rfl⟩

/-- C28 (code): `linked_list_insert_at(&lst, 99, 1)` on the list 10, 20 returns true and
increments `size` to 3, but links no node of the list to the new node: position 1 still holds
20, position 2 holds nothing, and two nodes are reachable from `head`. -/
theorem C28_insert_at_not_linked :
    Mem.linked_list_push_tail Mem.linked_list_init.1 10 = .ok (example_dll_one, true) ∧
    Mem.linked_list_push_tail example_dll_one 20 = .ok (example_dll_two, true) ∧
    Mem.linked_list_insert_at example_dll_two 99 1 = .ok (example_dll_inserted, true) ∧
    Mem.linked_list_get_at example_dll_inserted 1 = .ok (some 20) ∧
    Mem.linked_list_get_at example_dll_inserted 2 = .ok none ∧
    example_dll_inserted.size = 3 ∧
    Mem.nodes_from_head example_dll_inserted = [0, 1] :=
  ⟨rfl, rfl, rfl, rfl, rfl, rfl, rfl⟩

/-- C29 (code): `linked_list_pop_head` on the list of one element returns the element and
sets `head` to `NULL`, but leaves `tail` at the released node: `linked_list_tail` then reads
that node and returns 10, and after `linked_list_push_tail(&lst, 30)`, which finds `tail` not
`NULL` and so does not set `head`, `linked_list_pop_head` returns `NULL`. -/
theorem C29_pop_head_leaves_tail :
    Mem.linked_list_push_tail Mem.linked_list_init.1 10 = .ok (example_dll_one, true) ∧
    Mem.linked_list_pop_head example_dll_one = .ok (example_dll_popped, some 10) ∧
    example_dll_popped.head = none ∧ example_dll_popped.tail = some 0 ∧
    example_dll_popped.size = 0 ∧
    (example_dll_popped.mem[0]?).map (fun n => n.freed) = some true ∧
    Mem.linked_list_tail example_dll_popped = .ok (some 10) ∧
    Mem.linked_list_push_tail example_dll_popped 30 = .ok (example_dll_pushed, true) ∧
    example_dll_pushed.head = none ∧
    Mem.linked_list_pop_head example_dll_pushed = .ok (example_dll_pushed, none) :=
  ⟨rfl, rfl, rfl, rfl, rfl, rfl, rfl, rfl, rfl, rfl⟩

/-- C30 (code): after `linked_list_pop_head` on the list 10, 20 the list has size 1 and the
forward iteration visits 20, but the new head still has the released node as its `prev`, and
the backward iteration visits 20 and then that node: two visits.  After
`linked_list_insert_at` on the list 10, 20 the size is 3 and both iterations visit two
nodes. -/
theorem C30_backward_iter_visits_released :
    Mem.linked_list_push_tail Mem.linked_list_init.1 10 = .ok (example_dll_one, true) ∧
    Mem.linked_list_push_tail example_dll_one 20 = .ok (example_dll_two, true) ∧
    Mem.linked_list_pop_head example_dll_two = .ok (example_dll_rest, some 10) ∧
    example_dll_rest.size = 1 ∧
    Mem.linked_list_forward_iter example_dll_rest Mem.collect_iter_func [] = .ok [20] ∧
    Mem.linked_list_backward_iter example_dll_rest Mem.collect_iter_func [] = .ok [20, 10] ∧
    Mem.linked_list_insert_at example_dll_two 99 1 = .ok (example_dll_inserted, true) ∧
    example_dll_inserted.size = 3 ∧
    Mem.linked_list_forward_iter example_dll_inserted Mem.collect_iter_func [] =
      .ok [10, 20] ∧
    Mem.linked_list_backward_iter example_dll_inserted Mem.collect_iter_func [] =
      .ok [20, 10] :=
  ⟨rfl, rfl, rfl, rfl, rfl, rfl, rfl, rfl, rfl, rfl⟩

/-- C22 (counterexample): on the list of size 1 and capacity 2,
`array_list_set_at(&lst, SIZE_MAX, v)` returns false and changes nothing: `pos + 1` wraps
to 0, and `array_list_resize` refuses a capacity below the size.  And
`array_list_init(&lst, 2 ^ 61 + 2)` returns true with a block of two cells, the byte size
having wrapped, on which `array_list_set_at(&lst, 5, v)` finds `5` below the capacity, does
not grow the block and writes outside it. -/
theorem C22_set_at_size_max :
    ArrayListWF example_list_one ∧
    array_list_set_at example_list_one (SIZE_MOD - 1) (some 9) =
      .ok (example_list_one, false) ∧
    array_list_init (2 ^ 61 + 2) = (example_list_wrapped_two, true) ∧
    (5 + 1) * 8 < SIZE_MOD ∧
    array_list_set_at example_list_wrapped_two 5 (some 9) = .error .out_of_bounds :=
  ⟨⟨by decide, rfl⟩, rfl, rfl, by decide, rfl⟩

/-- C21 (counterexample): `array_list_init(&lst, 2 ^ 61)` returns true with the capacity
`2 ^ 61` and a block without cells, the byte size `2 ^ 61 * sizeof(void*)` having wrapped to
0; `array_list_push_tail` on this list, of capacity at least 1 and size 0, finds the size
below the capacity, does not grow the block and writes `array[0]` outside it. -/
theorem C21_push_tail_wrapped_capacity :
    array_list_init (2 ^ 61) = (example_list_wrapped, true) ∧
    1 ≤ example_list_wrapped.capacity ∧
    example_list_wrapped.size ≤ example_list_wrapped.capacity ∧
    array_list_push_tail example_list_wrapped (some 5) = .error .out_of_bounds :=
  ⟨rfl, by decide, by decide, rfl⟩

/-- C21 (amended): `array_list_init` with a capacity whose byte size
`capacity * sizeof(void*)` does not wrap returns true and makes a well-formed list, one whose
block holds `capacity` cells with `size <= capacity`; and on a well-formed array list of
capacity at least 1 (and of fewer than `2 ^ 61 - 1` elements, so that the byte size of a
grown array does not wrap) `array_list_push_tail` returns true: the size grows by one, the
value is read at the old size and by `array_list_tail`, the earlier elements are unchanged,
the capacity becomes `max capacity (size + 1)`, and the list is well-formed again, the array
holding that many cells. -/
theorem C21_push_tail {α : Type} (lst : array_list α) (v : Option α) (hW : ArrayListWF lst)
    (h1 : 1 ≤ lst.capacity) (hb : (lst.size + 1) * 8 < SIZE_MOD) :
    (∃ lst1, array_list_push_tail lst v = .ok (lst1, true) ∧ lst1.size = lst.size + 1 ∧
      array_list_get_at lst1 lst.size = .ok v ∧ array_list_tail lst1 = .ok v ∧
      (∀ i, i < lst.size → array_list_get_at lst1 i = array_list_get_at lst i) ∧
      ArrayListWF lst1 ∧ lst1.capacity = max lst.capacity (lst.size + 1)) ∧
    (∀ capacity, capacity * 8 < SIZE_MOD →
      ∃ lst0 : array_list α, array_list_init capacity = (lst0, true) ∧ ArrayListWF lst0 ∧
        lst0.capacity = capacity ∧ lst0.size = 0) := by
  refine ⟨?_, fun capacity hc => array_list_init_wf capacity hc⟩
  obtain ⟨s, c, arr⟩ := lst
  obtain ⟨hsc, harr⟩ := hW
  cases arr with
  | none =>
    simp only at harr h1
    omega
  | some a =>
    simp only at harr hsc h1 hb
    obtain ⟨a1, e1, l1, c1⟩ := array_list_push_tail_spec s c a v hsc harr h1 hb
    refine ⟨_, e1, rfl, ?_, ?_, ?_, ⟨by simp only; omega, l1⟩, rfl⟩
    · rw [array_list_get_at_eq _ _ a1 _ (by omega), if_pos (by simp only; omega), c1, if_pos rfl]
    · have h0 : ¬ (s + 1 = 0) := by omega
      simp only [array_list_tail, h0, if_false, Nat.add_sub_cancel]
      rw [array_load_lt _ _ a1 s (by omega), c1, if_pos rfl]
    · intro i hi
      simp only at hi
      rw [array_list_get_at_eq _ _ a1 _ (by omega), array_list_get_at_eq _ _ a _ (by omega),
        if_pos (by omega), if_pos hi, c1, if_neg (by omega)]

/-- Witness of C21: the push on the full list of size 2 and capacity 2. -/
theorem C21_push_tail_witness :
    ArrayListWF example_list_full ∧ 1 ≤ example_list_full.capacity ∧
    (example_list_full.size + 1) * 8 < SIZE_MOD ∧
    (∃ lst1, array_list_push_tail example_list_full (some 9) = .ok (lst1, true) ∧
      lst1.size = example_list_full.size + 1 ∧
      array_list_get_at lst1 example_list_full.size = .ok (some 9) ∧
      array_list_tail lst1 = .ok (some 9) ∧
      (∀ i, i < example_list_full.size →
        array_list_get_at lst1 i = array_list_get_at example_list_full i) ∧
      ArrayListWF lst1 ∧
      lst1.capacity = max example_list_full.capacity (example_list_full.size + 1)) ∧
    (∀ capacity, capacity * 8 < SIZE_MOD →
      ∃ lst0 : array_list Int, array_list_init capacity = (lst0, true) ∧ ArrayListWF lst0 ∧
        lst0.capacity = capacity ∧ lst0.size = 0) :=
  ⟨⟨by decide, rfl⟩, by decide, by decide,
    C21_push_tail example_list_full (some 9) ⟨by decide, rfl⟩ (by decide) (by decide)⟩

/-- C22 (amended): `array_list_init` with a capacity whose byte size
`capacity * sizeof(void*)` does not wrap returns true and makes a well-formed list, one whose
block holds `capacity` cells with `size <= capacity`; and on a well-formed array list, for a
position `pos` with `(pos + 1) * sizeof(void*) < 2 ^ 64`, `array_list_set_at` returns true,
the list is well-formed again and element `pos` is the value; for `pos < size` the size, the
capacity and every other element are unchanged; for `pos >= size` the size becomes
`pos + 1`, the capacity `max capacity (pos + 1)`, the positions from the old size to
`pos - 1` read `NULL` and the elements below the old size are unchanged. -/
theorem C22_set_at_in_range {α : Type} (lst : array_list α) (pos : Nat) (v : Option α)
    (hW : ArrayListWF lst) (hb : (pos + 1) * 8 < SIZE_MOD) :
    (∃ lst1, array_list_set_at lst pos v = .ok (lst1, true) ∧ ArrayListWF lst1 ∧
      array_list_get_at lst1 pos = .ok v ∧
      (pos < lst.size → lst1.size = lst.size ∧ lst1.capacity = lst.capacity ∧
        ∀ i, i ≠ pos → array_list_get_at lst1 i = array_list_get_at lst i) ∧
      (lst.size ≤ pos → lst1.size = pos + 1 ∧ lst1.capacity = max lst.capacity (pos + 1) ∧
        (∀ i, lst.size ≤ i → i < pos → array_list_get_at lst1 i = .ok none) ∧
        (∀ i, i < lst.size → array_list_get_at lst1 i = array_list_get_at lst i))) ∧
    (∀ capacity, capacity * 8 < SIZE_MOD →
      ∃ lst0 : array_list α, array_list_init capacity = (lst0, true) ∧ ArrayListWF lst0 ∧
        lst0.capacity = capacity ∧ lst0.size = 0) := by
  refine ⟨?_, fun capacity hc => array_list_init_wf capacity hc⟩
  obtain ⟨s, c, arr⟩ := lst
  obtain ⟨hsc, harr⟩ := hW
  cases arr with
  | none =>
    simp only at harr hsc
    have hs0 : s = 0 := by omega
    subst hs0
    subst harr
    obtain ⟨a1, e1, l1, c1⟩ := array_list_set_at_null pos v hb
    refine ⟨_, e1, ⟨le_refl _, l1⟩, ?_, ?_, ?_⟩
    · rw [array_list_get_at_eq _ _ a1 _ (by omega), if_pos (by omega), c1, if_pos rfl]
    · intro h
      simp only at h
      omega
    · intro _
      refine ⟨rfl, by simp, ?_, ?_⟩
      · intro i _ hi
        rw [array_list_get_at_eq _ _ a1 _ (by omega), if_pos (by omega), c1, if_neg (by omega)]
      · intro i hi
        simp only at hi
        omega
  | some a =>
    simp only at harr hsc
    by_cases hp : pos < s
    · refine ⟨_, array_list_set_at_lt s c a pos v hp (by omega), ⟨hsc, by simpa using harr⟩,
        ?_, ?_, ?_⟩
      · rw [array_list_get_at_eq _ _ _ _ (by simp; omega), if_pos hp,
          cell_set a pos v (by omega), Function.update_same]
      · intro _
        refine ⟨rfl, rfl, ?_⟩
        intro i hi
        rw [array_list_get_at_eq _ _ _ _ (by simp; omega),
          array_list_get_at_eq _ _ a _ (by omega), cell_set a pos v (by omega),
          Function.update_noteq hi]
      · intro h
        simp only at h
        omega
    · obtain ⟨a1, e1, l1, c1⟩ := array_list_set_at_ge s c a pos v (by omega) harr hb
      refine ⟨_, e1, ⟨by simp only; omega, l1⟩, ?_, ?_, ?_⟩
      · rw [array_list_get_at_eq _ _ a1 _ (by omega), if_pos (by omega), c1, if_pos rfl]
      · intro h
        simp only at h
        omega
      · intro _
        refine ⟨rfl, rfl, ?_, ?_⟩
        · intro i hi hip
          simp only at hi
          rw [array_list_get_at_eq _ _ a1 _ (by omega), if_pos (by omega), c1,
            if_neg (by omega), if_pos ⟨hi, hip⟩]
        · intro i hi
          simp only at hi
          rw [array_list_get_at_eq _ _ a1 _ (by omega),
            array_list_get_at_eq _ _ a _ (by omega), if_pos (by omega), if_pos hi, c1,
            if_neg (by omega), if_neg (by omega)]

/-- Witness of C22: a write two places past the end of a list of size 1 and capacity 2. -/
theorem C22_set_at_in_range_witness :
    ArrayListWF example_list_one ∧ (3 + 1) * 8 < SIZE_MOD ∧
    (∃ lst1, array_list_set_at example_list_one 3 (some 9) = .ok (lst1, true) ∧
      ArrayListWF lst1 ∧ array_list_get_at lst1 3 = .ok (some 9) ∧
      (3 < example_list_one.size → lst1.size = example_list_one.size ∧
        lst1.capacity = example_list_one.capacity ∧
        ∀ i, i ≠ 3 → array_list_get_at lst1 i = array_list_get_at example_list_one i) ∧
      (example_list_one.size ≤ 3 → lst1.size = 3 + 1 ∧
        lst1.capacity = max example_list_one.capacity (3 + 1) ∧
        (∀ i, example_list_one.size ≤ i → i < 3 → array_list_get_at lst1 i = .ok none) ∧
        (∀ i, i < example_list_one.size →
          array_list_get_at lst1 i = array_list_get_at example_list_one i))) ∧
    (∀ capacity, capacity * 8 < SIZE_MOD →
      ∃ lst0 : array_list Int, array_list_init capacity = (lst0, true) ∧ ArrayListWF lst0 ∧
        lst0.capacity = capacity ∧ lst0.size = 0) :=
  ⟨⟨by decide, rfl⟩, by decide,
    C22_set_at_in_range example_list_one 3 (some 9) ⟨by decide, rfl⟩ (by decide)⟩

/-- C23: on a well-formed array list, `array_list_del_at` at a position below the size
returns the element at that position, decrements the size, keeps the capacity and the
elements before the position, and moves every later element one place to the left; at a
position not below the size it returns `NULL` and leaves the list as it is. -/
theorem C23_del_at {α : Type} (lst : array_list α) (pos : Nat) (hW : ArrayListWF lst) :
    (pos < lst.size → ∃ lst1 x, array_list_get_at lst pos = .ok x ∧
      array_list_del_at lst pos = .ok (lst1, x) ∧ lst1.size = lst.size - 1 ∧
      lst1.capacity = lst.capacity ∧ ArrayListWF lst1 ∧
      (∀ i, i < pos → array_list_get_at lst1 i = array_list_get_at lst i) ∧
      (∀ i, pos ≤ i → array_list_get_at lst1 i = array_list_get_at lst (i + 1))) ∧
    (lst.size ≤ pos → array_list_del_at lst pos = .ok (lst, none)) := by
  refine ⟨?_, ?_⟩
  · intro hp
    obtain ⟨s, c, arr⟩ := lst
    obtain ⟨hsc, harr⟩ := hW
    simp only at hp
    cases arr with
    | none =>
      simp only at harr hsc
      omega
    | some a =>
      simp only at harr hsc
      obtain ⟨a1, e1, l1, c1⟩ := array_list_del_at_lt s c a pos hp (by omega)
      refine ⟨_, cell a pos, array_list_get_at_lt s c a pos hp (by omega), e1, rfl, rfl,
        ⟨by simp only; omega, l1.trans harr⟩, ?_, ?_⟩
      · intro i hi
        rw [array_list_get_at_eq _ _ a1 _ (by omega), array_list_get_at_eq _ _ a _ (by omega),
          if_pos (by omega), if_pos (by omega), c1, if_neg (by omega)]
      · intro i hi
        rw [array_list_get_at_eq _ _ a1 _ (by omega), array_list_get_at_eq _ _ a _ (by omega)]
        by_cases h1 : i + 1 < s
        · rw [if_pos (by omega), if_pos h1, c1, if_pos ⟨hi, h1⟩]
        · rw [if_neg (by omega), if_neg h1]
  · intro hp
    have : pos ≥ lst.size := hp
    simp only [array_list_del_at, this, if_true]

/-- Witness of C23: deletions on the list of size 2. -/
theorem C23_del_at_witness :
    ArrayListWF example_list_full ∧
    ((0 < example_list_full.size → ∃ lst1 x, array_list_get_at example_list_full 0 = .ok x ∧
      array_list_del_at example_list_full 0 = .ok (lst1, x) ∧
      lst1.size = example_list_full.size - 1 ∧
      lst1.capacity = example_list_full.capacity ∧ ArrayListWF lst1 ∧
      (∀ i, i < 0 → array_list_get_at lst1 i = array_list_get_at example_list_full i) ∧
      (∀ i, 0 ≤ i →
        array_list_get_at lst1 i = array_list_get_at example_list_full (i + 1))) ∧
    (example_list_full.size ≤ 0 →
      array_list_del_at example_list_full 0 = .ok (example_list_full, none))) :=
  ⟨⟨by decide, rfl⟩, C23_del_at example_list_full 0 ⟨by decide, rfl⟩⟩

/-- C26: on a well-formed doubly-linked list with the nodes `ps` (of fewer than `2 ^ 64 - 1`
nodes, so that `++lst->size` does not wrap) `linked_list_push_tail` returns true; the list is
well formed again, with the new node after the nodes `ps`; the head-to-tail sequence of
values is the old one followed by the value; the size grows by one; `linked_list_tail`
returns the value; and on an empty list the new node is both head and tail. -/
theorem C26_push_tail {α : Type} (lst : Mem.linked_list α) (ps : List Nat) (v : α)
    (hW : Mem.WellFormed lst ps) (hb : lst.size + 1 < SIZE_MOD) :
    ∃ lst1, Mem.linked_list_push_tail lst v = .ok (lst1, true) ∧
      Mem.WellFormed lst1 (ps ++ [lst.mem.length]) ∧
      Mem.list_values lst1 (ps ++ [lst.mem.length]) = Mem.list_values lst ps ++ [some v] ∧
      lst1.size = lst.size + 1 ∧ Mem.linked_list_tail lst1 = .ok (some v) ∧
      (ps = [] → lst1.head = lst1.tail ∧ Mem.linked_list_head lst1 = .ok (some v)) :=
  dll_push_tail_wf lst ps v hW hb

/-- Witness of C26: a push on the list 10, 20. -/
theorem C26_push_tail_witness :
    Mem.WellFormed example_dll_two [0, 1] ∧ example_dll_two.size + 1 < SIZE_MOD ∧
    ∃ lst1, Mem.linked_list_push_tail example_dll_two 30 = .ok (lst1, true) ∧
      Mem.WellFormed lst1 ([0, 1] ++ [example_dll_two.mem.length]) ∧
      Mem.list_values lst1 ([0, 1] ++ [example_dll_two.mem.length]) =
        Mem.list_values example_dll_two [0, 1] ++ [some 30] ∧
      lst1.size = example_dll_two.size + 1 ∧ Mem.linked_list_tail lst1 = .ok (some 30) ∧
      (([0, 1] : List Nat) = [] →
        lst1.head = lst1.tail ∧ Mem.linked_list_head lst1 = .ok (some 30)) :=
  ⟨example_dll_two_wf, by decide,
    C26_push_tail example_dll_two [0, 1] 30 example_dll_two_wf (by decide)⟩

/-- C31, on the code: `bit_array_init(&ba, 33)` makes an array of `size_bits = 64` bits, and
for the bit index 32, which is below `size_bits`, each of `bit_array_set`, `bit_array_clear`
and `bit_array_test` selects the word `32 / 64 = 0` and evaluates `1U << (32 % 64)`, a shift
of a 32-bit operand by 32, which C leaves undefined: no bit 32 is set, cleared or tested. -/
theorem C31_bit_32_shift_too_wide :
    bit_array_init 33 = (example_bits_64, true) ∧ example_bits_64.size_bits = 64 ∧
    bit_array_set example_bits_64 32 = .error .shift_too_wide ∧
    bit_array_clear example_bits_64 32 = .error .shift_too_wide ∧
    bit_array_test example_bits_64 32 = .error .shift_too_wide :=
  ⟨rfl, rfl, rfl, rfl, rfl⟩

/-- C32, on the code: in the array of 64 bits that `bit_array_init(&ba, 33)` makes, none of
the 32 bit indices `32 .. 63` can be set or cleared: each selects the word 0, as the indices
`0 .. 31` do, with a shift of 32 or more, which C leaves undefined on the 32-bit word.  The
second word that the array allocates is used by no index below `size_bits`. -/
theorem C32_upper_bits_not_stored :
    bit_array_init 33 = (example_bits_64, true) ∧
    ∀ k : Fin 32,
      bit_array_set example_bits_64 (32 + k.val) = .error .shift_too_wide ∧
      bit_array_clear example_bits_64 (32 + k.val) = .error .shift_too_wide := by
  refine ⟨rfl, fun k => ?_⟩
  have h0 : (64 : Nat) ≠ 0 := by decide
  have hm : (32 + k.val) % 64 = 32 + k.val := Nat.mod_eq_of_lt (by omega)
  have hs := shl_too_wide (32 + k.val) (by omega)
  constructor
  · simp only [bit_array_set, example_bits_64, h0, if_false, hm, hs]
  · simp only [bit_array_clear, example_bits_64, h0, if_false, hm, hs]

/-- C33, on the code: in the array of 32 bits that `bit_array_init(&ba, 5)` makes, which
has one word, `bit_array_set`, `bit_array_clear` and `bit_array_test` of the index 32 access
the word `32 / 32 = 1`, outside the block, while the same calls with `32 mod 32 = 0` act on
bit 0 of the word 0. -/
theorem C33_index_not_wrapped :
    bit_array_init 5 = (example_bits_32, true) ∧
    bit_array_set example_bits_32 32 = .error .out_of_bounds ∧
    bit_array_clear example_bits_32 32 = .error .out_of_bounds ∧
    bit_array_test example_bits_32 32 = .error .out_of_bounds ∧
    bit_array_set example_bits_32 (32 % example_bits_32.size_bits) =
      .ok { size_bits := 32, bit_array := some [1] } ∧
    bit_array_clear example_bits_32 (32 % example_bits_32.size_bits) = .ok example_bits_32 ∧
    bit_array_test example_bits_32 (32 % example_bits_32.size_bits) = .ok false :=
  ⟨rfl, rfl, rfl, rfl, rfl, rfl, rfl⟩

/-- C34, counterexample: for the size `SIZE_MAX` the sum `size + 31` wraps, and
`bit_array_init` returns true with `size_bits = 0` and an empty block; and in the array of
`bit_array_init(&ba, 33)` the test of bit 32, which is below `size_bits = 64`, is a shift by
the width of the word and yields no result. -/
theorem C34_init_size_max :
    bit_array_init (SIZE_MOD - 1) = ({ size_bits := 0, bit_array := some [] }, true) ∧
    bit_array_init 33 = (example_bits_64, true) ∧
    bit_array_test example_bits_64 32 = .error .shift_too_wide :=
  ⟨by decide, rfl, rfl⟩

/-- C34, amended: for every size with `size + 31 < 2 ^ 64`, `bit_array_init` returns true
with `size_bits` the smallest multiple of 32 that is at least `size`, allocates
`size_bits / 32` words, all zero, and every bit `k < size_bits` with `k < 32` tests false;
the sizes 30, 9 and 32 give `size_bits = 32`. -/
theorem C34_init_rounds_up (size : Nat) (h : size + 31 < SIZE_MOD) :
    ∃ ba, bit_array_init size = (ba, true) ∧
      32 ∣ ba.size_bits ∧ size ≤ ba.size_bits ∧
      (∀ m, 32 ∣ m → size ≤ m → ba.size_bits ≤ m) ∧
      ba.bit_array = some (List.replicate (ba.size_bits / 32) 0) ∧
      (∀ k, k < ba.size_bits → k < 32 → bit_array_test ba k = .ok false) ∧
      (bit_array_init 30).1.size_bits = 32 ∧ (bit_array_init 9).1.size_bits = 32 ∧
      (bit_array_init 32).1.size_bits = 32 := by
  refine ⟨_, bit_array_init_eq size h, Dvd.intro_left _ rfl, ?_, ?_, ?_, ?_, by decide,
    by decide, by decide⟩
  · show size ≤ (size + 31) / 32 * 32
    omega
  · intro m hm hs
    show (size + 31) / 32 * 32 ≤ m
    obtain ⟨c, rfl⟩ := hm
    omega
  · show some (List.replicate ((size + 31) / 32) 0) =
      some (List.replicate ((size + 31) / 32 * 32 / 32) 0)
    rw [Nat.mul_div_cancel _ (by decide)]
  · intro k hk hk32
    have hk : k < (size + 31) / 32 * 32 := hk
    have hq : (size + 31) / 32 = (size + 31) / 32 - 1 + 1 := by omega
    rw [hq, List.replicate_succ]
    rw [bit_array_test_word0 _ 0 _ k hk32 (by omega)]
    simp

/-- Witness of C34 (amended) at the size 30 of the test `test_bit_array_init_and_destroy`. -/
theorem C34_init_rounds_up_witness :
    30 + 31 < SIZE_MOD ∧
    ∃ ba, bit_array_init 30 = (ba, true) ∧
      32 ∣ ba.size_bits ∧ 30 ≤ ba.size_bits ∧
      (∀ m, 32 ∣ m → 30 ≤ m → ba.size_bits ≤ m) ∧
      ba.bit_array = some (List.replicate (ba.size_bits / 32) 0) ∧
      (∀ k, k < ba.size_bits → k < 32 → bit_array_test ba k = .ok false) ∧
      (bit_array_init 30).1.size_bits = 32 ∧ (bit_array_init 9).1.size_bits = 32 ∧
      (bit_array_init 32).1.size_bits = 32 :=
  ⟨by decide, C34_init_rounds_up 30 (by decide)⟩

/-- C35, on the code: in the filter of `bloom_filter_init(&bf, 33)`, which has 64 bits, a
key whose first hash is 40 modulo 64 cannot be added: `bloom_filter_add` calls
`bit_array_set` with the index 40, which evaluates `1U << 40` on the 32-bit word, and
`bloom_filter_check` of the key makes the same shift in `bit_array_test`. -/
theorem C35_add_shift_too_wide :
    bloom_filter_init 33 = (example_bloom_64, true) ∧
    bloom_index example_murmur3 [102, 111, 111] 64 0 = 40 ∧
    bloom_filter_add example_murmur3 example_bloom_64 [102, 111, 111] =
      .error .shift_too_wide ∧
    bloom_filter_check example_murmur3 example_bloom_64 [102, 111, 111] =
      .error .shift_too_wide :=
  ⟨rfl, rfl, rfl, rfl⟩

/-- C36: for every 32-bit value `x`, `net_utils_long_to_ipv4` writes the four octets of `x`,
most significant first, in decimal and separated by dots, and `net_utils_ipv4_to_long` of
that string returns `x`; 0 gives "0.0.0.0", 16909060 gives "1.2.3.4" and 4294967295 gives
"255.255.255.255". -/
theorem C36_ipv4_round_trip (x : Nat) (hx : x < UINT32_MOD) :
    ∃ s, net_utils_long_to_ipv4 x = some s ∧
      s = Nat.toDigits 10 (x / 2 ^ 24 % 256) ++ '.' ::
        (Nat.toDigits 10 (x / 2 ^ 16 % 256) ++ '.' ::
          (Nat.toDigits 10 (x / 2 ^ 8 % 256) ++ '.' :: Nat.toDigits 10 (x % 256))) ∧
      net_utils_ipv4_to_long s = .ok x ∧
      net_utils_long_to_ipv4 0 = some "0.0.0.0".toList ∧
      net_utils_long_to_ipv4 16909060 = some "1.2.3.4".toList ∧
      net_utils_long_to_ipv4 4294967295 = some "255.255.255.255".toList :=
  ⟨_, net_utils_long_to_ipv4_eq x, rfl, net_utils_ipv4_round_trip x hx, by decide, by decide,
    by decide⟩

/-- Witness of C36 at the address 16909060 of the tests, "1.2.3.4". -/
theorem C36_ipv4_round_trip_witness :
    16909060 < UINT32_MOD ∧
    ∃ s, net_utils_long_to_ipv4 16909060 = some s ∧
      s = Nat.toDigits 10 (16909060 / 2 ^ 24 % 256) ++ '.' ::
        (Nat.toDigits 10 (16909060 / 2 ^ 16 % 256) ++ '.' ::
          (Nat.toDigits 10 (16909060 / 2 ^ 8 % 256) ++ '.' ::
            Nat.toDigits 10 (16909060 % 256))) ∧
      net_utils_ipv4_to_long s = .ok 16909060 ∧
      net_utils_long_to_ipv4 0 = some "0.0.0.0".toList ∧
      net_utils_long_to_ipv4 16909060 = some "1.2.3.4".toList ∧
      net_utils_long_to_ipv4 4294967295 = some "255.255.255.255".toList :=
  ⟨by decide, C36_ipv4_round_trip 16909060 (by decide)⟩

/-- C37, on the code: with a comparator for which the keys 0 and 2 both compare equal to
the key 1, and a chain that holds the entries of the keys 0 and 2, `hash_table_del` of the
key 1 has `linked_list_del_at` unlink and release the node of the key 0 and then reads
`p_curr->next` of the released node to go on to the entry of the key 2: what the walk does
with the second matching entry depends on a read of released memory. -/
theorem C37_del_reads_released_node :
    hash_table_set_seq (hash_table_init 2 example_near_cmp int_key_hash).1
      [(some 0, some 10), (some 2, some 20)] = .ok (example_near_table, [true, true]) ∧
    chain_at example_near_table 0 =
      [{ key := some 0, value := some 10, must_destroy := 0 },
       { key := some 2, value := some 20, must_destroy := 0 }] ∧
    example_near_cmp (some 0) (some 1) = 0 ∧ example_near_cmp (some 2) (some 1) = 0 ∧
    hash_table_del example_near_table (some 1) = .error .use_after_free :=
  ⟨rfl, rfl, rfl, rfl, rfl⟩

/-- C38: for every table with `index_size >= 2`, every key and every hash function,
`find_index` returns `key_hash(key, index_size) mod (index_size - 1)` without a division by
zero, and the result is smaller than `index_size - 1`; and in every state reachable from
`hash_table_init` with a size of at least 2 by `hash_table_set`, `hash_table_set_entry`,
`hash_table_del` and `hash_table_rehash` (to a size of at least 2), for every comparator and
hash function, the last slot `index[index_size - 1]` is `NULL` and holds no chain. -/
theorem C38_find_index_in_range (key_cmp : K → K → Int) (key_hash : K → Nat → Nat)
    (ht0 : hash_table K V) (key : K) (h2 : 2 ≤ ht0.index_size)
    (ht : hash_table K V) (hR : Reachable key_cmp key_hash ht) :
    find_index ht0 key = .ok (ht0.key_hash key ht0.index_size % (ht0.index_size - 1)) ∧
    ht0.key_hash key ht0.index_size % (ht0.index_size - 1) < ht0.index_size - 1 ∧
    2 ≤ ht.index_size ∧
    (∃ idx, ht.index = some idx ∧ idx.length = ht.index_size ∧
      idx[ht.index_size - 1]? = some none) ∧
    chain_at ht (ht.index_size - 1) = [] := by
  have hP := reachable_placement key_cmp key_hash ht hR
  obtain ⟨idx, hidx, hlen⟩ := hP.has_index
  exact ⟨find_index_ok ht0 key h2, slot_of_lt_pred ht0 key h2, hP.two_le,
    ⟨idx, hidx, hlen, hP.last_null idx hidx⟩,
    chain_at_eq_nil ht idx _ hidx (hP.last_null idx hidx)⟩

/-- Witness of C38 at the table `example_table` of size 2 and the key 4. -/
theorem C38_find_index_in_range_witness :
    2 ≤ example_table.index_size ∧ Reachable value_cmp_int int_key_hash example_table ∧
    find_index example_table (some 4) =
      .ok (example_table.key_hash (some 4) example_table.index_size %
        (example_table.index_size - 1)) ∧
    example_table.key_hash (some 4) example_table.index_size %
      (example_table.index_size - 1) < example_table.index_size - 1 ∧
    2 ≤ example_table.index_size ∧
    (∃ idx, example_table.index = some idx ∧ idx.length = example_table.index_size ∧
      idx[example_table.index_size - 1]? = some none) ∧
    chain_at example_table (example_table.index_size - 1) = [] :=
  ⟨by decide, example_table_reachable,
    C38_find_index_in_range value_cmp_int int_key_hash example_table (some 4) (by decide)
      example_table example_table_reachable⟩

/-- C39: in every state reachable from `hash_table_init` with a size of at least 2 by
`hash_table_set`, `hash_table_set_entry`, `hash_table_del` and `hash_table_rehash` (to a
size of at least 2), for every comparator and hash function, every entry stored in the
chain at slot `i` has `find_index(entry.key) = i` for the current `index_size`, so that the
lookup of its key scans the chain that holds it and, when the key compares equal to itself,
returns an entry of that chain whose key compares equal; after a `hash_table_rehash` the
same holds for the new size. -/
theorem C39_placement (key_cmp : K → K → Int) (key_hash : K → Nat → Nat)
    (ht : hash_table K V) (hR : Reachable key_cmp key_hash ht) :
    (∀ i, ∀ e ∈ chain_at ht i,
      find_index ht e.key = .ok i ∧
      key_hash e.key ht.index_size % (ht.index_size - 1) = i ∧
      (key_cmp e.key e.key = 0 →
        ∃ p, hash_table_get_entry ht e.key = .ok (some p) ∧ p.slot = i ∧
          p.entry ∈ chain_at ht i ∧ key_cmp p.entry.key e.key = 0)) ∧
    (∀ (new_size : Nat) (ht' : hash_table K V) (r : Bool), 2 ≤ new_size →
      hash_table_rehash ht new_size = .ok (ht', r) →
      ht'.index_size = new_size ∧
      ∀ i, ∀ e ∈ chain_at ht' i,
        find_index ht' e.key = .ok i ∧ key_hash e.key new_size % (new_size - 1) = i) := by
  have hP := reachable_placement key_cmp key_hash ht hR
  have hfind : ∀ (T : hash_table K V), Placement key_cmp key_hash T →
      ∀ i, ∀ e ∈ chain_at T i, find_index T e.key = .ok i ∧
        key_hash e.key T.index_size % (T.index_size - 1) = i := by
    intro T hT i e he
    have hs := hT.placed i e he
    refine ⟨by rw [find_index_ok T e.key hT.two_le, hs], ?_⟩
    rw [← hT.hash_eq]
    exact hs
  refine ⟨?_, ?_⟩
  · intro i e he
    have hs := hP.placed i e he
    refine ⟨(hfind ht hP i e he).1, (hfind ht hP i e he).2, ?_⟩
    intro hrefl
    rcases placement_get_entry key_cmp key_hash ht hP e.key with
      ⟨_, hno⟩ | ⟨idx, p_list, pre, e0, post, hidx, hsl, hn, h0, _, hg⟩
    · rw [hs] at hno
      exact absurd hrefl (hno e he)
    · refine ⟨_, hg, hs, ?_, h0⟩
      have hnodes := chain_at_eq_nodes ht idx _ p_list hidx hsl
      rw [hs] at hnodes
      rw [hnodes, hn]
      simp
  · intro new_size ht' r hn hre
    obtain ⟨hP', hsz⟩ := placement_rehash key_cmp key_hash ht ht' hP new_size hn r hre
    refine ⟨hsz, ?_⟩
    intro i e he
    have := hfind ht' hP' i e he
    rw [hsz] at this
    exact this

/-- Witness of C39 at the reachable table `example_table`, whose chain of slot 0 holds the
keys 1 and 4. -/
theorem C39_placement_witness :
    Reachable value_cmp_int int_key_hash example_table ∧
    (∀ i, ∀ e ∈ chain_at example_table i,
      find_index example_table e.key = .ok i ∧
      int_key_hash e.key example_table.index_size % (example_table.index_size - 1) = i ∧
      (value_cmp_int e.key e.key = 0 →
        ∃ p, hash_table_get_entry example_table e.key = .ok (some p) ∧ p.slot = i ∧
          p.entry ∈ chain_at example_table i ∧ value_cmp_int p.entry.key e.key = 0)) ∧
    (∀ (new_size : Nat) (ht' : hash_table (Option Int) Nat) (r : Bool), 2 ≤ new_size →
      hash_table_rehash example_table new_size = .ok (ht', r) →
      ht'.index_size = new_size ∧
      ∀ i, ∀ e ∈ chain_at ht' i,
        find_index ht' e.key = .ok i ∧ int_key_hash e.key new_size % (new_size - 1) = i) :=
  ⟨example_table_reachable,
    C39_placement value_cmp_int int_key_hash example_table example_table_reachable⟩

/-- C40 (counterexample): `heap_init(&h, MIN_HEAP, value_cmp_int, 2 ^ 61 - 1)` increments
the odd capacity to `2 ^ 61` and returns true with an array whose block holds no cell, the
byte size having wrapped to 0; the first `heap_push` does not return with the order
restored: it writes `array[0]` outside the block. -/
theorem C40_init_wrapped_capacity :
    heap_init .MIN_HEAP value_cmp_int (2 ^ 61 - 1) = (example_heap_wrapped_min, true) ∧
    SIZE_MOD ≤ (2 ^ 61 - 1 + 1) * 8 ∧
    heap_push example_heap_wrapped_min (some 7) = .error .out_of_bounds :=
  ⟨rfl, by decide, rfl⟩

/-- C40 (amended): for a comparator that is a total preorder, in every state reachable from
`heap_init`, with a capacity for which `(capacity + 1) * sizeof(void*)` does not wrap, by
`heap_push` (on fewer than `2 ^ 53` values) and `heap_pop`, every index `i` with
`1 <= i < size` has the value at the parent index `(i - 1) / 2` compare `<=` the value at
`i` (`MIN_HEAP`) or `>=` it (`MAX_HEAP`), and the cells below `size` hold exactly the values
pushed and not yet popped; the recursions of `heapify_up` and `heapify_down` end within `index + 1` and
`size + 1 - index` calls; a `heap_push` and a `heap_pop` return with the order restored; and
the slot at index `size` in which a pop leaves the old last value is not among the values of
the heap, in that state and in every later one. -/
theorem C40_heap_order {α : Type} [DecidableEq α] (value_cmp : Option α → Option α → Int)
    (hP : CmpPreorder value_cmp) (type : heap_type) (h : heap α) (M : List α)
    (hR : HeapReach type value_cmp h M) :
    ParentOrder type value_cmp h ∧ (heap_values h).Perm (M.map some) ∧
    (∀ fuel index, index < fuel → heapify_up fuel h index ≠ .error .out_of_fuel) ∧
    (∀ fuel index, 1 ≤ fuel → h.size + 1 ≤ fuel + index →
      heapify_down fuel h index ≠ .error .out_of_fuel) ∧
    (∀ v : α, h.size < 2 ^ 53 → ∃ h1, heap_push h (some v) = .ok (h1, true) ∧
      HeapReach type value_cmp h1 (v :: M) ∧ ParentOrder type value_cmp h1 ∧
      (heap_values h1).Perm ((v :: M).map some)) ∧
    (M ≠ [] → ∃ x h1, heap_pop h = .ok (h1, some x) ∧
      HeapReach type value_cmp h1 (M.erase x) ∧ ParentOrder type value_cmp h1 ∧
      (heap_values h1).Perm ((M.erase x).map some) ∧ h1.size + 1 = h.size ∧
      (2 ≤ h.size → ∃ t, heap_cell h (h.size - 1) = some t ∧
        heap_cell h1 h1.size = some t)) := by
  obtain ⟨hI, hM⟩ := heapReach_inv hP hR
  refine ⟨parentOrder_of_inv hI, hM, fun fuel index hf => heapify_up_fuel fuel h index hf,
    fun fuel index h1 h2 => heapify_down_fuel fuel h index h1 h2, ?_, ?_⟩
  · intro v hb
    obtain ⟨h1, e1, hI1, _, hv⟩ := heap_push_step hP hI hM hb v
    exact ⟨h1, e1, HeapReach.push v h1 true hR hb e1, parentOrder_of_inv hI1, hv⟩
  · intro hne
    obtain ⟨x, h1, _, _, _, e1, hI1, hs, hv⟩ := heap_pop_step hP hI hM hne
    refine ⟨x, h1, e1, HeapReach.pop x h1 hR e1, parentOrder_of_inv hI1, hv, hs, ?_⟩
    intro h2
    obtain ⟨x2, h2', t, e2, _, ht1, ht2⟩ := heap_pop_stale hP hI h2
    rw [e1] at e2
    simp only [Except.ok.injEq, Prod.mk.injEq] at e2
    rw [e2.1]
    exact ⟨t, ht1, ht2⟩

/-- Witness of C40 at the `MIN_HEAP` of the `int` values 5, 3 and 8. -/
theorem C40_heap_order_witness :
    CmpPreorder value_cmp_int ∧ HeapReach .MIN_HEAP value_cmp_int example_min_heap [8, 3, 5] ∧
    ParentOrder .MIN_HEAP value_cmp_int example_min_heap ∧
    (heap_values example_min_heap).Perm ([8, 3, 5].map some) ∧
    (∀ fuel index, index < fuel →
      heapify_up fuel example_min_heap index ≠ .error .out_of_fuel) ∧
    (∀ fuel index, 1 ≤ fuel → example_min_heap.size + 1 ≤ fuel + index →
      heapify_down fuel example_min_heap index ≠ .error .out_of_fuel) ∧
    (∀ v : Int, example_min_heap.size < 2 ^ 53 →
      ∃ h1, heap_push example_min_heap (some v) = .ok (h1, true) ∧
      HeapReach .MIN_HEAP value_cmp_int h1 (v :: [8, 3, 5]) ∧
      ParentOrder .MIN_HEAP value_cmp_int h1 ∧
      (heap_values h1).Perm ((v :: [8, 3, 5]).map some)) ∧
    (([8, 3, 5] : List Int) ≠ [] → ∃ x h1, heap_pop example_min_heap = .ok (h1, some x) ∧
      HeapReach .MIN_HEAP value_cmp_int h1 (([8, 3, 5] : List Int).erase x) ∧
      ParentOrder .MIN_HEAP value_cmp_int h1 ∧
      (heap_values h1).Perm ((([8, 3, 5] : List Int).erase x).map some) ∧
      h1.size + 1 = example_min_heap.size ∧
      (2 ≤ example_min_heap.size → ∃ t,
        heap_cell example_min_heap (example_min_heap.size - 1) = some t ∧
        heap_cell h1 h1.size = some t)) :=
  ⟨cmpPreorder_value_cmp_int, example_min_heap_reach,
    C40_heap_order value_cmp_int cmpPreorder_value_cmp_int .MIN_HEAP example_min_heap [8, 3, 5]
      example_min_heap_reach⟩

end Claims


end Lupra
